import Mathlib

/-!
Verification development for `ip_list_calculator.py`.

The program computes a result set of IP network blocks from an ADD set and a
SUBTRACT set of CIDR blocks, parsed from textual specifiers.  Its algebra is
built on Python 3.10's `ipaddress` standard library:
`summarize_address_range`, `address_exclude`, `collapse_addresses`,
`subnet_of`, `overlaps`, `ip_address`, `ip_interface`.  The embedding below
models the repository's own functions (`ip_network_exclude`,
`get_from_ip_range`, `get_from_ip_count`, `get_from_ip_network`,
`get_from_string`, and the exclusion driver in `main`) together with the
`ipaddress` primitives they call, at the bit-exact numeric level.

Machine addresses are modelled as natural numbers below `2 ^ width`
(width 32 for IPv4, 128 for IPv6).  Python exceptions are modelled with
`Option`/`Except`: a `none` / `.error` result is an uncaught Python
exception of the corresponding class.  Recursive library loops are embedded
with an explicit fuel argument; sufficiency of the fuel passed at each call
site is proved below, so the embedded functions agree with the (terminating)
Python originals on all inputs.
-/

namespace IpCalc

/-- Python exception classes relevant to the program.  `valueError` is the
plain builtin `ValueError` (note: `AddressValueError` and
`NetmaskValueError` are subclasses of it, but an `except AddressValueError`
clause does not catch a plain `ValueError`). -/
inductive PyErr where
  | addressValueError
  | netmaskValueError
  | valueError
  | typeError
  | attributeError
deriving DecidableEq

instance {ε α : Type} [DecidableEq ε] [DecidableEq α] : DecidableEq (Except ε α) := fun x y =>
  match x, y with
  | .ok a, .ok b => if h : a = b then .isTrue (by rw [h]) else .isFalse (by simp [h])
  | .error a, .error b => if h : a = b then .isTrue (by rw [h]) else .isFalse (by simp [h])
  | .ok _, .error _ => .isFalse (by simp)
  | .error _, .ok _ => .isFalse (by simp)

/-- An IP network object (`IPv4Network` / `IPv6Network`): version (4 or 6),
network address (an integer), and CIDR prefix length.  Python's network
objects always keep host bits of `addr` zero. -/
structure Net where
  version : Nat
  addr : Nat
  prefixlen : Nat
deriving DecidableEq

/-- Address width of a family: 32 bits for version 4, 128 for version 6. -/
def widthOf (v : Nat) : Nat := if v = 4 then 32 else 128

def Net.width (n : Net) : Nat := widthOf n.version

/-- Number of host bits of the block. -/
def Net.hostBits (n : Net) : Nat := n.width - n.prefixlen

/-- Number of addresses in the block. -/
def Net.size (n : Net) : Nat := 2 ^ n.hostBits

/-- `broadcast_address` as an integer: the largest address of the block. -/
def Net.bcast (n : Net) : Nat := n.addr + n.size - 1

/-- Well-formedness of a network object as produced by `ipaddress`:
a real family, prefix within the address width, host bits of the network
address zero (alignment), and the block inside the address space. -/
def Net.WF (n : Net) : Prop :=
  (n.version = 4 ∨ n.version = 6) ∧ n.prefixlen ≤ n.width ∧
    n.size ∣ n.addr ∧ n.addr + n.size ≤ 2 ^ n.width

instance (n : Net) : Decidable n.WF := by unfold Net.WF; infer_instance

/-- The set of addresses covered by a block, tagged with the family so that
blocks of different families have disjoint address sets. -/
def Net.toSet (n : Net) : Set (Nat × Nat) :=
  {p | p.1 = n.version ∧ n.addr ≤ p.2 ∧ p.2 ≤ n.bcast}

/-- Union of the address sets of a list of blocks. -/
def listSet (l : List Net) : Set (Nat × Nat) := {p | ∃ n ∈ l, p ∈ n.toSet}

/-- Two blocks cover disjoint address sets. -/
def NetDisjoint (a b : Net) : Prop := a.toSet ∩ b.toSet = ∅

/-! ### `ipaddress` comparison primitives

`__contains__` of a network tests `address & netmask == network_address`,
i.e. the address lies in the same aligned chunk; on a version mismatch it
returns `False`.  `overlaps` is four such containment tests.
`subnet_of` raises `TypeError` on a version mismatch (modelled at each call
site) and otherwise compares the interval endpoints. -/

/-- `address in network` (`_BaseNetwork.__contains__`) for an address of the
same family: `addr & netmask == network_address`. -/
def containsAddr (n : Net) (a : Nat) : Bool := a / n.size * n.size == n.addr

/-- `a.subnet_of(b)` for same-family networks:
`b.network_address <= a.network_address and a.broadcast_address <= b.broadcast_address`. -/
def subnetOfB (a b : Net) : Bool :=
  decide (b.addr ≤ a.addr) && decide (a.bcast ≤ b.bcast)

/-- `a.overlaps(b)`: the four `__contains__` tests of CPython's
`_BaseNetwork.overlaps`; each returns `False` on a version mismatch. -/
def overlapsB (a b : Net) : Bool :=
  (a.version == b.version) &&
    (containsAddr b a.addr || containsAddr b a.bcast ||
      containsAddr a b.addr || containsAddr a b.bcast)

/-! ### `address_exclude`

CPython bisects `self` into its two halves (`subnets()`), emits the half not
containing `other` and recurses into the containing half, stopping when a
half equals `other`.  The recursion depth is bounded by the address width;
we pass the width as fuel and prove it sufficient. -/

/-- The two halves of a block (`self.subnets()` with `prefixlen_diff=1`):
lower half and upper half at prefix length `+1`. -/
def netHalves (n : Net) : Net × Net :=
  (⟨n.version, n.addr, n.prefixlen + 1⟩,
   ⟨n.version, n.addr + 2 ^ (n.hostBits - 1), n.prefixlen + 1⟩)

/-- The bisection loop of `address_exclude`.  `none` models an exception:
out of fuel (unreachable for valid arguments), `subnets()` on a full-width
block, or the defensive `ValueError` branch of the loop. -/
def addressExcludeGo : Nat → Net → Net → Option (List Net)
  | 0, _, _ => none
  | fuel + 1, cur, other =>
    if cur.width ≤ cur.prefixlen then none
    else
      let s1 := (netHalves cur).1
      let s2 := (netHalves cur).2
      if s1 = other then some [s2]
      else if s2 = other then some [s1]
      else if subnetOfB other s1 then do
        pure (s2 :: (← addressExcludeGo fuel s1 other))
      else if subnetOfB other s2 then do
        pure (s1 :: (← addressExcludeGo fuel s2 other))
      else none

/-- `self.address_exclude(other)`: raises `TypeError` on version mismatch,
`ValueError` when `other` is not contained in `self`; returns nothing when
`other == self`; otherwise runs the bisection loop. -/
def address_exclude (self other : Net) : Option (List Net) :=
  if self.version ≠ other.version then none
  else if ¬ subnetOfB other self then none
  else if other = self then some []
  else addressExcludeGo (widthOf self.version) self other

/-- `ip_network_exclude(network, exclude)` from `ip_list_calculator.py`:
empty list when `network` is a subnet of `exclude`, `address_exclude` when
they overlap, otherwise `[network]` unchanged.  `network.subnet_of(exclude)`
raises `TypeError` when the families differ, so the whole call is `none`
in that case. -/
def ip_network_exclude (network exclude : Net) : Option (List Net) :=
  if network.version ≠ exclude.version then none
  else if subnetOfB network exclude then some []
  else if overlapsB network exclude then address_exclude network exclude
  else some [network]

/-! ### `summarize_address_range`

The greedy decomposition of an inclusive address range into CIDR blocks:
at each step emit the largest block that starts at the current address, is
aligned, and does not extend past the end.  The loop advances by at least
one address per step, so `last + 1 - first` steps of fuel suffice. -/

/-- Trailing zero bits of a positive number (`(~n & (n-1)).bit_length()`),
computed with fuel (`tzGo n n` is exact for every `n`). -/
def tzGo : Nat → Nat → Nat
  | 0, _ => 0
  | fuel + 1, n => if n % 2 = 1 ∨ n = 0 then 0 else tzGo fuel (n / 2) + 1

def tz (n : Nat) : Nat := tzGo n n

/-- CPython `_count_righthand_zero_bits(number, bits)`. -/
def count_rhz (number bits : Nat) : Nat :=
  if number = 0 then bits else min bits (tz number)

/-- Base-2 logarithm with fuel (`log2F n = Nat.log2 n`, proved below);
`n.bit_length() - 1` of a positive Python int. -/
def log2Go : Nat → Nat → Nat
  | 0, _ => 0
  | fuel + 1, n => if 2 ≤ n then log2Go fuel (n / 2) + 1 else 0

def log2F (n : Nat) : Nat := log2Go n n

/-- The emission loop of `summarize_address_range` for family `v`. -/
def summarizeGo (v : Nat) : Nat → Nat → Nat → List Net
  | 0, _, _ => []
  | fuel + 1, first, last =>
    if first ≤ last then
      let nbits := min (count_rhz first (widthOf v)) (log2F (last - first + 1))
      ⟨v, first, widthOf v - nbits⟩ :: summarizeGo v fuel (first + 2 ^ nbits) last
    else []

/-- `summarize_address_range(first, last)` on addresses given as
`(version, value)` pairs: `TypeError` on a version mismatch, `ValueError`
when `first > last`. -/
def summarize_address_range (first last : Nat × Nat) : Except PyErr (List Net) :=
  if first.1 ≠ last.1 then .error .typeError
  else if last.2 < first.2 then .error .valueError
  else .ok (summarizeGo first.1 (last.2 + 1 - first.2) first.2 last.2)

/-! ### The exclusion driver of `main`

```
sub_networks = [s for s in args.sub for a in args.add if a.overlaps(s)]
if len(sub_networks) == 0:
    result = args.add
else:
    while len(args.add) > 0:
        add_networks = [args.add.pop()]          # pops the LAST element
        for sub_network in sub_networks:
            if len(add_networks) == 0: break
            new = []
            for a in add_networks: new.extend(ip_network_exclude(a, sub_network))
            add_networks = new
        if len(add_networks) > 0: result.extend(add_networks)
```
-/

/-- The precomputed subtract list: one copy of each subtract block per add
block it overlaps (the comprehension iterates subtract-major). -/
def subNetworks (add sub : List Net) : List Net :=
  sub.flatMap fun s => (add.filter fun a => overlapsB a s).map fun _ => s

/-- One pass of the inner loop: exclude `s` from every surviving block,
concatenating the pieces in order.  A `none` from `ip_network_exclude`
(uncaught `TypeError`) aborts the whole computation. -/
def applySub : List Net → Net → Option (List Net)
  | [], _ => some []
  | b :: t, s => do pure ((← ip_network_exclude b s) ++ (← applySub t s))

/-- The middle loop over `sub_networks`, starting from the surviving pieces
of one add block (with the early `break` when nothing survives). -/
def processAddGo : List Net → List Net → Option (List Net)
  | blocks, [] => some blocks
  | blocks, s :: rest =>
    if blocks.isEmpty then some blocks
    else do processAddGo (← applySub blocks s) rest

def processAdd (a : Net) (subs : List Net) : Option (List Net) :=
  processAddGo [a] subs

/-- The outer `while` loop: add blocks are popped from the end, so they are
processed in reverse order, and the surviving pieces are appended to the
result in that order. -/
def mainLoop : List Net → List Net → Option (List Net)
  | [], _ => some []
  | a :: rest, subs => do pure ((← processAdd a subs) ++ (← mainLoop rest subs))

/-- The exclusion pipeline of `main` (before the optional merge):
result of subtracting the SUB set from the ADD set. -/
def mainResult (add sub : List Net) : Option (List Net) :=
  let subs := subNetworks add sub
  if subs.isEmpty then some add
  else mainLoop add.reverse subs

/-! ### `collapse_addresses`

CPython first splits the input into single addresses (full-width networks)
and proper networks, raising `TypeError` when a bucket would mix families;
single addresses are deduplicated, sorted, grouped into maximal runs of
consecutive addresses and summarized; then `_collapse_addresses_internal`
repeatedly merges sibling pairs through a dict keyed by supernet, sorts the
surviving networks and drops networks subsumed by an earlier one. -/

/-- `net.supernet()` (with `prefixlen_diff = 1`): the parent block; a
prefix-0 block is its own supernet. -/
def netSupernet (n : Net) : Net :=
  if n.prefixlen = 0 then n
  else ⟨n.version, n.addr / (2 * n.size) * (2 * n.size), n.prefixlen - 1⟩

/-- Termination weight of one network in the merge loop. -/
def netW (n : Net) : Nat := 3 ^ n.prefixlen

def stackW (l : List Net) : Nat := (l.map netW).sum

def dictW (d : List (Net × Net)) : Nat := (d.map fun kv => netW kv.2).sum

/-- Lookup in the `subnets` dict (keys are unique by construction). -/
def alookup : List (Net × Net) → Net → Option Net
  | [], _ => none
  | kv :: t, key => if kv.1 = key then some kv.2 else alookup t key

/-- `del subnets[key]`. -/
def aerase : List (Net × Net) → Net → List (Net × Net)
  | [], _ => []
  | kv :: t, key => if kv.1 = key then t else kv :: aerase t key

/-- Strict decrease of `2 * (stackW + dictW) + |stack|` at every iteration
of the merge loop bounds its running time, so this fuel suffices. -/
def clMeasure (stack : List Net) (d : List (Net × Net)) : Nat :=
  2 * (stackW stack + dictW d) + stack.length

/-- The `while to_merge:` loop of `_collapse_addresses_internal`.  The
stack is popped from the head (the embedding hands it the reversed input,
matching Python's `list.pop()` from the end). -/
def collapseLoopGo : Nat → List Net → List (Net × Net) → List (Net × Net)
  | _, [], d => d
  | 0, _ :: _, d => d
  | fuel + 1, net :: rest, d =>
    let sup := netSupernet net
    match alookup d sup with
    | none => collapseLoopGo fuel rest (d ++ [(sup, net)])
    | some existing =>
      if existing = net then collapseLoopGo fuel rest d
      else collapseLoopGo fuel (sup :: rest) (aerase d sup)

def collapseLoop (stack : List Net) (d : List (Net × Net)) : List (Net × Net) :=
  collapseLoopGo (clMeasure stack d) stack d

/-- Stable insertion into a sorted list: `x` goes before the first element
that is not strictly below it.  For a total preorder `le` this reproduces
the output of Python's stable `sorted`. -/
def insertLE {α : Type} (le : α → α → Bool) (x : α) : List α → List α
  | [] => [x]
  | y :: t => if le y x && !(le x y) then y :: insertLE le x t else x :: y :: t

/-- Stable insertion sort (structurally recursive, so it evaluates in the
kernel; any stable sort computes the same list as Python's `sorted`). -/
def sortByLE {α : Type} (le : α → α → Bool) : List α → List α
  | [] => []
  | x :: t => insertLE le x (sortByLE le t)

/-- `sorted()` order on same-family networks: by network address, then by
netmask (equivalently prefix length). -/
def netLE (a b : Net) : Bool :=
  decide (a.addr < b.addr) || (decide (a.addr = b.addr) && decide (a.prefixlen ≤ b.prefixlen))

def sortNets (l : List Net) : List Net := sortByLE netLE l

/-- The final pass of `_collapse_addresses_internal`: walk the sorted
networks, skipping any whose broadcast address does not exceed that of the
last emitted network (it is subsumed). -/
def skipSubsumed : Net → List Net → List Net
  | _, [] => []
  | lastN, n :: rest =>
    if n.bcast ≤ lastN.bcast then skipSubsumed lastN rest
    else n :: skipSubsumed n rest

/-- `sorted()` raises `TypeError` as soon as networks of different
families are compared, which happens exactly when the list has at least two
elements of differing version. -/
def allSameVersionB : List Net → Bool
  | [] => true
  | n :: t => t.all fun m => m.version == n.version

def collapseFinish (values : List Net) : List Net :=
  match sortNets values with
  | [] => []
  | n :: rest => n :: skipSubsumed n rest

/-- `_collapse_addresses_internal(addresses)`. -/
def collapseInternal (addresses : List Net) : Option (List Net) :=
  let values := (collapseLoop addresses.reverse []).map Prod.snd
  if allSameVersionB values then some (collapseFinish values) else none

/-- The bucketing loop at the top of `collapse_addresses`: full-width
networks contribute their network address to `ips`, others go to `nets`;
appending an element whose family differs from the current last element of
its bucket raises `TypeError`. -/
def bucketizeGo : List Net → List (Nat × Nat) → List Net → Option (List (Nat × Nat) × List Net)
  | [], ips, nets => some (ips, nets)
  | n :: rest, ips, nets =>
    if n.prefixlen = n.width then
      match ips.getLast? with
      | some p =>
        if p.1 ≠ n.version then none
        else bucketizeGo rest (ips ++ [(n.version, n.addr)]) nets
      | none => bucketizeGo rest (ips ++ [(n.version, n.addr)]) nets
    else
      match nets.getLast? with
      | some m =>
        if m.version ≠ n.version then none
        else bucketizeGo rest ips (nets ++ [n])
      | none => bucketizeGo rest ips (nets ++ [n])

/-- `sorted(set(ips))`: distinct values in ascending order. -/
def dedupSortAddrs (l : List Nat) : List Nat :=
  sortByLE (fun a b => decide (a ≤ b)) l.dedup

/-- `_find_address_range`: maximal runs of consecutive addresses of a
sorted list, as `(first, last)` pairs. -/
def findRunsGo (first lastA : Nat) : List Nat → List (Nat × Nat)
  | [] => [(first, lastA)]
  | x :: rest =>
    if x ≠ lastA + 1 then (first, lastA) :: findRunsGo x x rest
    else findRunsGo first x rest

/-- `collapse_addresses(l)`. -/
def collapse_addresses (l : List Net) : Option (List Net) :=
  match bucketizeGo l [] [] with
  | none => none
  | some (ips, nets) =>
    let addrs :=
      match ips with
      | [] => []
      | p :: _ =>
        match dedupSortAddrs (ips.map Prod.snd) with
        | [] => []
        | a :: rest =>
          (findRunsGo a a rest).flatMap fun fl =>
            summarizeGo p.1 (fl.2 + 1 - fl.1) fl.1 fl.2
    collapseInternal (addrs ++ nets)

/-- The tail of `main`: `if args.merge: result = list(collapse_addresses(result))`. -/
def mainWithMerge (merge : Bool) (add sub : List Net) : Option (List Net) :=
  match mainResult add sub with
  | none => none
  | some r => if merge then collapse_addresses r else some r

/-! ### The specifier grammars

The three regular expressions of `ip_list_calculator.py` are embedded with a
backtracking matcher over character lists.  A pattern maps a state (named
captures so far, remaining input) to the list of possible successor states
in the priority order Python's engine explores them (greedy repetition,
left-first alternation); `re.match` corresponds to taking the head of the
result at the start of the string.  Whitespace is modelled as the six ASCII
characters of `\s` (the inputs of interest contain no exotic whitespace). -/

abbrev Caps := List (String × List Char)

abbrev RState := Caps × List Char

abbrev Rgx := RState → List RState

def rChar (c : Char) : Rgx := fun s =>
  match s.2 with
  | [] => []
  | x :: rest => if x = c then [(s.1, rest)] else []

def rClass (f : Char → Bool) : Rgx := fun s =>
  match s.2 with
  | [] => []
  | x :: rest => if f x then [(s.1, rest)] else []

def rSeq (p q : Rgx) : Rgx := fun s => (p s).flatMap q

def rAlt (p q : Rgx) : Rgx := fun s => p s ++ q s

def rOpt (p : Rgx) : Rgx := fun s => p s ++ [s]

def rRepExact (p : Rgx) : Nat → Rgx
  | 0 => fun s => [s]
  | n + 1 => rSeq p (rRepExact p n)

/-- Greedy `{0,n}`: longer matches first. -/
def rRepUpTo (p : Rgx) : Nat → Rgx
  | 0 => fun s => [s]
  | n + 1 => fun s => (p s).flatMap (fun s2 => rRepUpTo p n s2) ++ [s]

/-- Greedy `{lo,hi}`. -/
def rRep (p : Rgx) (lo hi : Nat) : Rgx := rSeq (rRepExact p lo) (rRepUpTo p (hi - lo))

def charRunLen (f : Char → Bool) : List Char → Nat
  | [] => 0
  | x :: t => if f x then charRunLen f t + 1 else 0

/-- Greedy `*` over a character class. -/
def rStarCl (f : Char → Bool) : Rgx := fun s =>
  (List.range (charRunLen f s.2 + 1)).reverse.map fun k => (s.1, s.2.drop k)

/-- Greedy `+` over a character class. -/
def rPlusCl (f : Char → Bool) : Rgx := rSeq (rClass f) (rStarCl f)

/-- A named capturing group: records the consumed substring. -/
def rGroup (name : String) (p : Rgx) : Rgx := fun s =>
  (p s).map fun s2 =>
    (s2.1 ++ [(name, s.2.take (s.2.length - s2.2.length))], s2.2)

/-- `re.match(pattern, s)`: the first state in priority order, if any. -/
def reMatch (p : Rgx) (s : String) : Option Caps :=
  match p ([], s.toList) with
  | [] => none
  | st :: _ => some st.1

/-- `match.group(name)` (each group of the patterns binds at most once). -/
def capGet (caps : Caps) (name : String) : List Char :=
  match caps with
  | [] => []
  | kv :: t => if kv.1 = name then kv.2 else capGet t name

def isSpaceC (c : Char) : Bool :=
  c = ' ' || c = '\t' || c = '\n' || c = '\x0b' || c = '\x0c' || c = '\r'

def isHexC (c : Char) : Bool :=
  c.isDigit || ('a' ≤ c && c ≤ 'f') || ('A' ≤ c && c ≤ 'F')

/-- `[0-9]{1,3}(?:\.[0-9]{1,3}){3}`. -/
def rDotted : Rgx :=
  rSeq (rRep (rClass Char.isDigit) 1 3)
    (rRepExact (rSeq (rChar '.') (rRep (rClass Char.isDigit) 1 3)) 3)

/-- `[0-9a-fA-F]{1,4}(?::[0-9a-fA-F]{1,4}){0,7}`. -/
def rHexAddr : Rgx :=
  rSeq (rRep (rClass isHexC) 1 4)
    (rRepUpTo (rSeq (rChar ':') (rRep (rClass isHexC) 1 4)) 7)

def rAddr : Rgx := rAlt rDotted rHexAddr

/-- `re_ip_range`. -/
def reIpRange : Rgx :=
  rSeq (rStarCl isSpaceC)
    (rSeq (rGroup "first" rAddr)
      (rSeq (rStarCl isSpaceC)
        (rSeq (rChar '-')
          (rSeq (rStarCl isSpaceC)
            (rSeq (rGroup "last" rAddr) (rStarCl isSpaceC))))))

/-- `re_ip_count`. -/
def reIpCount : Rgx :=
  rSeq (rStarCl isSpaceC)
    (rSeq (rGroup "first" rAddr)
      (rSeq (rChar '*')
        (rSeq (rGroup "count" (rPlusCl Char.isDigit)) (rStarCl isSpaceC))))

/-- `re_ip_network`. -/
def reIpNetwork : Rgx :=
  rSeq (rStarCl isSpaceC)
    (rSeq (rGroup "address" rAddr)
      (rSeq (rOpt (rSeq (rChar '/') (rGroup "mask" (rRep (rClass Char.isDigit) 1 3))))
        (rStarCl isSpaceC)))

def is_ip_range (s : String) : Bool := (reMatch reIpRange s).isSome

def is_ip_count (s : String) : Bool := (reMatch reIpCount s).isSome

def is_ip_network (s : String) : Bool := (reMatch reIpNetwork s).isSome

/-! ### `ipaddress` string parsing (Python 3.10)

`Option` results model a raised `AddressValueError` (or the internal
`ValueError`s that the address constructors convert into it);
`NetmaskValueError` is distinguished where it matters, in the interface
constructors. -/

def decDigitsVal (l : List Char) : Nat :=
  l.foldl (fun acc c => acc * 10 + (c.toNat - '0'.toNat)) 0

def hexDigitVal (c : Char) : Nat :=
  if c.isDigit then c.toNat - '0'.toNat
  else if 'a' ≤ c && c ≤ 'f' then c.toNat - 'a'.toNat + 10
  else c.toNat - 'A'.toNat + 10

def hexDigitsVal (l : List Char) : Nat :=
  l.foldl (fun acc c => acc * 16 + hexDigitVal c) 0

/-- `IPv4Address._parse_octet`: nonempty, ASCII digits only, at most three
characters, no leading zeros, value at most 255. -/
def parseOctet (l : List Char) : Option Nat :=
  if l.isEmpty then none
  else if ¬ l.all Char.isDigit then none
  else if 3 < l.length then none
  else if l ≠ ['0'] ∧ l.headD ' ' = '0' then none
  else
    let v := decDigitsVal l
    if 255 < v then none else some v

/-- `IPv4Address._ip_int_from_string`: exactly four octets joined by dots. -/
def parseIPv4Addr (l : List Char) : Option Nat :=
  if l.isEmpty then none
  else
    let octets := l.splitOn '.'
    if octets.length ≠ 4 then none
    else
      match octets.mapM parseOctet with
      | none => none
      | some vals => some (vals.foldl (fun acc v => acc * 256 + v) 0)

/-- `IPv4Address(addr_str)`: additionally rejects a `/`. -/
def ipv4AddressFromString (l : List Char) : Option Nat :=
  if l.contains '/' then none else parseIPv4Addr l

/-- `IPv6Address._parse_hextet`: hex digits only, nonempty (`int('', 16)`
raises), at most four characters. -/
def parseHextet (l : List Char) : Option Nat :=
  if ¬ l.all isHexC then none
  else if 4 < l.length then none
  else if l.isEmpty then none
  else some (hexDigitsVal l)

def hexCharOf (n : Nat) : Char :=
  if n < 10 then Char.ofNat ('0'.toNat + n) else Char.ofNat ('a'.toNat + n - 10)

def hexCharsGo : Nat → Nat → List Char
  | 0, _ => []
  | fuel + 1, n => if n = 0 then [] else hexCharsGo fuel (n / 16) ++ [hexCharOf (n % 16)]

/-- `'%x' % n`. -/
def hexChars (n : Nat) : List Char := if n = 0 then ['0'] else hexCharsGo n n

/-- The embedded-IPv4 step of `IPv6Address._ip_int_from_string`: a dotted
final part is parsed as an IPv4 address and replaced by two hextets. -/
def ipv6ExpandV4 (parts : List (List Char)) : Option (List (List Char)) :=
  match parts.getLast? with
  | none => some parts
  | some lastP =>
    if lastP.contains '.' then
      match parseIPv4Addr lastP with
      | none => none
      | some v4 => some (parts.dropLast ++ [hexChars (v4 / 65536), hexChars (v4 % 65536)])
    else some parts

/-- Locate a `::` (an empty part strictly between the first and the last):
`none` models the `ValueError` for more than one, `some none` no `::`. -/
def scanSkip (parts : List (List Char)) : Option (Option Nat) :=
  let idxs := ((List.range parts.length).drop 1).filter fun i => i < parts.length - 1
  match idxs.filter fun i => parts.getD i [' '] = ([] : List Char) with
  | [] => some none
  | [i] => some (some i)
  | _ => none

def foldHextets (vals : List Nat) : Nat :=
  vals.foldl (fun acc v => acc * 65536 + v) 0

/-- The assembly of `IPv6Address._ip_int_from_string` once the parts list
and the position of the `::` are known. -/
def parseIPv6Parts (parts : List (List Char)) : Option Nat :=
  match scanSkip parts with
  | none => none
  | some none =>
    if parts.length ≠ 8 then none
    else if parts.headD [' '] = ([] : List Char) then none
    else if parts.getLast? = some ([] : List Char) then none
    else
      match parts.mapM parseHextet with
      | none => none
      | some vals => some (foldHextets vals)
  | some (some i) =>
    let n := parts.length
    let hi0 := i
    let lo0 := n - i - 1
    let headEmpty := parts.headD [' '] = ([] : List Char)
    let lastEmpty := parts.getLast? = some ([] : List Char)
    if headEmpty ∧ hi0 - 1 ≠ 0 then none
    else if lastEmpty ∧ lo0 - 1 ≠ 0 then none
    else
      let hi := if headEmpty then hi0 - 1 else hi0
      let lo := if lastEmpty then lo0 - 1 else lo0
      if 8 - (hi + lo) = 0 ∨ 8 < hi + lo then none
      else
        match (parts.take hi).mapM parseHextet, (parts.drop (n - lo)).mapM parseHextet with
        | some hiVals, some loVals =>
          some (foldHextets hiVals * 65536 ^ (8 - hi) + foldHextets loVals)
        | _, _ => none

/-- `IPv6Address._ip_int_from_string`. -/
def parseIPv6Addr (l : List Char) : Option Nat :=
  if l.isEmpty then none
  else
    let parts := l.splitOn ':'
    if parts.length < 3 then none
    else
      match ipv6ExpandV4 parts with
      | none => none
      | some parts2 => if 9 < parts2.length then none else parseIPv6Parts parts2

/-- Split at the first occurrence of `c` (`str.partition`). -/
def spanNe (c : Char) : List Char → List Char × Option (List Char)
  | [] => ([], none)
  | x :: t =>
    if x = c then ([], some t)
    else
      let r := spanNe c t
      (x :: r.1, r.2)

/-- `IPv6Address(addr_str)`: rejects `/`, then `_split_scope_id` strips a
`%scope` that must be nonempty and must not itself contain `%`. -/
def ipv6AddressFromString (l : List Char) : Option Nat :=
  if l.contains '/' then none
  else
    let pr := spanNe '%' l
    match pr.2 with
    | some scope =>
      if scope.isEmpty ∨ scope.contains '%' then none else parseIPv6Addr pr.1
    | none => parseIPv6Addr pr.1

/-- `ip_address(s)`: tries IPv4 then IPv6; on double failure raises the
plain builtin `ValueError` (not an `AddressValueError`). -/
def ip_addressFn (l : List Char) : Except PyErr (Nat × Nat) :=
  match ipv4AddressFromString l with
  | some v => .ok (4, v)
  | none =>
    match ipv6AddressFromString l with
    | some v => .ok (6, v)
    | none => .error .valueError

/-- `IPv4Address.__add__` / `IPv6Address.__add__`: re-constructs the
address from `int(self) + other`, raising `AddressValueError` outside the
address space. -/
def addrAdd (a : Nat × Nat) (k : Int) : Except PyErr (Nat × Nat) :=
  let r : Int := (a.2 : Int) + k
  if r < 0 ∨ (2 ^ widthOf a.1 : Int) ≤ r then .error .addressValueError
  else .ok (a.1, r.toNat)

/-- `_prefix_from_prefix_string`: ASCII digits only, value within the
address width. -/
def prefixFromPrefixString (w : Nat) (l : List Char) : Option Nat :=
  if l.isEmpty ∨ ¬ l.all Char.isDigit then none
  else
    let p := decDigitsVal l
    if w < p then none else some p

/-- `_prefix_from_ip_int`: the mask value must consist of `plen` leading
one bits followed by zero bits. -/
def prefixFromIpInt (w : Nat) (ipInt : Nat) : Option Nat :=
  let tzs := count_rhz ipInt w
  let plen := w - tzs
  if ipInt / 2 ^ tzs = 2 ^ plen - 1 then some plen else none

/-- `_prefix_from_ip_string`: parse as an address of the family, accept it
as a netmask or, failing that, as a hostmask. -/
def prefixFromIpString (w : Nat) (parse : List Char → Option Nat) (l : List Char) : Option Nat :=
  match parse l with
  | none => none
  | some v =>
    match prefixFromIpInt w v with
    | some p => some p
    | none => prefixFromIpInt w (2 ^ w - 1 - v)

/-- `_make_netmask` for mask strings: a decimal prefix length, or a
dotted/hex mask convertible to one. -/
def makeNetmask (w : Nat) (parse : List Char → Option Nat) (l : List Char) : Option Nat :=
  match prefixFromPrefixString w l with
  | some p => some p
  | none => prefixFromIpString w parse l

/-- `IPv4Interface(s).network`: split an optional mask off at `/`, parse
the address, resolve the mask (default full width) and zero the host bits
(`IPv4Network(..., strict=False)`). -/
def ipv4InterfaceNet (l : List Char) : Except PyErr Net :=
  let parts := l.splitOn '/'
  if 2 < parts.length then .error .addressValueError
  else
    match parseIPv4Addr (parts.headD []) with
    | none => .error .addressValueError
    | some a =>
      match
        (if parts.length = 2 then
          match makeNetmask 32 parseIPv4Addr (parts.getD 1 []) with
          | some p => Except.ok p
          | none => Except.error PyErr.netmaskValueError
        else Except.ok 32 : Except PyErr Nat) with
      | .error e => .error e
      | .ok p => .ok ⟨4, a / 2 ^ (32 - p) * 2 ^ (32 - p), p⟩

/-- `IPv6Interface(s).network`: unlike IPv4, the IPv6 `_make_netmask`
accepts only a prefix-length string (no dotted/hex-mask fallback). -/
def ipv6InterfaceNet (l : List Char) : Except PyErr Net :=
  let parts := l.splitOn '/'
  if 2 < parts.length then .error .addressValueError
  else
    match ipv6AddressFromString (parts.headD []) with
    | none => .error .addressValueError
    | some a =>
      match
        (if parts.length = 2 then
          match prefixFromPrefixString 128 (parts.getD 1 []) with
          | some p => Except.ok p
          | none => Except.error PyErr.netmaskValueError
        else Except.ok 128 : Except PyErr Nat) with
      | .error e => .error e
      | .ok p => .ok ⟨6, a / 2 ^ (128 - p) * 2 ^ (128 - p), p⟩

/-- `ip_interface(s).network`: tries the IPv4 then the IPv6 interface
constructor, catching their `AddressValueError`/`NetmaskValueError`; a
double failure raises the plain builtin `ValueError`. -/
def ip_interfaceNet (l : List Char) : Except PyErr Net :=
  match ipv4InterfaceNet l with
  | .ok n => .ok n
  | .error _ =>
    match ipv6InterfaceNet l with
    | .ok n => .ok n
    | .error _ => .error .valueError

/-! ### The repository's parsing functions -/

/-- `get_from_ip_range`.  No `try` in the source: errors from `ip_address`
and `summarize_address_range` (plain `ValueError`s) propagate. -/
def get_from_ip_range (s : String) : Except PyErr (List Net) :=
  match reMatch reIpRange s with
  | none => .error .attributeError
  | some caps =>
    match ip_addressFn (capGet caps "first") with
    | .error e => .error e
    | .ok f =>
      match ip_addressFn (capGet caps "last") with
      | .error e => .error e
      | .ok la => summarize_address_range f la

/-- `get_from_ip_count`.  Also without a `try`.  `last = ip + count - 1`
is two address constructions: `ip + count` first (which already raises
`AddressValueError` at `int(ip) + count = 2**width`), then `- 1`. -/
def get_from_ip_count (s : String) : Except PyErr (List Net) :=
  match reMatch reIpCount s with
  | none => .error .attributeError
  | some caps =>
    match ip_addressFn (capGet caps "first") with
    | .error e => .error e
    | .ok f =>
      let count := decDigitsVal (capGet caps "count")
      match addrAdd f (count : Int) with
      | .error e => .error e
      | .ok mid =>
        match addrAdd mid (-1 : Int) with
        | .error e => .error e
        | .ok lastA => summarize_address_range f lastA

/-- `get_from_ip_network`: its `except (AddressValueError,
NetmaskValueError)` turns exactly those two classes into a logged empty
result; the plain `ValueError` that `ip_interface` actually raises is not
caught and propagates. -/
def get_from_ip_network (s : String) : Except PyErr (List Net) :=
  match ip_interfaceNet s.toList with
  | .error .addressValueError => .ok []
  | .error .netmaskValueError => .ok []
  | .error e => .error e
  | .ok n => .ok [n]

/-- `get_from_string`: first matching grammar wins; no match is logged and
contributes zero blocks. -/
def get_from_string (s : String) : Except PyErr (List Net) :=
  if is_ip_range s then get_from_ip_range s
  else if is_ip_count s then get_from_ip_count s
  else if is_ip_network s then get_from_ip_network s
  else .ok []

/-- A batch of specifiers (one per line, as in `TxtReader.__iter__`): an
uncaught exception aborts the whole batch. -/
def get_from_strings : List String → Except PyErr (List Net)
  | [] => .ok []
  | s :: rest =>
    match get_from_string s with
    | .error e => .error e
    | .ok l =>
      match get_from_strings rest with
      | .error e => .error e
      | .ok r => .ok (l ++ r)

/-! ## Basic facts about blocks and their address sets -/

lemma size_pos (n : Net) : 0 < n.size := Nat.two_pow_pos _

lemma Net.mem_toSet {n : Net} {p : Nat × Nat} :
    p ∈ n.toSet ↔ p.1 = n.version ∧ n.addr ≤ p.2 ∧ p.2 < n.addr + n.size := by
  have h := size_pos n
  show p.1 = n.version ∧ n.addr ≤ p.2 ∧ p.2 ≤ n.bcast ↔ _
  unfold Net.bcast
  omega

lemma Net.base_mem_toSet (n : Net) : (n.version, n.addr) ∈ n.toSet := by
  have h := size_pos n
  exact Net.mem_toSet.mpr ⟨rfl, le_refl _, by omega⟩

lemma Net.bcast_mem_toSet (n : Net) : (n.version, n.bcast) ∈ n.toSet := by
  have h := size_pos n
  refine Net.mem_toSet.mpr ⟨rfl, ?_, ?_⟩ <;> unfold Net.bcast <;> omega

lemma containsAddr_iff {n : Net} (hn : n.WF) {x : Nat} :
    containsAddr n x = true ↔ n.addr ≤ x ∧ x < n.addr + n.size := by
  have hs := size_pos n
  unfold containsAddr
  rw [beq_iff_eq]
  have h1 : x / n.size * n.size ≤ x := Nat.div_mul_le_self x n.size
  have h2 : x / n.size * n.size + x % n.size = x := Nat.div_add_mod' x n.size
  have h3 : x % n.size < n.size := Nat.mod_lt _ hs
  constructor
  · intro h
    omega
  · rintro ⟨ha1, ha2⟩
    obtain ⟨q, hq⟩ := hn.2.2.1
    have hdiv : x / n.size = q := by
      apply Nat.div_eq_of_lt_le
      · calc q * n.size = n.size * q := Nat.mul_comm _ _
          _ = n.addr := hq.symm
          _ ≤ x := ha1
      · calc x < n.addr + n.size := ha2
          _ = n.size * q + n.size := by rw [hq]
          _ = (q + 1) * n.size := by ring
    rw [hdiv, Nat.mul_comm, ← hq]

lemma mem_toSet_wf {n : Net} (hn : n.WF) {p : Nat × Nat} :
    p ∈ n.toSet ↔ p.1 = n.version ∧ containsAddr n p.2 = true := by
  rw [Net.mem_toSet, containsAddr_iff hn]

/-- Blocks of differing families cover disjoint sets. -/
lemma disjoint_of_ne_version {a b : Net} (h : a.version ≠ b.version) : NetDisjoint a b := by
  unfold NetDisjoint
  ext p
  simp only [Set.mem_inter_iff, Set.mem_empty_iff_false, iff_false]
  rintro ⟨hpa, hpb⟩
  exact h (hpa.1 ▸ hpb.1 ▸ rfl)

lemma overlapsB_iff {a b : Net} (ha : a.WF) (hb : b.WF) :
    overlapsB a b = true ↔ (a.toSet ∩ b.toSet).Nonempty := by
  have hsa := size_pos a
  have hsb := size_pos b
  unfold overlapsB
  constructor
  · intro h
    simp only [Bool.and_eq_true, Bool.or_eq_true, beq_iff_eq] at h
    obtain ⟨hv, h4⟩ := h
    rcases h4 with ((hc | hc) | hc) | hc
    · rw [containsAddr_iff hb] at hc
      refine ⟨(a.version, a.addr), Net.base_mem_toSet a, ?_⟩
      exact Net.mem_toSet.mpr ⟨hv, hc.1, hc.2⟩
    · rw [containsAddr_iff hb] at hc
      refine ⟨(a.version, a.bcast), Net.bcast_mem_toSet a, ?_⟩
      exact Net.mem_toSet.mpr ⟨hv, hc.1, hc.2⟩
    · rw [containsAddr_iff ha] at hc
      refine ⟨(b.version, b.addr), ?_, Net.base_mem_toSet b⟩
      exact Net.mem_toSet.mpr ⟨hv.symm, hc.1, hc.2⟩
    · rw [containsAddr_iff ha] at hc
      refine ⟨(b.version, b.bcast), ?_, Net.bcast_mem_toSet b⟩
      exact Net.mem_toSet.mpr ⟨hv.symm, hc.1, hc.2⟩
  · rintro ⟨p, hpa, hpb⟩
    rw [Net.mem_toSet] at hpa hpb
    simp only [Bool.and_eq_true, Bool.or_eq_true, beq_iff_eq]
    refine ⟨hpa.1 ▸ hpb.1 ▸ rfl, ?_⟩
    rcases Nat.le_total a.addr b.addr with hle | hle
    · left; right
      rw [containsAddr_iff ha]
      exact ⟨hle, by omega⟩
    · left; left; left
      rw [containsAddr_iff hb]
      exact ⟨hle, by omega⟩

lemma not_overlapsB_iff {a b : Net} (ha : a.WF) (hb : b.WF) :
    overlapsB a b = false ↔ NetDisjoint a b := by
  have := overlapsB_iff ha hb
  unfold NetDisjoint
  rw [← Set.not_nonempty_iff_eq_empty]
  constructor
  · intro h hne
    rw [← this] at hne
    simp [h] at hne
  · intro h
    cases hov : overlapsB a b
    · rfl
    · exact absurd (this.mp hov) h

lemma subnetOfB_iff {a b : Net} (ha : a.WF) (hb : b.WF) (hv : a.version = b.version) :
    subnetOfB a b = true ↔ a.toSet ⊆ b.toSet := by
  have hsa := size_pos a
  have hsb := size_pos b
  unfold subnetOfB Net.bcast
  simp only [Bool.and_eq_true, decide_eq_true_eq]
  constructor
  · rintro ⟨h1, h2⟩ p hp
    rw [Net.mem_toSet] at hp ⊢
    exact ⟨hp.1.trans hv, by omega, by omega⟩
  · intro h
    have h1 := h (Net.base_mem_toSet a)
    have h2 := h (Net.bcast_mem_toSet a)
    rw [Net.mem_toSet] at h1 h2
    unfold Net.bcast at h2
    omega

/-- Two multiples of `s` within distance `s` are ordered. -/
lemma mult_le_of_lt_add {s u w : Nat} (hs : 0 < s) (hu : s ∣ u) (hw : s ∣ w)
    (h : u < w + s) : u ≤ w := by
  obtain ⟨i, hi⟩ := hu
  obtain ⟨j, hj⟩ := hw
  subst hi hj
  have : i ≤ j := by
    by_contra hc
    push_neg at hc
    have : j + 1 ≤ i := hc
    have : s * (j + 1) ≤ s * i := Nat.mul_le_mul_left s this
    rw [Nat.mul_add, Nat.mul_one] at this
    omega
  exact Nat.mul_le_mul_left s this

/-- Two aligned blocks of the same family are nested or disjoint. -/
lemma nested_or_disjoint {a b : Net} (ha : a.WF) (hb : b.WF) (hv : a.version = b.version)
    (hov : (a.toSet ∩ b.toSet).Nonempty) : a.toSet ⊆ b.toSet ∨ b.toSet ⊆ a.toSet := by
  have key : ∀ x y : Net, x.WF → y.WF → x.version = y.version → x.size ≤ y.size →
      (x.toSet ∩ y.toSet).Nonempty → x.toSet ⊆ y.toSet := by
    intro x y hx hy hxy hsz ⟨p, hpx, hpy⟩
    have hsx := size_pos x
    have hsy := size_pos y
    have hdvd : x.size ∣ y.size := by
      unfold Net.size at hsz ⊢
      exact Nat.pow_dvd_pow 2 ((Nat.pow_le_pow_iff_right (by norm_num)).mp hsz)
    rw [Net.mem_toSet] at hpx hpy
    have h1 : y.addr ≤ x.addr := by
      apply mult_le_of_lt_add hsx (hdvd.trans hy.2.2.1) hx.2.2.1
      omega
    have h2 : x.addr + x.size ≤ y.addr + y.size := by
      apply mult_le_of_lt_add hsx (Dvd.dvd.add hx.2.2.1 dvd_rfl)
        (Dvd.dvd.add (hdvd.trans hy.2.2.1) hdvd)
      omega
    intro q hq
    rw [Net.mem_toSet] at hq ⊢
    exact ⟨hq.1.trans hxy, by omega, by omega⟩
  rcases Nat.le_total a.size b.size with hsz | hsz
  · exact Or.inl (key a b ha hb hv hsz hov)
  · exact Or.inr (key b a hb ha hv.symm hsz (by rwa [Set.inter_comm] at hov))

lemma listSet_nil : listSet [] = ∅ := by
  ext p; simp [listSet]

lemma listSet_cons (n : Net) (l : List Net) : listSet (n :: l) = n.toSet ∪ listSet l := by
  ext p
  simp only [listSet, List.mem_cons, Set.mem_setOf_eq, Set.mem_union]
  constructor
  · rintro ⟨m, (rfl | hm), hp⟩
    · exact Or.inl hp
    · exact Or.inr ⟨m, hm, hp⟩
  · rintro (hp | ⟨m, hm, hp⟩)
    · exact ⟨n, Or.inl rfl, hp⟩
    · exact ⟨m, Or.inr hm, hp⟩

lemma listSet_append (l1 l2 : List Net) : listSet (l1 ++ l2) = listSet l1 ∪ listSet l2 := by
  induction l1 with
  | nil => simp [listSet_nil]
  | cons n t ih => simp [listSet_cons, ih, Set.union_assoc]

lemma mem_listSet_of_mem {l : List Net} {n : Net} (hn : n ∈ l) {p : Nat × Nat}
    (hp : p ∈ n.toSet) : p ∈ listSet l := ⟨n, hn, hp⟩

/-! ## Trailing zeros and base-2 logarithm -/

lemma tzGo_spec : ∀ fuel n, n ≠ 0 → n ≤ fuel →
    2 ^ tzGo fuel n ∣ n ∧ ¬ 2 ^ (tzGo fuel n + 1) ∣ n := by
  intro fuel
  induction fuel with
  | zero => intro n h0 hle; omega
  | succ f ih =>
    intro n h0 hle
    unfold tzGo
    by_cases hodd : n % 2 = 1 ∨ n = 0
    · rw [if_pos hodd]
      rcases hodd with hodd | h0'
      · refine ⟨by simpa using Nat.one_dvd n, ?_⟩
        rw [pow_one]
        omega
      · exact absurd h0' h0
    · rw [if_neg hodd]
      push_neg at hodd
      have hmod : n % 2 = 0 := by omega
      obtain ⟨hd, hnd⟩ := ih (n / 2) (by omega) (by omega)
      set t := tzGo f (n / 2) with ht
      have h2 : n = 2 * (n / 2) := by omega
      constructor
      · obtain ⟨c, hc⟩ := hd
        refine ⟨c, ?_⟩
        calc n = 2 * (n / 2) := h2
          _ = 2 * (2 ^ t * c) := by rw [hc]
          _ = 2 ^ (t + 1) * c := by rw [pow_succ]; ring
      · intro hdvd
        obtain ⟨c, hc⟩ := hdvd
        apply hnd
        refine ⟨c, ?_⟩
        have hc2 : 2 * (n / 2) = 2 * (2 ^ (t + 1) * c) := by
          rw [← h2, hc, pow_succ]
          ring
        exact Nat.eq_of_mul_eq_mul_left (by norm_num) hc2

lemma tz_dvd (n : Nat) (h0 : n ≠ 0) : 2 ^ tz n ∣ n := (tzGo_spec n n h0 le_rfl).1

lemma tz_not_dvd (n : Nat) (h0 : n ≠ 0) : ¬ 2 ^ (tz n + 1) ∣ n :=
  (tzGo_spec n n h0 le_rfl).2

lemma le_tz_iff {n k : Nat} (h0 : n ≠ 0) : k ≤ tz n ↔ 2 ^ k ∣ n := by
  constructor
  · intro h
    exact dvd_trans (Nat.pow_dvd_pow 2 h) (tz_dvd n h0)
  · intro h
    by_contra hc
    push_neg at hc
    exact tz_not_dvd n h0 (dvd_trans (Nat.pow_dvd_pow 2 hc) h)

lemma log2Go_bounds : ∀ fuel n, 1 ≤ n → n ≤ fuel →
    2 ^ log2Go fuel n ≤ n ∧ n < 2 ^ (log2Go fuel n + 1) := by
  intro fuel
  induction fuel with
  | zero => intro n h1 hle; omega
  | succ f ih =>
    intro n h1 hle
    unfold log2Go
    by_cases h2 : 2 ≤ n
    · rw [if_pos h2]
      obtain ⟨hl, hr⟩ := ih (n / 2) (by omega) (by omega)
      have hp1 : (2 : Nat) ^ (log2Go f (n / 2) + 1) = 2 ^ log2Go f (n / 2) * 2 := pow_succ 2 _
      have hp2 : (2 : Nat) ^ (log2Go f (n / 2) + 1 + 1) = 2 ^ (log2Go f (n / 2) + 1) * 2 :=
        pow_succ 2 _
      constructor
      · rw [hp1]
        omega
      · rw [hp2, hp1]
        rw [hp1] at hr
        omega
    · rw [if_neg h2]
      exact ⟨by simpa using h1, by simpa using (by omega : n < 2)⟩

lemma log2F_bounds (n : Nat) (h1 : 1 ≤ n) : 2 ^ log2F n ≤ n ∧ n < 2 ^ (log2F n + 1) :=
  log2Go_bounds n n h1 le_rfl

lemma log2F_lt {n k : Nat} (h1 : 1 ≤ n) (h : n < 2 ^ k) : log2F n < k := by
  have hb := (log2F_bounds n h1).1
  by_contra hc
  push_neg at hc
  have : 2 ^ k ≤ 2 ^ log2F n := Nat.pow_le_pow_right (by norm_num) hc
  omega

/-! ## Correctness of the greedy range decomposition -/

/-- The blocks of `l` tile the interval `[lo, hi)` exactly, contiguously,
each a well-formed family-`v` block. -/
def Covers (v : Nat) : List Net → Nat → Nat → Prop
  | [], lo, hi => lo = hi
  | n :: t, lo, hi =>
    n.WF ∧ n.version = v ∧ n.addr = lo ∧ lo + n.size ≤ hi ∧ Covers v t (lo + n.size) hi

lemma mkBlock_hostBits {v w first nbits : Nat} (hw : w = widthOf v) (hnb : nbits ≤ w) :
    (⟨v, first, w - nbits⟩ : Net).hostBits = nbits := by
  unfold Net.hostBits Net.width
  simp only
  omega

lemma mkBlock_size {v w first nbits : Nat} (hw : w = widthOf v) (hnb : nbits ≤ w) :
    (⟨v, first, w - nbits⟩ : Net).size = 2 ^ nbits := by
  unfold Net.size
  rw [mkBlock_hostBits hw hnb]

lemma mkBlock_WF {v w first nbits : Nat} (hv : v = 4 ∨ v = 6) (hw : w = widthOf v)
    (hnb : nbits ≤ w) (halign : 2 ^ nbits ∣ first) (hbound : first + 2 ^ nbits ≤ 2 ^ w) :
    (⟨v, first, w - nbits⟩ : Net).WF := by
  subst hw
  refine ⟨hv, ?_, ?_, ?_⟩
  · show widthOf v - nbits ≤ widthOf v
    omega
  · rw [mkBlock_size rfl hnb]
    exact halign
  · rw [mkBlock_size rfl hnb]
    show first + 2 ^ nbits ≤ 2 ^ widthOf v
    exact hbound

lemma summarizeGo_step {v first lastA fuel : Nat} (hc : first ≤ lastA) :
    summarizeGo v (fuel + 1) first lastA =
      ⟨v, first, widthOf v - min (count_rhz first (widthOf v)) (log2F (lastA - first + 1))⟩ ::
        summarizeGo v fuel
          (first + 2 ^ min (count_rhz first (widthOf v)) (log2F (lastA - first + 1))) lastA := by
  conv_lhs => unfold summarizeGo; rw [if_pos hc]

lemma summarizeGo_nil {v first lastA fuel : Nat} (hc : lastA < first) :
    summarizeGo v fuel first lastA = [] := by
  cases fuel with
  | zero => rfl
  | succ f =>
    unfold summarizeGo
    rw [if_neg (by omega)]

lemma count_rhz_le (first w : Nat) : count_rhz first w ≤ w := by
  unfold count_rhz
  by_cases h0 : first = 0 <;> simp [h0] <;> omega

lemma nbits_align {first w nb : Nat} (h : nb ≤ count_rhz first w) : 2 ^ nb ∣ first := by
  by_cases h0 : first = 0
  · simp [h0]
  · have : count_rhz first w = min w (tz first) := by unfold count_rhz; rw [if_neg h0]
    rw [this] at h
    have htz : nb ≤ tz first := by omega
    exact dvd_trans (Nat.pow_dvd_pow 2 htz) (tz_dvd first h0)

lemma summarizeGo_covers (v : Nat) (hv : v = 4 ∨ v = 6) :
    ∀ fuel first lastA, lastA < 2 ^ widthOf v → lastA + 1 - first ≤ fuel →
      first ≤ lastA + 1 → Covers v (summarizeGo v fuel first lastA) first (lastA + 1) := by
  intro fuel
  induction fuel with
  | zero =>
    intro first lastA hw hle hf
    show first = lastA + 1
    omega
  | succ f ih =>
    intro first lastA hw hle hf
    by_cases hc : first ≤ lastA
    · rw [summarizeGo_step hc]
      generalize hnb : min (count_rhz first (widthOf v)) (log2F (lastA - first + 1)) = nbits
      have hL1 : 1 ≤ lastA - first + 1 := by omega
      have hlog := log2F_bounds (lastA - first + 1) hL1
      have hnb_log : nbits ≤ log2F (lastA - first + 1) := by rw [← hnb]; exact min_le_right _ _
      have hnb_crhz : nbits ≤ count_rhz first (widthOf v) := by rw [← hnb]; exact min_le_left _ _
      have hnb_w : nbits ≤ widthOf v := le_trans hnb_crhz (count_rhz_le first (widthOf v))
      have hpow2 : 2 ^ nbits ≤ 2 ^ log2F (lastA - first + 1) :=
        Nat.pow_le_pow_right (by norm_num) hnb_log
      have hfit : first + 2 ^ nbits ≤ lastA + 1 := by
        have := hlog.1
        omega
      have halign : 2 ^ nbits ∣ first := nbits_align hnb_crhz
      have hwf := mkBlock_WF (w := widthOf v) hv rfl hnb_w halign (by omega)
      refine ⟨hwf, rfl, rfl, ?_, ?_⟩
      · rw [mkBlock_size rfl hnb_w]
        exact hfit
      · rw [mkBlock_size rfl hnb_w]
        exact ih (first + 2 ^ nbits) lastA hw (by omega) (by omega)
    · rw [summarizeGo_nil (by omega)]
      show first = lastA + 1
      omega

lemma covers_blocks {v : Nat} :
    ∀ {l lo hi}, Covers v l lo hi →
      ∀ b ∈ l, b.WF ∧ b.version = v ∧ lo ≤ b.addr ∧ b.addr + b.size ≤ hi := by
  intro l
  induction l with
  | nil => intro lo hi _ b hb; cases hb
  | cons n t ih =>
    rintro lo hi ⟨hwf, hv, haddr, hfit, hcov⟩ b hb
    rw [List.mem_cons] at hb
    rcases hb with rfl | hb
    · exact ⟨hwf, hv, haddr.ge, by omega⟩
    · have := ih hcov b hb
      exact ⟨this.1, this.2.1, by omega, this.2.2.2⟩

lemma covers_listSet {v : Nat} :
    ∀ {l lo hi}, Covers v l lo hi →
      listSet l = {p : Nat × Nat | p.1 = v ∧ lo ≤ p.2 ∧ p.2 < hi} := by
  intro l
  induction l with
  | nil =>
    intro lo hi h
    have : lo = hi := h
    subst this
    rw [listSet_nil]
    ext p
    simp only [Set.mem_empty_iff_false, Set.mem_setOf_eq, false_iff]
    omega
  | cons n t ih =>
    rintro lo hi ⟨hwf, hv, haddr, hfit, hcov⟩
    rw [listSet_cons, ih hcov]
    ext p
    simp only [Set.mem_union, Net.mem_toSet, Set.mem_setOf_eq, hv, haddr]
    omega

lemma covers_pairwise {v : Nat} :
    ∀ {l lo hi}, Covers v l lo hi → l.Pairwise NetDisjoint := by
  intro l
  induction l with
  | nil => intro lo hi _; exact List.Pairwise.nil
  | cons n t ih =>
    rintro lo hi ⟨hwf, hv, haddr, hfit, hcov⟩
    refine List.Pairwise.cons ?_ (ih hcov)
    intro b hb
    have hblk := covers_blocks hcov b hb
    unfold NetDisjoint
    ext p
    simp only [Set.mem_inter_iff, Set.mem_empty_iff_false, iff_false]
    rintro ⟨hp1, hp2⟩
    rw [Net.mem_toSet] at hp1 hp2
    omega

lemma covers_length {v : Nat} :
    ∀ {l lo hi}, Covers v l lo hi → l.length + lo ≤ hi := by
  intro l
  induction l with
  | nil =>
    intro lo hi h
    have h2 : lo = hi := h
    simp only [List.length_nil]
    omega
  | cons n t ih =>
    rintro lo hi ⟨hwf, hv, haddr, hfit, hcov⟩
    have := ih hcov
    have := size_pos n
    simp only [List.length_cons]
    omega

/-- Two adjacent blocks are not same-size siblings of a common parent
(the first block, which starts at the lower address, is not aligned at
twice its size while having the same size as the second). -/
def NotSibs (b1 b2 : Net) : Prop :=
  ¬ (b1.prefixlen = b2.prefixlen ∧ 2 ^ (b1.hostBits + 1) ∣ b1.addr)

lemma summarizeGo_maximal (v : Nat) :
    ∀ fuel first lastA, lastA < 2 ^ widthOf v → lastA + 1 - first ≤ fuel →
      (summarizeGo v fuel first lastA).Chain' NotSibs := by
  intro fuel
  induction fuel with
  | zero =>
    intro first lastA _ _
    exact List.chain'_nil
  | succ f ih =>
    intro first lastA hw hle
    by_cases hc : first ≤ lastA
    · rw [summarizeGo_step hc]
      generalize hnb : min (count_rhz first (widthOf v)) (log2F (lastA - first + 1)) = nb1
      have hpos : 0 < 2 ^ nb1 := Nat.two_pow_pos nb1
      rw [List.chain'_cons']
      refine ⟨?_, ih _ lastA hw (by omega)⟩
      intro b2 hb2
      have hL1 : 1 ≤ lastA - first + 1 := by omega
      have hnb_log : nb1 ≤ log2F (lastA - first + 1) := by rw [← hnb]; exact min_le_right _ _
      have hnb_crhz : nb1 ≤ count_rhz first (widthOf v) := by rw [← hnb]; exact min_le_left _ _
      have hnb_w : nb1 ≤ widthOf v := le_trans hnb_crhz (count_rhz_le first (widthOf v))
      -- b2 is the head of the remaining decomposition, hence the blocks
      -- starting at first + 2 ^ nb1; if that exceeds lastA there is no head
      by_cases hc2 : first + 2 ^ nb1 ≤ lastA
      · cases f with
        | zero =>
          have := Nat.two_pow_pos nb1
          omega
        | succ f2 =>
          rw [summarizeGo_step hc2] at hb2
          simp only [List.head?_cons, Option.mem_def, Option.some.injEq] at hb2
          subst hb2
          generalize hnb2 : min (count_rhz (first + 2 ^ nb1) (widthOf v))
            (log2F (lastA - (first + 2 ^ nb1) + 1)) = nb2
          rintro ⟨hpl, hdvd⟩
          have hnb2_w : nb2 ≤ widthOf v := by
            rw [← hnb2]
            exact le_trans (min_le_left _ _) (count_rhz_le _ _)
          have hploop : nb1 = nb2 := by
            have hpl2 : widthOf v - nb1 = widthOf v - nb2 := hpl
            omega
          have hhb : (⟨v, first, widthOf v - nb1⟩ : Net).hostBits = nb1 :=
            mkBlock_hostBits rfl hnb_w
          rw [hhb] at hdvd
          -- nb1 + 1 is still within the width
          have hp1 : 2 ^ nb1 < 2 ^ widthOf v := by omega
          have hnb1_lt : nb1 < widthOf v :=
            (Nat.pow_lt_pow_iff_right (by norm_num)).mp hp1
          -- alignment at 2 ^ (nb1 + 1) forces nb1 = log2F L
          have hcr : nb1 + 1 ≤ count_rhz first (widthOf v) := by
            by_cases h0 : first = 0
            · unfold count_rhz
              rw [if_pos h0]
              omega
            · unfold count_rhz
              rw [if_neg h0]
              have := (le_tz_iff (k := nb1 + 1) h0).mpr hdvd
              omega
          have hlogeq : log2F (lastA - first + 1) = nb1 := by omega
          have hLlt := (log2F_bounds (lastA - first + 1) hL1).2
          rw [hlogeq, pow_succ] at hLlt
          -- the remaining length is below 2 ^ nb1, so the next block is smaller
          have hL2 : 1 ≤ lastA - (first + 2 ^ nb1) + 1 := by omega
          have hlt2 : lastA - (first + 2 ^ nb1) + 1 < 2 ^ nb1 := by omega
          have := log2F_lt hL2 hlt2
          have : nb2 < nb1 := by
            have h2 : nb2 ≤ log2F (lastA - (first + 2 ^ nb1) + 1) := by
              rw [← hnb2]
              exact min_le_right _ _
            omega
          omega
      · rw [summarizeGo_nil (by omega)] at hb2
        simp at hb2
    · rw [summarizeGo_nil (by omega)]
      exact List.chain'_nil

/-! ## Correctness of `address_exclude` and `ip_network_exclude` -/

lemma Net.eq_of_toSet_eq {a b : Net} (ha : a.WF) (hb : b.WF) (h : a.toSet = b.toSet) :
    a = b := by
  have h1 := Net.base_mem_toSet a
  have h2 := Net.base_mem_toSet b
  have h1' := h ▸ h1
  have h2' := h.symm ▸ h2
  rw [Net.mem_toSet] at h1' h2'
  have hv : a.version = b.version := h1'.1
  have haddr : a.addr = b.addr := by omega
  have h3 := h ▸ Net.bcast_mem_toSet a
  have h4 := h.symm ▸ Net.bcast_mem_toSet b
  rw [Net.mem_toSet] at h3 h4
  unfold Net.bcast at h3 h4
  have hsa := size_pos a
  have hsb := size_pos b
  have hsz : a.size = b.size := by omega
  have hhb : a.hostBits = b.hostBits := Nat.pow_right_injective (by norm_num) hsz
  have hpl : a.prefixlen = b.prefixlen := by
    have hwa := ha.2.1
    have hwb := hb.2.1
    have : a.width = b.width := by unfold Net.width; rw [hv]
    unfold Net.hostBits at hhb
    omega
  cases a
  cases b
  simp only at hv haddr hpl
  simp [hv, haddr, hpl]

lemma mk_WF {v a p : Nat} (hv : v = 4 ∨ v = 6) (hp : p ≤ widthOf v)
    (hd : 2 ^ (widthOf v - p) ∣ a) (hb : a + 2 ^ (widthOf v - p) ≤ 2 ^ widthOf v) :
    (⟨v, a, p⟩ : Net).WF := ⟨hv, hp, hd, hb⟩

lemma mk_size (v a p : Nat) : (⟨v, a, p⟩ : Net).size = 2 ^ (widthOf v - p) := rfl

/-- The two halves of a splittable block partition it. -/
lemma halves_spec {n : Net} (hn : n.WF) (hp : n.prefixlen < n.width) :
    (netHalves n).1.WF ∧ (netHalves n).2.WF ∧
      (netHalves n).1.version = n.version ∧ (netHalves n).2.version = n.version ∧
      (netHalves n).1.addr = n.addr ∧
      (netHalves n).2.addr = n.addr + 2 ^ (n.hostBits - 1) ∧
      (netHalves n).1.size = 2 ^ (n.hostBits - 1) ∧
      (netHalves n).2.size = 2 ^ (n.hostBits - 1) ∧
      2 ^ (n.hostBits - 1) + 2 ^ (n.hostBits - 1) = n.size ∧
      (netHalves n).1.prefixlen = n.prefixlen + 1 ∧
      (netHalves n).2.prefixlen = n.prefixlen + 1 := by
  have hpw : n.prefixlen < widthOf n.version := hp
  have hh1 : 1 ≤ n.hostBits := by
    unfold Net.hostBits Net.width
    omega
  have hexp : widthOf n.version - (n.prefixlen + 1) = n.hostBits - 1 := by
    unfold Net.hostBits Net.width
    omega
  have hsz : n.size = 2 ^ (widthOf n.version - n.prefixlen) := rfl
  have hsum : 2 ^ (n.hostBits - 1) + 2 ^ (n.hostBits - 1) = n.size := by
    rw [hsz]
    have hstep : widthOf n.version - n.prefixlen = (n.hostBits - 1) + 1 := by
      unfold Net.hostBits Net.width
      omega
    rw [hstep, pow_succ]
    omega
  have hdvd : (2 : Nat) ^ (n.hostBits - 1) ∣ 2 ^ (widthOf n.version - n.prefixlen) := by
    rw [← hexp]
    exact Nat.pow_dvd_pow 2 (by omega)
  have hda : 2 ^ (n.hostBits - 1) ∣ n.addr := dvd_trans hdvd (hsz ▸ hn.2.2.1)
  have hbound : n.addr + 2 ^ (widthOf n.version - n.prefixlen) ≤ 2 ^ widthOf n.version :=
    hsz ▸ hn.2.2.2
  have hsz1 : (2 : Nat) ^ (widthOf n.version - (n.prefixlen + 1)) = 2 ^ (n.hostBits - 1) := by
    rw [hexp]
  refine ⟨?_, ?_, rfl, rfl, rfl, rfl, ?_, ?_, hsum, rfl, rfl⟩
  · apply mk_WF hn.1 (by omega)
    · rw [hsz1]
      exact hda
    · rw [hsz1]
      omega
  · apply mk_WF hn.1 (by omega)
    · rw [hsz1]
      exact Dvd.dvd.add hda dvd_rfl
    · rw [hsz1]
      omega
  · show (2 : Nat) ^ (widthOf n.version - (n.prefixlen + 1)) = 2 ^ (n.hostBits - 1)
    exact hsz1
  · show (2 : Nat) ^ (widthOf n.version - (n.prefixlen + 1)) = 2 ^ (n.hostBits - 1)
    exact hsz1

lemma toSet_subset_of_bounds {a b : Net} (hv : a.version = b.version)
    (h1 : b.addr ≤ a.addr) (h2 : a.addr + a.size ≤ b.addr + b.size) : a.toSet ⊆ b.toSet := by
  intro p hp
  rw [Net.mem_toSet] at hp ⊢
  exact ⟨hp.1.trans hv, by omega, by omega⟩

lemma disjoint_of_bounds {a b : Net}
    (h : a.addr + a.size ≤ b.addr ∨ b.addr + b.size ≤ a.addr) : NetDisjoint a b := by
  unfold NetDisjoint
  ext p
  simp only [Set.mem_inter_iff, Net.mem_toSet, Set.mem_empty_iff_false, iff_false]
  rintro ⟨hp1, hp2⟩
  omega

lemma subset_bounds {a b : Net} (ha : a.WF) (hb : b.WF) (h : a.toSet ⊆ b.toSet) :
    b.addr ≤ a.addr ∧ a.addr + a.size ≤ b.addr + b.size := by
  have h1 := h (Net.base_mem_toSet a)
  have h2 := h (Net.bcast_mem_toSet a)
  rw [Net.mem_toSet] at h1 h2
  have hsa := size_pos a
  have hsb := size_pos b
  unfold Net.bcast at h2
  omega

lemma proper_subnet_prefixlen_lt {n e : Net} (hn : n.WF) (he : e.WF) (hv : n.version = e.version)
    (hsub : e.toSet ⊆ n.toSet) (hne : e ≠ n) : n.prefixlen < e.prefixlen := by
  obtain ⟨h1, h2⟩ := subset_bounds he hn hsub
  by_cases heq : e.size = n.size
  · exfalso
    apply hne
    apply Net.eq_of_toSet_eq he hn
    ext p
    rw [Net.mem_toSet, Net.mem_toSet]
    have hv2 : e.version = n.version := hv.symm
    omega
  · have hlt : e.size < n.size := by omega
    have hhb : e.hostBits < n.hostBits := by
      by_contra hc
      push_neg at hc
      have : n.size ≤ e.size := Nat.pow_le_pow_right (by norm_num) hc
      omega
    have h3 : e.prefixlen ≤ widthOf e.version := he.2.1
    unfold Net.hostBits Net.width at hhb
    rw [hv] at hhb
    omega

lemma addressExcludeGo_step {fuel : Nat} {cur other : Net} (h : cur.prefixlen < cur.width) :
    addressExcludeGo (fuel + 1) cur other =
      (if (netHalves cur).1 = other then some [(netHalves cur).2]
       else if (netHalves cur).2 = other then some [(netHalves cur).1]
       else if subnetOfB other (netHalves cur).1 then
         Option.bind (addressExcludeGo fuel (netHalves cur).1 other)
           (fun l => some ((netHalves cur).2 :: l))
       else if subnetOfB other (netHalves cur).2 then
         Option.bind (addressExcludeGo fuel (netHalves cur).2 other)
           (fun l => some ((netHalves cur).1 :: l))
       else none) := by
  conv_lhs => unfold addressExcludeGo; rw [if_neg (show ¬ cur.width ≤ cur.prefixlen by omega)]
  rfl

/-- Specification of the bisection loop: for a strict aligned sub-block
`other` of `cur`, it returns the complementary blocks, which tile
`cur` minus `other`, are pairwise disjoint, and each avoid `other`. -/
lemma addressExcludeGo_spec :
    ∀ fuel (cur other : Net), cur.WF → other.WF → cur.version = other.version →
      other.toSet ⊆ cur.toSet → cur.prefixlen < other.prefixlen →
      other.prefixlen - cur.prefixlen ≤ fuel →
      ∃ l, addressExcludeGo fuel cur other = some l ∧
        listSet l = cur.toSet \ other.toSet ∧
        l.Pairwise NetDisjoint ∧
        ∀ b ∈ l, b.WF ∧ b.version = cur.version ∧ b.toSet ⊆ cur.toSet ∧
          b.toSet ∩ other.toSet = ∅ := by
  intro fuel
  induction fuel with
  | zero =>
    intro cur other _ _ _ _ hlt hfuel
    omega
  | succ f ih =>
    intro cur other hcur hother hv hsub hlt hfuel
    have hple : other.prefixlen ≤ widthOf other.version := hother.2.1
    have hpcur : cur.prefixlen < cur.width := by
      show cur.prefixlen < widthOf cur.version
      rw [hv]
      omega
    obtain ⟨h1WF, h2WF, h1v, h2v, h1a, h2a, h1s, h2s, hsum, h1p, h2p⟩ := halves_spec hcur hpcur
    have hHpos : 0 < 2 ^ (cur.hostBits - 1) := Nat.two_pow_pos _
    have hso : other.size ≤ 2 ^ (cur.hostBits - 1) := by
      have hhb : other.hostBits ≤ cur.hostBits - 1 := by
        unfold Net.hostBits Net.width
        rw [hv]
        unfold Net.hostBits Net.width at hpcur
        rw [hv] at hpcur
        omega
      exact Nat.pow_le_pow_right (by norm_num) hhb
    have hdvHalf : other.size ∣ 2 ^ (cur.hostBits - 1) := by
      unfold Net.size at hso ⊢
      exact Nat.pow_dvd_pow 2 ((Nat.pow_le_pow_iff_right (by norm_num)).mp hso)
    have hdvCurSize : other.size ∣ cur.size := by
      refine dvd_trans hdvHalf ?_
      obtain ⟨_, _, hs⟩ := And.intro hsum (And.intro hsum hsum)
      exact Dvd.intro 2 (by omega)
    have hdvO : other.size ∣ other.addr := hother.2.2.1
    have hdvCur : other.size ∣ cur.addr := dvd_trans hdvCurSize hcur.2.2.1
    have hmid : other.size ∣ cur.addr + 2 ^ (cur.hostBits - 1) := Dvd.dvd.add hdvCur hdvHalf
    obtain ⟨hob1, hob2⟩ := subset_bounds hother hcur hsub
    have hop := size_pos other
    have hv1 : (netHalves cur).1.version = other.version := h1v.trans hv
    have hv2 : (netHalves cur).2.version = other.version := h2v.trans hv
    rw [addressExcludeGo_step hpcur]
    have hcase : other.addr + other.size ≤ cur.addr + 2 ^ (cur.hostBits - 1) ∨
        cur.addr + 2 ^ (cur.hostBits - 1) ≤ other.addr := by
      rcases Nat.lt_or_ge other.addr (cur.addr + 2 ^ (cur.hostBits - 1)) with hx | hx
      · left
        apply mult_le_of_lt_add hop (Dvd.dvd.add hdvO dvd_rfl) hmid
        omega
      · right
        omega
    rcases hcase with hcase | hcase
    · -- `other` lies in the lower half
      have hsubs1 : subnetOfB other (netHalves cur).1 = true := by
        unfold subnetOfB Net.bcast
        simp only [Bool.and_eq_true, decide_eq_true_eq]
        rw [h1a, h1s]
        omega
      have hsub1 : other.toSet ⊆ (netHalves cur).1.toSet :=
        (subnetOfB_iff hother h1WF hv1.symm).mp hsubs1
      by_cases heq1 : (netHalves cur).1 = other
      · rw [if_pos heq1]
        subst heq1
        refine ⟨[(netHalves cur).2], rfl, ?_, List.pairwise_singleton _ _, ?_⟩
        · rw [listSet_cons, listSet_nil]
          ext p
          simp only [Set.union_empty, Set.mem_diff, Net.mem_toSet, h1a, h1s, h2a, h2s,
            h1v, h2v]
          omega
        · intro b hb
          rw [List.mem_singleton] at hb
          subst hb
          refine ⟨h2WF, h2v, toSet_subset_of_bounds h2v (by omega) (by omega), ?_⟩
          have := disjoint_of_bounds (a := (netHalves cur).2) (b := (netHalves cur).1)
            (by rw [h1a, h1s, h2a, h2s]; omega)
          exact this
      · have hne2 : ¬ (netHalves cur).2 = other := by
          intro heq2
          rw [← heq2, h2a, h2s] at hcase
          omega
        rw [if_neg heq1, if_neg hne2, if_pos hsubs1]
        have hplt1 : (netHalves cur).1.prefixlen < other.prefixlen :=
          proper_subnet_prefixlen_lt h1WF hother hv1 hsub1 (fun he => heq1 he.symm)
        obtain ⟨l', hleq, hlset, hlpw, hlprops⟩ :=
          ih (netHalves cur).1 other h1WF hother hv1 hsub1 hplt1 (by omega)
        obtain ⟨hos1, hos2⟩ := subset_bounds hother h1WF hsub1
        rw [h1a] at hos1 hos2
        rw [h1s] at hos2
        refine ⟨(netHalves cur).2 :: l', by rw [hleq]; rfl, ?_, ?_, ?_⟩
        · rw [listSet_cons, hlset]
          ext p
          simp only [Set.mem_union, Set.mem_diff, Net.mem_toSet, h1a, h1s, h2a, h2s,
            h1v, h2v, hv]
          omega
        · refine List.Pairwise.cons ?_ hlpw
          intro b hb
          obtain ⟨hbWF, hbv, hbsub, hbdis⟩ := hlprops b hb
          obtain ⟨hb1, hb2⟩ := subset_bounds hbWF h1WF hbsub
          rw [h1a] at hb1 hb2
          rw [h1s] at hb2
          exact disjoint_of_bounds (by rw [h2a, h2s]; omega)
        · intro b hb
          rw [List.mem_cons] at hb
          rcases hb with rfl | hb
          · refine ⟨h2WF, h2v, toSet_subset_of_bounds h2v (by omega) (by omega), ?_⟩
            have := disjoint_of_bounds (a := (netHalves cur).2) (b := other)
              (by rw [h2a, h2s]; omega)
            exact this
          · obtain ⟨hbWF, hbv, hbsub, hbdis⟩ := hlprops b hb
            obtain ⟨hb1, hb2⟩ := subset_bounds hbWF h1WF hbsub
            rw [h1a] at hb1 hb2
            rw [h1s] at hb2
            exact ⟨hbWF, hbv.trans h1v, toSet_subset_of_bounds (hbv.trans h1v) (by omega)
              (by omega), hbdis⟩
    · -- `other` lies in the upper half
      have hsubs2 : subnetOfB other (netHalves cur).2 = true := by
        unfold subnetOfB Net.bcast
        simp only [Bool.and_eq_true, decide_eq_true_eq]
        rw [h2a, h2s]
        omega
      have hsub2 : other.toSet ⊆ (netHalves cur).2.toSet :=
        (subnetOfB_iff hother h2WF hv2.symm).mp hsubs2
      have hne1 : ¬ (netHalves cur).1 = other := by
        intro heq1
        rw [← heq1] at hcase
        rw [h1a] at hcase
        omega
      by_cases heq2 : (netHalves cur).2 = other
      · rw [if_neg hne1, if_pos heq2]
        subst heq2
        refine ⟨[(netHalves cur).1], rfl, ?_, List.pairwise_singleton _ _, ?_⟩
        · rw [listSet_cons, listSet_nil]
          ext p
          simp only [Set.union_empty, Set.mem_diff, Net.mem_toSet, h1a, h1s, h2a, h2s,
            h1v, h2v]
          omega
        · intro b hb
          rw [List.mem_singleton] at hb
          subst hb
          refine ⟨h1WF, h1v, toSet_subset_of_bounds h1v (by omega) (by omega), ?_⟩
          have := disjoint_of_bounds (a := (netHalves cur).1) (b := (netHalves cur).2)
            (by rw [h1a, h1s, h2a, h2s]; omega)
          exact this
      · have hnotsub1 : ¬ subnetOfB other (netHalves cur).1 = true := by
          unfold subnetOfB Net.bcast
          simp only [Bool.and_eq_true, decide_eq_true_eq, not_and]
          intro _
          rw [h1a, h1s]
          omega
        rw [if_neg hne1, if_neg heq2, if_neg hnotsub1, if_pos hsubs2]
        have hplt2 : (netHalves cur).2.prefixlen < other.prefixlen :=
          proper_subnet_prefixlen_lt h2WF hother hv2 hsub2 (fun he => heq2 he.symm)
        obtain ⟨l', hleq, hlset, hlpw, hlprops⟩ :=
          ih (netHalves cur).2 other h2WF hother hv2 hsub2 hplt2 (by omega)
        obtain ⟨hos1, hos2⟩ := subset_bounds hother h2WF hsub2
        rw [h2a] at hos1 hos2
        rw [h2s] at hos2
        refine ⟨(netHalves cur).1 :: l', by rw [hleq]; rfl, ?_, ?_, ?_⟩
        · rw [listSet_cons, hlset]
          ext p
          simp only [Set.mem_union, Set.mem_diff, Net.mem_toSet, h1a, h1s, h2a, h2s,
            h1v, h2v, hv]
          omega
        · refine List.Pairwise.cons ?_ hlpw
          intro b hb
          obtain ⟨hbWF, hbv, hbsub, hbdis⟩ := hlprops b hb
          obtain ⟨hb1, hb2⟩ := subset_bounds hbWF h2WF hbsub
          rw [h2a] at hb1 hb2
          rw [h2s] at hb2
          exact disjoint_of_bounds (by rw [h1a, h1s]; omega)
        · intro b hb
          rw [List.mem_cons] at hb
          rcases hb with rfl | hb
          · refine ⟨h1WF, h1v, toSet_subset_of_bounds h1v (by omega) (by omega), ?_⟩
            have := disjoint_of_bounds (a := (netHalves cur).1) (b := other)
              (by rw [h1a, h1s]; omega)
            exact this
          · obtain ⟨hbWF, hbv, hbsub, hbdis⟩ := hlprops b hb
            obtain ⟨hb1, hb2⟩ := subset_bounds hbWF h2WF hbsub
            rw [h2a] at hb1 hb2
            rw [h2s] at hb2
            exact ⟨hbWF, hbv.trans h2v, toSet_subset_of_bounds (hbv.trans h2v) (by omega)
              (by omega), hbdis⟩

lemma address_exclude_spec {self other : Net} (hself : self.WF) (hother : other.WF)
    (hv : self.version = other.version) (hsub : other.toSet ⊆ self.toSet)
    (hlt : self.prefixlen < other.prefixlen) :
    ∃ l, address_exclude self other = some l ∧
      listSet l = self.toSet \ other.toSet ∧ l.Pairwise NetDisjoint ∧
      ∀ b ∈ l, b.WF ∧ b.version = self.version ∧ b.toSet ⊆ self.toSet ∧
        b.toSet ∩ other.toSet = ∅ := by
  have hfuel : other.prefixlen - self.prefixlen ≤ widthOf self.version := by
    have h1 : other.prefixlen ≤ widthOf other.version := hother.2.1
    rw [hv]
    omega
  obtain ⟨l, hleq, hrest⟩ :=
    addressExcludeGo_spec (widthOf self.version) self other hself hother hv hsub hlt hfuel
  refine ⟨l, ?_, hrest⟩
  unfold address_exclude
  rw [if_neg (not_not_intro hv),
    if_neg (not_not_intro ((subnetOfB_iff hother hself hv.symm).mpr hsub)),
    if_neg (show ¬ other = self by intro he; rw [he] at hlt; exact absurd hlt (lt_irrefl _))]
  exact hleq

lemma NetDisjoint.symm {a b : Net} (h : NetDisjoint a b) : NetDisjoint b a := by
  unfold NetDisjoint at *
  rw [Set.inter_comm]
  exact h

lemma NetDisjoint.mono {a b a0 b0 : Net} (h : NetDisjoint a0 b0) (ha : a.toSet ⊆ a0.toSet)
    (hb : b.toSet ⊆ b0.toSet) : NetDisjoint a b := by
  unfold NetDisjoint at *
  ext p
  simp only [Set.mem_inter_iff, Set.mem_empty_iff_false, iff_false]
  rintro ⟨h1, h2⟩
  have : p ∈ a0.toSet ∩ b0.toSet := ⟨ha h1, hb h2⟩
  rw [h] at this
  exact this

/-- Full specification of `ip_network_exclude` for same-family blocks:
it always succeeds, its output covers exactly `network` minus `exclude`,
is pairwise disjoint, and each piece is a well-formed sub-block of
`network` avoiding `exclude`. -/
lemma ip_network_exclude_spec {n e : Net} (hn : n.WF) (he : e.WF)
    (hv : n.version = e.version) :
    ∃ l, ip_network_exclude n e = some l ∧
      listSet l = n.toSet \ e.toSet ∧ l.Pairwise NetDisjoint ∧
      ∀ b ∈ l, b.WF ∧ b.version = n.version ∧ b.toSet ⊆ n.toSet ∧
        b.toSet ∩ e.toSet = ∅ := by
  unfold ip_network_exclude
  rw [if_neg (not_not_intro hv)]
  by_cases hsubn : subnetOfB n e = true
  · rw [if_pos hsubn]
    have hnsub := (subnetOfB_iff hn he hv).mp hsubn
    refine ⟨[], rfl, ?_, List.Pairwise.nil, by intro b hb; cases hb⟩
    rw [listSet_nil]
    symm
    rw [Set.diff_eq_empty]
    exact hnsub
  · rw [if_neg hsubn]
    by_cases hov : overlapsB n e = true
    · rw [if_pos hov]
      have hovS := (overlapsB_iff hn he).mp hov
      have hsubE : e.toSet ⊆ n.toSet := by
        rcases nested_or_disjoint hn he hv hovS with hc | hc
        · exact absurd ((subnetOfB_iff hn he hv).mpr hc) hsubn
        · exact hc
      have hne : e ≠ n := by
        intro heq
        subst heq
        exact hsubn ((subnetOfB_iff hn he hv).mpr (subset_refl _))
      exact address_exclude_spec hn he hv hsubE (proper_subnet_prefixlen_lt hn he hv hsubE hne)
    · rw [if_neg hov]
      have hdis : NetDisjoint n e := (not_overlapsB_iff hn he).mp (by
        cases hq : overlapsB n e
        · rfl
        · exact absurd hq hov)
      refine ⟨[n], rfl, ?_, List.pairwise_singleton _ _, ?_⟩
      · rw [listSet_cons, listSet_nil, Set.union_empty]
        ext p
        simp only [Set.mem_diff]
        constructor
        · intro h
          refine ⟨h, fun he2 => ?_⟩
          have hmem : p ∈ n.toSet ∩ e.toSet := ⟨h, he2⟩
          rw [show n.toSet ∩ e.toSet = ∅ from hdis] at hmem
          exact hmem
        · exact fun h => h.1
      · intro b hb
        rw [List.mem_singleton] at hb
        subst hb
        exact ⟨hn, rfl, subset_refl _, hdis⟩

/-! ## The exclusion driver -/

lemma applySub_spec {v : Nat} :
    ∀ {blocks : List Net} {s : Net}, (∀ b ∈ blocks, b.WF ∧ b.version = v) → s.WF →
      s.version = v →
      ∃ l, applySub blocks s = some l ∧
        listSet l = listSet blocks \ s.toSet ∧
        (∀ b ∈ l, b.WF ∧ b.version = v ∧ ∃ b0 ∈ blocks, b.toSet ⊆ b0.toSet) ∧
        (blocks.Pairwise NetDisjoint → l.Pairwise NetDisjoint) := by
  intro blocks
  induction blocks with
  | nil =>
    intro s _ _ _
    refine ⟨[], rfl, ?_, ?_, ?_⟩
    · rw [listSet_nil, Set.empty_diff]
    · intro b hb
      cases hb
    · intro _
      exact List.Pairwise.nil
  | cons b t ih =>
    intro s hall hs hsv
    obtain ⟨hbWF, hbv⟩ := hall b (List.mem_cons_self _ _)
    obtain ⟨l1, hl1, hset1, hpw1, hprops1⟩ :=
      ip_network_exclude_spec hbWF hs (hbv.trans hsv.symm)
    obtain ⟨l2, hl2, hset2, hprops2, hpw2⟩ :=
      ih (fun b2 hb2 => hall b2 (List.mem_cons_of_mem _ hb2)) hs hsv
    refine ⟨l1 ++ l2, ?_, ?_, ?_, ?_⟩
    · show (ip_network_exclude b s).bind _ = _
      rw [hl1, hl2]
      rfl
    · rw [listSet_append, hset1, hset2, listSet_cons, Set.union_diff_distrib]
    · intro b2 hb2
      rw [List.mem_append] at hb2
      rcases hb2 with hb2 | hb2
      · obtain ⟨hWF, hver, hsub2, _⟩ := hprops1 b2 hb2
        exact ⟨hWF, hver.trans hbv, b, List.mem_cons_self _ _, hsub2⟩
      · obtain ⟨hWF, hver, b0, hb0, hsub0⟩ := hprops2 b2 hb2
        exact ⟨hWF, hver, b0, List.mem_cons_of_mem _ hb0, hsub0⟩
    · intro hpw
      rw [List.pairwise_cons] at hpw
      rw [List.pairwise_append]
      refine ⟨hpw1, hpw2 hpw.2, ?_⟩
      intro x hx y hy
      obtain ⟨_, _, hxsub, _⟩ := hprops1 x hx
      obtain ⟨_, _, y0, hy0, hysub⟩ := hprops2 y hy
      exact (hpw.1 y0 hy0).mono hxsub hysub

lemma processAddGo_spec {v : Nat} :
    ∀ (subs blocks : List Net), (∀ b ∈ blocks, b.WF ∧ b.version = v) →
      (∀ s ∈ subs, s.WF ∧ s.version = v) →
      ∃ l, processAddGo blocks subs = some l ∧
        listSet l = listSet blocks \ listSet subs ∧
        (∀ b ∈ l, b.WF ∧ b.version = v ∧ ∃ b0 ∈ blocks, b.toSet ⊆ b0.toSet) ∧
        (blocks.Pairwise NetDisjoint → l.Pairwise NetDisjoint) := by
  intro subs
  induction subs with
  | nil =>
    intro blocks hall _
    refine ⟨blocks, rfl, ?_, ?_, fun h => h⟩
    · rw [listSet_nil, Set.diff_empty]
    · intro b hb
      exact ⟨(hall b hb).1, (hall b hb).2, b, hb, subset_refl _⟩
  | cons s rest ih =>
    intro blocks hall hsubs
    by_cases hempty : blocks.isEmpty
    · rw [List.isEmpty_iff] at hempty
      subst hempty
      refine ⟨[], rfl, ?_, ?_, ?_⟩
      · rw [listSet_nil, Set.empty_diff]
      · intro b hb
        cases hb
      · intro _
        exact List.Pairwise.nil
    · have hstep : processAddGo blocks (s :: rest) =
          (applySub blocks s).bind fun bl => processAddGo bl rest := by
        show (if blocks.isEmpty then some blocks else _) = _
        rw [if_neg hempty]
        rfl
      obtain ⟨hsWF, hsv⟩ := hsubs s (List.mem_cons_self _ _)
      obtain ⟨l1, hl1, hset1, hprops1, hpw1⟩ := applySub_spec hall hsWF hsv
      obtain ⟨l2, hl2, hset2, hprops2, hpw2⟩ :=
        ih l1 (fun b hb => ⟨(hprops1 b hb).1, (hprops1 b hb).2.1⟩)
          (fun s2 hs2 => hsubs s2 (List.mem_cons_of_mem _ hs2))
      refine ⟨l2, ?_, ?_, ?_, ?_⟩
      · rw [hstep, hl1]
        exact hl2
      · rw [hset2, hset1, listSet_cons, Set.diff_diff]
      · intro b hb
        obtain ⟨hWF, hver, b1, hb1, hsub1⟩ := hprops2 b hb
        obtain ⟨_, _, b0, hb0, hsub0⟩ := hprops1 b1 hb1
        exact ⟨hWF, hver, b0, hb0, hsub1.trans hsub0⟩
      · exact fun h => hpw2 (hpw1 h)

lemma listSet_reverse (l : List Net) : listSet l.reverse = listSet l := by
  ext p
  simp only [listSet, Set.mem_setOf_eq, List.mem_reverse]

lemma mainLoop_spec {v : Nat} :
    ∀ (adds subs : List Net), (∀ a ∈ adds, a.WF ∧ a.version = v) →
      (∀ s ∈ subs, s.WF ∧ s.version = v) →
      ∃ l, mainLoop adds subs = some l ∧
        listSet l = listSet adds \ listSet subs ∧
        (∀ b ∈ l, b.WF ∧ b.version = v ∧ ∃ a ∈ adds, b.toSet ⊆ a.toSet) ∧
        (adds.Pairwise NetDisjoint → l.Pairwise NetDisjoint) := by
  intro adds
  induction adds with
  | nil =>
    intro subs _ _
    refine ⟨[], rfl, ?_, ?_, ?_⟩
    · rw [listSet_nil, Set.empty_diff]
    · intro b hb
      cases hb
    · intro _
      exact List.Pairwise.nil
  | cons a rest ih =>
    intro subs hall hsubs
    obtain ⟨haWF, hav⟩ := hall a (List.mem_cons_self _ _)
    obtain ⟨l1, hl1, hset1, hprops1, hpw1⟩ := processAddGo_spec subs [a]
      (by
        intro b hb
        rw [List.mem_singleton] at hb
        subst hb
        exact ⟨haWF, hav⟩) hsubs
    obtain ⟨l2, hl2, hset2, hprops2, hpw2⟩ :=
      ih subs (fun a2 ha2 => hall a2 (List.mem_cons_of_mem _ ha2)) hsubs
    refine ⟨l1 ++ l2, ?_, ?_, ?_, ?_⟩
    · show (processAdd a subs).bind _ = _
      unfold processAdd
      rw [hl1, hl2]
      rfl
    · rw [listSet_append, hset1, hset2, listSet_cons, listSet_cons, listSet_nil,
        Set.union_empty, Set.union_diff_distrib]
    · intro b hb
      rw [List.mem_append] at hb
      rcases hb with hb | hb
      · obtain ⟨hWF, hver, b0, hb0, hsub0⟩ := hprops1 b hb
        rw [List.mem_singleton] at hb0
        subst hb0
        exact ⟨hWF, hver, b0, List.mem_cons_self _ _, hsub0⟩
      · obtain ⟨hWF, hver, a0, ha0, hsub0⟩ := hprops2 b hb
        exact ⟨hWF, hver, a0, List.mem_cons_of_mem _ ha0, hsub0⟩
    · intro hpw
      rw [List.pairwise_cons] at hpw
      rw [List.pairwise_append]
      refine ⟨hpw1 (List.pairwise_singleton _ _), hpw2 hpw.2, ?_⟩
      intro x hx y hy
      obtain ⟨_, _, x0, hx0, hxsub⟩ := hprops1 x hx
      rw [List.mem_singleton] at hx0
      subst hx0
      obtain ⟨_, _, y0, hy0, hysub⟩ := hprops2 y hy
      exact (hpw.1 y0 hy0).mono hxsub hysub

lemma mem_subNetworks {add sub : List Net} {s a : Net} (hs : s ∈ sub) (ha : a ∈ add)
    (hov : overlapsB a s = true) : s ∈ subNetworks add sub := by
  unfold subNetworks
  rw [List.mem_flatMap]
  refine ⟨s, hs, ?_⟩
  rw [List.mem_map]
  refine ⟨a, ?_, rfl⟩
  rw [List.mem_filter]
  exact ⟨ha, hov⟩

lemma subNetworks_mem_sub {add sub : List Net} {s : Net} (h : s ∈ subNetworks add sub) :
    s ∈ sub := by
  unfold subNetworks at h
  rw [List.mem_flatMap] at h
  obtain ⟨s0, hs0, hmap⟩ := h
  rw [List.mem_map] at hmap
  obtain ⟨_, _, rfl⟩ := hmap
  exact hs0

lemma subNetworks_empty_inter {add sub : List Net} (hadd : ∀ a ∈ add, a.WF)
    (hsub : ∀ s ∈ sub, s.WF) (h : subNetworks add sub = []) :
    listSet add ∩ listSet sub = ∅ := by
  ext p
  simp only [Set.mem_inter_iff, Set.mem_empty_iff_false, iff_false]
  rintro ⟨⟨a, ha, hpa⟩, ⟨s, hs, hps⟩⟩
  have hov : overlapsB a s = true :=
    (overlapsB_iff (hadd a ha) (hsub s hs)).mpr ⟨p, hpa, hps⟩
  have := mem_subNetworks hs ha hov
  rw [h] at this
  cases this

lemma subNetworks_diff {add sub : List Net} (hadd : ∀ a ∈ add, a.WF)
    (hsub : ∀ s ∈ sub, s.WF) :
    listSet add \ listSet (subNetworks add sub) = listSet add \ listSet sub := by
  ext p
  simp only [Set.mem_diff]
  constructor
  · rintro ⟨hpa, hns⟩
    refine ⟨hpa, fun hps => hns ?_⟩
    obtain ⟨s, hs, hp⟩ := hps
    obtain ⟨a, ha, hpa2⟩ := hpa
    have hov : overlapsB a s = true :=
      (overlapsB_iff (hadd a ha) (hsub s hs)).mpr ⟨p, hpa2, hp⟩
    exact ⟨s, mem_subNetworks hs ha hov, hp⟩
  · rintro ⟨hpa, hns⟩
    refine ⟨hpa, fun hps => hns ?_⟩
    obtain ⟨s, hs, hp⟩ := hps
    exact ⟨s, subNetworks_mem_sub hs, hp⟩

/-- Main exclusion pipeline: for well-formed same-family inputs it
completes, its result covers exactly ADD minus SUB, consists of
well-formed blocks, and is pairwise disjoint whenever the ADD set is. -/
theorem mainResult_spec {v : Nat} (add sub : List Net)
    (hadd : ∀ a ∈ add, a.WF ∧ a.version = v) (hsub : ∀ s ∈ sub, s.WF ∧ s.version = v) :
    ∃ res, mainResult add sub = some res ∧
      listSet res = listSet add \ listSet sub ∧
      (∀ b ∈ res, b.WF ∧ b.version = v) ∧
      (add.Pairwise NetDisjoint → res.Pairwise NetDisjoint) := by
  have hdef : mainResult add sub = if (subNetworks add sub).isEmpty then some add
      else mainLoop add.reverse (subNetworks add sub) := rfl
  rw [hdef]
  by_cases hemp : (subNetworks add sub).isEmpty
  · rw [if_pos hemp]
    rw [List.isEmpty_iff] at hemp
    have hint := subNetworks_empty_inter (fun a ha => (hadd a ha).1)
      (fun s hs => (hsub s hs).1) hemp
    refine ⟨add, rfl, ?_, fun b hb => ⟨(hadd b hb).1, (hadd b hb).2⟩, fun h => h⟩
    ext p
    simp only [Set.mem_diff]
    constructor
    · intro h
      refine ⟨h, fun hs => ?_⟩
      have : p ∈ listSet add ∩ listSet sub := ⟨h, hs⟩
      rw [hint] at this
      exact this
    · exact fun h => h.1
  · rw [if_neg hemp]
    obtain ⟨l, hleq, hlset, hlprops, hlpw⟩ := mainLoop_spec (v := v) add.reverse
      (subNetworks add sub)
      (by
        intro a ha
        rw [List.mem_reverse] at ha
        exact hadd a ha)
      (fun s hs => hsub s (subNetworks_mem_sub hs))
    refine ⟨l, hleq, ?_, fun b hb => ⟨(hlprops b hb).1, (hlprops b hb).2.1⟩, ?_⟩
    · rw [hlset, listSet_reverse,
        subNetworks_diff (fun a ha => (hadd a ha).1) (fun s hs => (hsub s hs).1)]
    · intro hpw
      apply hlpw
      rw [List.pairwise_reverse]
      exact hpw.imp fun h => h.symm

/-! ## One-block exclusion is idempotent in the removed block -/

lemma ip_network_exclude_of_disjoint {n e : Net} (hn : n.WF) (he : e.WF)
    (hv : n.version = e.version) (hdis : NetDisjoint n e) :
    ip_network_exclude n e = some [n] := by
  unfold ip_network_exclude
  rw [if_neg (not_not_intro hv)]
  have hovF : overlapsB n e = false := (not_overlapsB_iff hn he).mpr hdis
  have hsubF : ¬ subnetOfB n e = true := by
    intro hsubT
    have hs := (subnetOfB_iff hn he hv).mp hsubT
    have hbase := hs (Net.base_mem_toSet n)
    have hmem : (n.version, n.addr) ∈ n.toSet ∩ e.toSet := ⟨Net.base_mem_toSet n, hbase⟩
    rw [show n.toSet ∩ e.toSet = ∅ from hdis] at hmem
    exact hmem
  rw [if_neg hsubF, if_neg (by rw [hovF]; exact Bool.false_ne_true)]

/-- Every block returned by `ip_network_exclude n e` is disjoint from `e`
and is returned unchanged by a second exclusion of the same `e`. -/
lemma ip_network_exclude_idem {n e : Net} (hn : n.WF) (he : e.WF)
    (hv : n.version = e.version) {l : List Net} (hl : ip_network_exclude n e = some l) :
    ∀ b ∈ l, b.toSet ∩ e.toSet = ∅ ∧ ip_network_exclude b e = some [b] := by
  intro b hb
  obtain ⟨l', hl', _, _, hprops⟩ := ip_network_exclude_spec hn he hv
  rw [hl] at hl'
  injection hl' with h
  subst h
  obtain ⟨hbWF, hbv, _, hbdis⟩ := hprops b hb
  exact ⟨hbdis, ip_network_exclude_of_disjoint hbWF he (hbv.trans hv) hbdis⟩

lemma applySub_of_each_unchanged {s : Net} :
    ∀ {l : List Net}, (∀ b ∈ l, ip_network_exclude b s = some [b]) →
      applySub l s = some l := by
  intro l
  induction l with
  | nil => intro _; rfl
  | cons b t ih =>
    intro h
    show (ip_network_exclude b s).bind _ = _
    rw [h b (List.mem_cons_self _ _), ih fun b2 hb2 => h b2 (List.mem_cons_of_mem _ hb2)]
    rfl

/-- Second application of the same subtract block is the identity. -/
lemma applySub_twice {v : Nat} {blocks : List Net} {s : Net}
    (hall : ∀ b ∈ blocks, b.WF ∧ b.version = v) (hs : s.WF) (hsv : s.version = v)
    {l : List Net} (hl : applySub blocks s = some l) : applySub l s = some l := by
  obtain ⟨l', hl', hset, hprops, _⟩ := applySub_spec hall hs hsv
  rw [hl] at hl'
  injection hl' with h
  subst h
  apply applySub_of_each_unchanged
  intro b hb
  obtain ⟨hbWF, hbv, _, _⟩ := hprops b hb
  have hbdis : b.toSet ∩ s.toSet = ∅ := by
    ext p
    simp only [Set.mem_inter_iff, Set.mem_empty_iff_false, iff_false]
    rintro ⟨hpb, hps⟩
    have hpl : p ∈ listSet l := mem_listSet_of_mem hb hpb
    rw [hset] at hpl
    exact hpl.2 hps
  exact ip_network_exclude_of_disjoint hbWF hs (hbv.trans hsv.symm) hbdis

/-- A duplicated entry in the subtract list is a no-op: the second copy is
applied to blocks already disjoint from it. -/
lemma processAddGo_dup {v : Nat} {e : Net} (he : e.WF) (hev : e.version = v) :
    ∀ (blocks ys : List Net), (∀ b ∈ blocks, b.WF ∧ b.version = v) →
      processAddGo blocks (e :: e :: ys) = processAddGo blocks (e :: ys) := by
  intro blocks ys hall
  by_cases hempty : blocks.isEmpty
  · show (if blocks.isEmpty then some blocks else _)
      = (if blocks.isEmpty then some blocks else _)
    rw [if_pos hempty, if_pos hempty]
  · have hstep1 : processAddGo blocks (e :: e :: ys) =
        (applySub blocks e).bind fun bl => processAddGo bl (e :: ys) := by
      show (if blocks.isEmpty then some blocks else _) = _
      rw [if_neg hempty]
      rfl
    have hstep2 : processAddGo blocks (e :: ys) =
        (applySub blocks e).bind fun bl => processAddGo bl ys := by
      show (if blocks.isEmpty then some blocks else _) = _
      rw [if_neg hempty]
      rfl
    rw [hstep1, hstep2]
    obtain ⟨l1, hl1, _, hprops1, _⟩ := applySub_spec hall he hev
    rw [hl1]
    show processAddGo l1 (e :: ys) = processAddGo l1 ys
    by_cases hl1e : l1.isEmpty
    · rw [List.isEmpty_iff] at hl1e
      subst hl1e
      show some [] = processAddGo [] ys
      cases ys with
      | nil => rfl
      | cons y ys2 => rfl
    · have hstep3 : processAddGo l1 (e :: ys) =
          (applySub l1 e).bind fun bl => processAddGo bl ys := by
        show (if l1.isEmpty then some l1 else _) = _
        rw [if_neg hl1e]
        rfl
      rw [hstep3, applySub_twice hall he hev hl1]
      rfl

/-- Duplicates anywhere after a first copy: the driver's `sub_networks`
list repeats each subtract block once per overlapping add block, and the
copies are adjacent, so the whole per-block exclusion is unchanged. -/
lemma processAdd_dup {v : Nat} {a e : Net} {xs ys : List Net} (ha : a.WF) (hav : a.version = v)
    (hxs : ∀ x ∈ xs, x.WF ∧ x.version = v) (he : e.WF) (hev : e.version = v) :
    processAdd a (xs ++ e :: e :: ys) = processAdd a (xs ++ e :: ys) := by
  unfold processAdd
  have key : ∀ (xs2 blocks : List Net), (∀ x ∈ xs2, x.WF ∧ x.version = v) →
      (∀ b ∈ blocks, b.WF ∧ b.version = v) →
      processAddGo blocks (xs2 ++ e :: e :: ys) = processAddGo blocks (xs2 ++ e :: ys) := by
    intro xs2
    induction xs2 with
    | nil =>
      intro blocks _ hall
      exact processAddGo_dup he hev blocks ys hall
    | cons x t ih =>
      intro blocks hx2 hall
      by_cases hempty : blocks.isEmpty
      · show (if blocks.isEmpty then some blocks else _)
          = (if blocks.isEmpty then some blocks else _)
        rw [if_pos hempty, if_pos hempty]
      · have hs1 : processAddGo blocks ((x :: t) ++ e :: e :: ys) =
            (applySub blocks x).bind fun bl => processAddGo bl (t ++ e :: e :: ys) := by
          show (if blocks.isEmpty then some blocks else _) = _
          rw [if_neg hempty]
          rfl
        have hs2 : processAddGo blocks ((x :: t) ++ e :: ys) =
            (applySub blocks x).bind fun bl => processAddGo bl (t ++ e :: ys) := by
          show (if blocks.isEmpty then some blocks else _) = _
          rw [if_neg hempty]
          rfl
        rw [hs1, hs2]
        obtain ⟨hxWF, hxv⟩ := hx2 x (List.mem_cons_self _ _)
        obtain ⟨l1, hl1, _, hprops1, _⟩ := applySub_spec hall hxWF hxv
        rw [hl1]
        exact ih l1 (fun x2 hx3 => hx2 x2 (List.mem_cons_of_mem _ hx3))
          (fun b hb => ⟨(hprops1 b hb).1, (hprops1 b hb).2.1⟩)
  apply key xs [a] hxs
  intro b hb
  rw [List.mem_singleton] at hb
  subst hb
  exact ⟨ha, hav⟩

/-! ## The stable insertion sort -/

lemma insertLE_perm {α : Type} (le : α → α → Bool) (x : α) :
    ∀ l : List α, (insertLE le x l).Perm (x :: l) := by
  intro l
  induction l with
  | nil => exact List.Perm.refl _
  | cons y t ih =>
    unfold insertLE
    by_cases h : (le y x && !le x y) = true
    · rw [if_pos h]
      exact (ih.cons y).trans (List.Perm.swap x y t)
    · rw [if_neg h]

lemma sortByLE_perm {α : Type} (le : α → α → Bool) :
    ∀ l : List α, (sortByLE le l).Perm l := by
  intro l
  induction l with
  | nil => exact List.Perm.refl _
  | cons x t ih =>
    show (insertLE le x (sortByLE le t)).Perm (x :: t)
    exact (insertLE_perm le x (sortByLE le t)).trans (ih.cons x)

lemma insertLE_pairwise {α : Type} {le : α → α → Bool}
    (htrans : ∀ a b c, le a b = true → le b c = true → le a c = true)
    (htot : ∀ a b, le a b = true ∨ le b a = true) (x : α) :
    ∀ {l : List α}, l.Pairwise (fun a b => le a b = true) →
      (insertLE le x l).Pairwise (fun a b => le a b = true) := by
  intro l
  induction l with
  | nil =>
    intro _
    exact List.pairwise_singleton _ _
  | cons y t ih =>
    intro hp
    rw [List.pairwise_cons] at hp
    obtain ⟨hy, ht⟩ := hp
    unfold insertLE
    by_cases h : (le y x && !le x y) = true
    · rw [if_pos h]
      simp only [Bool.and_eq_true, Bool.not_eq_true'] at h
      rw [List.pairwise_cons]
      constructor
      · intro b hb
        have hmem := (insertLE_perm le x t).mem_iff.mp hb
        rw [List.mem_cons] at hmem
        rcases hmem with rfl | hmem
        · exact h.1
        · exact hy b hmem
      · exact ih ht
    · rw [if_neg h]
      simp only [Bool.and_eq_true, Bool.not_eq_true', not_and] at h
      have hxy : le x y = true := by
        rcases htot x y with hx | hx
        · exact hx
        · have h2 := h hx
          cases hq : le x y
          · exact absurd hq h2
          · rfl
      rw [List.pairwise_cons]
      constructor
      · intro b hb
        rw [List.mem_cons] at hb
        rcases hb with rfl | hb
        · exact hxy
        · exact htrans x y b hxy (hy b hb)
      · exact List.Pairwise.cons hy ht

lemma sortByLE_pairwise {α : Type} {le : α → α → Bool}
    (htrans : ∀ a b c, le a b = true → le b c = true → le a c = true)
    (htot : ∀ a b, le a b = true ∨ le b a = true) :
    ∀ l : List α, (sortByLE le l).Pairwise (fun a b => le a b = true) := by
  intro l
  induction l with
  | nil => exact List.Pairwise.nil
  | cons x t ih => exact insertLE_pairwise htrans htot x ih

lemma sortByLE_of_pairwise {α : Type} {le : α → α → Bool} :
    ∀ {l : List α}, l.Pairwise (fun a b => le a b = true) → sortByLE le l = l := by
  intro l
  induction l with
  | nil => intro _; rfl
  | cons x t ih =>
    intro hp
    rw [List.pairwise_cons] at hp
    show insertLE le x (sortByLE le t) = x :: t
    rw [ih hp.2]
    cases t with
    | nil => rfl
    | cons y t2 =>
      have hxy : le x y = true := hp.1 y (List.mem_cons_self _ _)
      show (if (le y x && !le x y) = true then _ else _) = _
      rw [if_neg (by rw [hxy]; simp)]

/-- Two sorted lists over the same elements agree when addresses are
pairwise distinct. -/
lemma sorted_perm_eq_of_addr_ne :
    ∀ {l1 l2 : List Net}, l1.Perm l2 →
      l1.Pairwise (fun a b => netLE a b = true) →
      l2.Pairwise (fun a b => netLE a b = true) →
      l1.Pairwise (fun a b => a.addr ≠ b.addr) → l1 = l2 := by
  intro l1
  induction l1 with
  | nil =>
    intro l2 hperm _ _ _
    exact (hperm.symm.eq_nil).symm
  | cons a t1 ih =>
    intro l2 hperm hs1 hs2 hne
    cases l2 with
    | nil => cases hperm.eq_nil
    | cons b t2 =>
      have hab : a = b := by
        by_contra hne2
        have ha2 : a ∈ b :: t2 := hperm.mem_iff.mp (List.mem_cons_self _ _)
        have hb1 : b ∈ a :: t1 := hperm.symm.mem_iff.mp (List.mem_cons_self _ _)
        rw [List.mem_cons] at ha2 hb1
        rcases ha2 with rfl | ha2
        · exact hne2 rfl
        rcases hb1 with hb1 | hb1
        · exact hne2 hb1.symm
        have h1 : netLE a b = true := (List.pairwise_cons.mp hs1).1 b hb1
        have h2 : netLE b a = true := (List.pairwise_cons.mp hs2).1 a ha2
        have hada : a.addr = b.addr := by
          unfold netLE at h1 h2
          simp only [Bool.or_eq_true, Bool.and_eq_true, decide_eq_true_eq] at h1 h2
          omega
        exact (List.pairwise_cons.mp hne).1 b hb1 hada
      subst hab
      rw [ih hperm.cons_inv (List.pairwise_cons.mp hs1).2 (List.pairwise_cons.mp hs2).2
        (List.pairwise_cons.mp hne).2]

/-! ## Association-list facts for the merge dict -/

lemma alookup_eq_none {d : List (Net × Net)} {k : Net} :
    alookup d k = none ↔ k ∉ d.map Prod.fst := by
  induction d with
  | nil => simp [alookup]
  | cons kv t ih =>
    unfold alookup
    by_cases h : kv.1 = k
    · rw [if_pos h]
      simp [h.symm]
    · rw [if_neg h]
      rw [ih]
      simp only [List.map_cons, List.mem_cons]
      constructor
      · intro hk hc
        rcases hc with hc | hc
        · exact h hc.symm
        · exact hk hc
      · intro hk hc
        exact hk (Or.inr hc)

lemma alookup_mem {d : List (Net × Net)} {k vl : Net} (h : alookup d k = some vl) :
    (k, vl) ∈ d := by
  induction d with
  | nil => cases h
  | cons kv t ih =>
    unfold alookup at h
    by_cases hq : kv.1 = k
    · rw [if_pos hq] at h
      injection h with h
      rw [List.mem_cons]
      left
      rcases kv with ⟨k0, v0⟩
      simp only at hq h
      rw [hq, h]
    · rw [if_neg hq] at h
      exact List.mem_cons_of_mem _ (ih h)

lemma aerase_subset {k : Net} : ∀ {d : List (Net × Net)}, ∀ kv ∈ aerase d k, kv ∈ d := by
  intro d
  induction d with
  | nil => intro kv h; cases h
  | cons kv0 t ih =>
    intro kv h
    unfold aerase at h
    by_cases hq : kv0.1 = k
    · rw [if_pos hq] at h
      exact List.mem_cons_of_mem _ h
    · rw [if_neg hq] at h
      rw [List.mem_cons] at h
      rcases h with rfl | h
      · exact List.mem_cons_self _ _
      · exact List.mem_cons_of_mem _ (ih kv h)

lemma aerase_keys_sublist (k : Net) :
    ∀ d : List (Net × Net), ((aerase d k).map Prod.fst).Sublist (d.map Prod.fst) := by
  intro d
  induction d with
  | nil => exact List.Sublist.refl _
  | cons kv t ih =>
    unfold aerase
    by_cases hq : kv.1 = k
    · rw [if_pos hq]
      exact (List.Sublist.refl _).cons _
    · rw [if_neg hq]
      simp only [List.map_cons]
      exact ih.cons₂ _

lemma dictW_cons (kv : Net × Net) (d : List (Net × Net)) :
    dictW (kv :: d) = netW kv.2 + dictW d := by
  unfold dictW
  simp

lemma dictW_append (d e : List (Net × Net)) : dictW (d ++ e) = dictW d + dictW e := by
  unfold dictW
  simp

lemma stackW_cons (n : Net) (l : List Net) : stackW (n :: l) = netW n + stackW l := by
  unfold stackW
  simp

lemma dictW_aerase {k vl : Net} :
    ∀ {d : List (Net × Net)}, alookup d k = some vl →
      dictW (aerase d k) + netW vl = dictW d := by
  intro d
  induction d with
  | nil => intro h; cases h
  | cons kv t ih =>
    intro h
    unfold alookup at h
    unfold aerase
    by_cases hq : kv.1 = k
    · rw [if_pos hq] at h
      rw [if_pos hq]
      injection h with h
      rw [dictW_cons, h]
      omega
    · rw [if_neg hq] at h
      rw [if_neg hq, dictW_cons, dictW_cons]
      have := ih h
      omega

lemma aerase_length {k vl : Net} :
    ∀ {d : List (Net × Net)}, alookup d k = some vl →
      (aerase d k).length + 1 = d.length := by
  intro d
  induction d with
  | nil => intro h; cases h
  | cons kv t ih =>
    intro h
    unfold alookup at h
    unfold aerase
    by_cases hq : kv.1 = k
    · rw [if_pos hq] at h
      rw [if_pos hq]
      rfl
    · rw [if_neg hq] at h
      rw [if_neg hq]
      simp only [List.length_cons]
      rw [← ih h]

lemma aerase_values_union {k vl : Net} :
    ∀ {d : List (Net × Net)}, alookup d k = some vl →
      listSet ((aerase d k).map Prod.snd) ∪ vl.toSet = listSet (d.map Prod.snd) := by
  intro d
  induction d with
  | nil => intro h; cases h
  | cons kv t ih =>
    intro h
    unfold alookup at h
    unfold aerase
    by_cases hq : kv.1 = k
    · rw [if_pos hq] at h
      rw [if_pos hq]
      injection h with h
      simp only [List.map_cons, listSet_cons]
      rw [h, Set.union_comm]
    · rw [if_neg hq] at h
      rw [if_neg hq]
      simp only [List.map_cons, listSet_cons]
      rw [Set.union_assoc, ih h]

lemma alookup_append_none {k k0 : Net} {v0 : Net} (hne : k0 ≠ k) :
    ∀ {d : List (Net × Net)}, alookup d k = none → alookup (d ++ [(k0, v0)]) k = none := by
  intro d
  induction d with
  | nil =>
    intro _
    show (if k0 = k then some v0 else alookup [] k) = none
    rw [if_neg hne]
    rfl
  | cons kv t ih =>
    intro h
    have h2 : (if kv.1 = k then some kv.2 else alookup t k) = none := h
    show (if kv.1 = k then some kv.2 else alookup (t ++ [(k0, v0)]) k) = none
    by_cases hq : kv.1 = k
    · rw [if_pos hq] at h2
      cases h2
    · rw [if_neg hq] at h2 ⊢
      exact ih h2

/-! ## Supernet facts -/

lemma netSupernet_version (n : Net) : (netSupernet n).version = n.version := by
  unfold netSupernet
  by_cases h : n.prefixlen = 0 <;> simp [h]

lemma netSupernet_prefixlen_le (n : Net) : (netSupernet n).prefixlen ≤ n.prefixlen := by
  unfold netSupernet
  by_cases h : n.prefixlen = 0 <;> simp [h]

lemma netW_supernet_le (n : Net) : netW (netSupernet n) ≤ netW n :=
  Nat.pow_le_pow_right (by norm_num) (netSupernet_prefixlen_le n)

lemma netSupernet_zero {n : Net} (h : n.prefixlen = 0) : netSupernet n = n := by
  unfold netSupernet
  rw [if_pos h]

lemma netSupernet_pos {n : Net} (h : n.prefixlen ≠ 0) :
    netSupernet n = ⟨n.version, n.addr / (2 * n.size) * (2 * n.size), n.prefixlen - 1⟩ := by
  unfold netSupernet
  rw [if_neg h]

lemma two_mul_size {n : Net} (hn : n.WF) (h : n.prefixlen ≠ 0) :
    2 * n.size = 2 ^ (widthOf n.version - (n.prefixlen - 1)) := by
  have hple : n.prefixlen ≤ widthOf n.version := hn.2.1
  unfold Net.size
  have hexp : widthOf n.version - (n.prefixlen - 1) = n.hostBits + 1 := by
    unfold Net.hostBits Net.width
    omega
  rw [hexp, pow_succ]
  ring

lemma netSupernet_spec {n : Net} (hn : n.WF) :
    (netSupernet n).WF ∧ n.toSet ⊆ (netSupernet n).toSet := by
  by_cases h0 : n.prefixlen = 0
  · rw [netSupernet_zero h0]
    exact ⟨hn, subset_refl _⟩
  · rw [netSupernet_pos h0]
    have hD := two_mul_size hn h0
    have hsp := size_pos n
    have hDpos : 0 < 2 * n.size := by omega
    have hple : n.prefixlen ≤ widthOf n.version := hn.2.1
    have hbound : n.addr + n.size ≤ 2 ^ widthOf n.version := hn.2.2.2
    have hdivle : n.addr / (2 * n.size) * (2 * n.size) ≤ n.addr :=
      Nat.div_mul_le_self _ _
    have hdivlt : n.addr < n.addr / (2 * n.size) * (2 * n.size) + 2 * n.size := by
      have hmod := Nat.div_add_mod' n.addr (2 * n.size)
      have := Nat.mod_lt n.addr hDpos
      omega
    have hdvdA : 2 * n.size ∣ n.addr / (2 * n.size) * (2 * n.size) :=
      Dvd.intro_left _ rfl
    have hdvdW : 2 * n.size ∣ 2 ^ widthOf n.version := by
      rw [hD]
      exact Nat.pow_dvd_pow 2 (by omega)
    have hWF : (⟨n.version, n.addr / (2 * n.size) * (2 * n.size), n.prefixlen - 1⟩ : Net).WF := by
      apply mk_WF hn.1 (by omega)
      · rw [← hD]
        exact hdvdA
      · rw [← hD]
        apply mult_le_of_lt_add hDpos (Dvd.dvd.add hdvdA dvd_rfl) hdvdW
        omega
    refine ⟨hWF, ?_⟩
    have hsize2 : (⟨n.version, n.addr / (2 * n.size) * (2 * n.size),
        n.prefixlen - 1⟩ : Net).size = 2 * n.size := by
      show 2 ^ (widthOf n.version - (n.prefixlen - 1)) = 2 * n.size
      rw [hD]
    apply toSet_subset_of_bounds
    · rfl
    · exact hdivle
    · rw [hsize2]
      have hs_dvd : n.size ∣ 2 * n.size := ⟨2, by ring⟩
      apply mult_le_of_lt_add hsp (Dvd.dvd.add hn.2.2.1 dvd_rfl)
        (Dvd.dvd.add (dvd_trans hs_dvd hdvdA) hs_dvd)
      omega

/-- Two distinct blocks with the same supernet are exactly the two halves
of that supernet (or one is the supernet at prefix 0): their union is the
supernet's set. -/
lemma sibling_union {x y : Net} (hx : x.WF) (hy : y.WF) (hne : x ≠ y)
    (hsup : netSupernet x = netSupernet y) :
    x.toSet ∪ y.toSet = (netSupernet x).toSet := by
  by_cases hx0 : x.prefixlen = 0
  · rw [netSupernet_zero hx0]
    rw [netSupernet_zero hx0] at hsup
    by_cases hy0 : y.prefixlen = 0
    · exfalso
      rw [netSupernet_zero hy0] at hsup
      exact hne (hsup ▸ rfl)
    · have hspec := (netSupernet_spec hy).2
      rw [← hsup] at hspec
      rw [Set.union_eq_self_of_subset_right hspec]
  · by_cases hy0 : y.prefixlen = 0
    · rw [hsup, netSupernet_zero hy0]
      have hspec := (netSupernet_spec hx).2
      rw [hsup, netSupernet_zero hy0] at hspec
      rw [Set.union_eq_self_of_subset_left hspec]
    · -- both proper: x and y are the two halves of the common parent
      rw [netSupernet_pos hx0] at hsup ⊢
      rw [netSupernet_pos hy0] at hsup
      injection hsup with hvxy hAeq hpm
      have hpxy : x.prefixlen = y.prefixlen := by omega
      have hszxy : x.size = y.size := by
        unfold Net.size Net.hostBits Net.width
        rw [hvxy, hpxy]
      rw [← hszxy] at hAeq
      have hsp := size_pos x
      have hD := two_mul_size hx hx0
      have hDpos : 0 < 2 * x.size := by omega
      -- each address is its parent base or the parent base plus one size
      have hcases : ∀ z : Net, z.WF → z.size = x.size →
          z.addr = z.addr / (2 * x.size) * (2 * x.size) ∨
          z.addr = z.addr / (2 * x.size) * (2 * x.size) + x.size := by
        intro z hz hsz
        have hdivle : z.addr / (2 * x.size) * (2 * x.size) ≤ z.addr :=
          Nat.div_mul_le_self _ _
        have hmod := Nat.div_add_mod' z.addr (2 * x.size)
        have hmlt : z.addr % (2 * x.size) < 2 * x.size := Nat.mod_lt _ hDpos
        have hdvz : x.size ∣ z.addr := by rw [← hsz]; exact hz.2.2.1
        have hdvA : x.size ∣ z.addr / (2 * x.size) * (2 * x.size) :=
          ⟨z.addr / (2 * x.size) * 2, by ring⟩
        have hdvr : x.size ∣ z.addr - z.addr / (2 * x.size) * (2 * x.size) :=
          Nat.dvd_sub' hdvz hdvA
        obtain ⟨c, hc⟩ := hdvr
        have hclt : c < 2 := by
          by_contra hcge
          push_neg at hcge
          have : 2 * x.size ≤ x.size * c := by
            calc 2 * x.size = x.size * 2 := by ring
              _ ≤ x.size * c := Nat.mul_le_mul_left _ hcge
          omega
        interval_cases c
        · left; omega
        · right; omega
      have hxc := hcases x hx rfl
      have hyc := hcases y hy hszxy.symm
      rw [← hAeq] at hyc
      have hne_addr : x.addr ≠ y.addr := by
        intro heq
        apply hne
        cases x
        cases y
        simp only at hvxy hpxy heq
        simp [hvxy, hpxy, heq]
      -- the union is the full parent interval
      have hsupsize : (⟨x.version, x.addr / (2 * x.size) * (2 * x.size),
          x.prefixlen - 1⟩ : Net).size = 2 * x.size := by
        rw [mk_size, ← hD]
      ext p
      simp only [Set.mem_union, Net.mem_toSet, hsupsize]
      rcases hxc with hxa | hxa <;> rcases hyc with hya | hya <;> omega

/-! ## The merge loop -/

lemma netW_pos (n : Net) : 0 < netW n := Nat.pos_pow_of_pos _ (by norm_num)

lemma dictW_nil : dictW [] = 0 := rfl

lemma collapseLoopGo_step (f : Nat) (net : Net) (rest : List Net) (d : List (Net × Net)) :
    collapseLoopGo (f + 1) (net :: rest) d =
      match alookup d (netSupernet net) with
      | none => collapseLoopGo f rest (d ++ [(netSupernet net, net)])
      | some existing =>
        if existing = net then collapseLoopGo f rest d
        else collapseLoopGo f (netSupernet net :: rest) (aerase d (netSupernet net)) := rfl

lemma collapseLoopGo_nil (f : Nat) (d : List (Net × Net)) :
    collapseLoopGo f [] d = d := by
  cases f <;> rfl

/-- Invariant of the `while to_merge:` loop: with enough fuel, the dict
keeps one entry per supernet, its values stay well-formed blocks of the
common family, their union is preserved, and no entries are invented. -/
lemma collapseLoopGo_spec {v : Nat} :
    ∀ (fuel : Nat) (stack : List Net) (d : List (Net × Net)),
      clMeasure stack d ≤ fuel →
      (∀ n ∈ stack, n.WF ∧ n.version = v) →
      (∀ kv ∈ d, kv.1 = netSupernet kv.2 ∧ kv.2.WF ∧ kv.2.version = v) →
      (d.map Prod.fst).Nodup →
      (∀ kv ∈ collapseLoopGo fuel stack d,
          kv.1 = netSupernet kv.2 ∧ kv.2.WF ∧ kv.2.version = v) ∧
        ((collapseLoopGo fuel stack d).map Prod.fst).Nodup ∧
        listSet ((collapseLoopGo fuel stack d).map Prod.snd) =
          listSet stack ∪ listSet (d.map Prod.snd) ∧
        (collapseLoopGo fuel stack d).length ≤ stack.length + d.length := by
  intro fuel
  induction fuel with
  | zero =>
    intro stack d hfuel hstack hd hkeys
    cases stack with
    | nil =>
      rw [collapseLoopGo_nil]
      exact ⟨hd, hkeys, by rw [listSet_nil, Set.empty_union], by omega⟩
    | cons n rest =>
      exfalso
      unfold clMeasure at hfuel
      simp only [List.length_cons] at hfuel
      omega
  | succ f ih =>
    intro stack d hfuel hstack hd hkeys
    cases stack with
    | nil =>
      rw [collapseLoopGo_nil]
      exact ⟨hd, hkeys, by rw [listSet_nil, Set.empty_union], by omega⟩
    | cons net rest =>
      have hnet := hstack net (List.mem_cons_self _ _)
      have hrest : ∀ n ∈ rest, n.WF ∧ n.version = v := fun n hn =>
        hstack n (List.mem_cons_of_mem _ hn)
      have hsupWF := (netSupernet_spec hnet.1).1
      have hsupv : (netSupernet net).version = v := by
        rw [netSupernet_version]; exact hnet.2
      have hms : clMeasure (net :: rest) d =
          2 * (netW net + (stackW rest + dictW d)) + (rest.length + 1) := by
        unfold clMeasure
        rw [stackW_cons, List.length_cons]
        ring
      cases halo : alookup d (netSupernet net) with
      | none =>
        have hstep2 : collapseLoopGo (f + 1) (net :: rest) d =
            collapseLoopGo f rest (d ++ [(netSupernet net, net)]) := by
          rw [collapseLoopGo_step, halo]
        rw [hstep2]
        have hm2 : clMeasure rest (d ++ [(netSupernet net, net)]) =
            2 * (stackW rest + (dictW d + netW net)) + rest.length := by
          unfold clMeasure
          rw [dictW_append, dictW_cons, dictW_nil]
          simp
        have hkeyout : netSupernet net ∉ d.map Prod.fst := alookup_eq_none.mp halo
        obtain ⟨P1, P2, P3, P4⟩ := ih rest (d ++ [(netSupernet net, net)])
          (by rw [hm2]; rw [hms] at hfuel; omega) hrest
          (by
            intro kv hkv
            rw [List.mem_append, List.mem_singleton] at hkv
            rcases hkv with hkv | rfl
            · exact hd kv hkv
            · exact ⟨rfl, hnet.1, hnet.2⟩)
          (by
            rw [List.map_append]
            apply List.Nodup.append hkeys (List.nodup_singleton _)
            intro a ha hb
            rw [List.mem_singleton] at hb
            subst hb
            exact hkeyout ha)
        refine ⟨P1, P2, ?_, ?_⟩
        · rw [P3, List.map_append, listSet_append, listSet_cons]
          rw [List.map_singleton, listSet_cons, listSet_nil]
          ext p
          simp only [Set.mem_union, Set.mem_empty_iff_false, or_false]
          tauto
        · simp only [List.length_cons, List.length_append, List.length_nil] at P4 ⊢
          omega
      | some existing =>
        have hmem := alookup_mem halo
        obtain ⟨hkey, hexWF, hexv⟩ := hd _ hmem
        simp only at hkey hexWF hexv
        by_cases heq : existing = net
        · have hstep2 : collapseLoopGo (f + 1) (net :: rest) d =
              collapseLoopGo f rest d := by
            rw [collapseLoopGo_step, halo]
            show (if existing = net then collapseLoopGo f rest d
              else collapseLoopGo f (netSupernet net :: rest) (aerase d (netSupernet net))) =
              collapseLoopGo f rest d
            rw [if_pos heq]
          rw [hstep2]
          obtain ⟨P1, P2, P3, P4⟩ := ih rest d
            (by unfold clMeasure at hfuel ⊢; rw [stackW_cons] at hfuel; simp only
              [List.length_cons] at hfuel; have := netW_pos net; omega)
            hrest hd hkeys
          refine ⟨P1, P2, ?_, ?_⟩
          · rw [P3, listSet_cons]
            have hnetmem : net ∈ d.map Prod.snd := by
              subst heq
              exact List.mem_map_of_mem Prod.snd hmem
            have hsubs : net.toSet ⊆ listSet (d.map Prod.snd) := fun p hp =>
              mem_listSet_of_mem hnetmem hp
            ext p
            simp only [Set.mem_union]
            constructor
            · intro h
              tauto
            · intro h
              rcases h with h | h
              · rcases h with h | h
                · exact Or.inr (hsubs h)
                · exact Or.inl h
              · exact Or.inr h
          · simp only [List.length_cons]
            omega
        · have hstep2 : collapseLoopGo (f + 1) (net :: rest) d =
              collapseLoopGo f (netSupernet net :: rest) (aerase d (netSupernet net)) := by
            rw [collapseLoopGo_step, halo]
            show (if existing = net then collapseLoopGo f rest d
              else collapseLoopGo f (netSupernet net :: rest) (aerase d (netSupernet net))) =
              collapseLoopGo f (netSupernet net :: rest) (aerase d (netSupernet net))
            rw [if_neg heq]
          rw [hstep2]
          have hW := dictW_aerase halo
          have hLen := aerase_length halo
          have hsupW : netW (netSupernet net) ≤ netW net := netW_supernet_le net
          have hexpos := netW_pos existing
          obtain ⟨P1, P2, P3, P4⟩ := ih (netSupernet net :: rest) (aerase d (netSupernet net))
            (by
              have hm3 : clMeasure (netSupernet net :: rest) (aerase d (netSupernet net)) =
                  2 * (netW (netSupernet net) +
                    (stackW rest + dictW (aerase d (netSupernet net)))) + (rest.length + 1) := by
                unfold clMeasure
                rw [stackW_cons, List.length_cons]
                ring
              rw [hm3]
              rw [hms] at hfuel
              omega)
            (by
              intro n hn
              rw [List.mem_cons] at hn
              rcases hn with rfl | hn
              · exact ⟨hsupWF, hsupv⟩
              · exact hrest n hn)
            (fun kv hkv => hd kv (aerase_subset kv hkv))
            (hkeys.sublist (aerase_keys_sublist _ _))
          refine ⟨P1, P2, ?_, ?_⟩
          · rw [P3, listSet_cons, listSet_cons]
            have hne : net ≠ existing := fun h => heq h.symm
            have hsib : net.toSet ∪ existing.toSet = (netSupernet net).toSet :=
              sibling_union hnet.1 hexWF hne hkey
            rw [← aerase_values_union halo, ← hsib]
            ext p
            simp only [Set.mem_union]
            tauto
          · simp only [List.length_cons] at P4 ⊢
            omega

/-! ## The final sort-and-skip pass -/

lemma netLE_trans : ∀ a b c : Net, netLE a b = true → netLE b c = true → netLE a c = true := by
  intro a b c
  unfold netLE
  simp only [Bool.or_eq_true, Bool.and_eq_true, decide_eq_true_eq]
  omega

lemma netLE_total : ∀ a b : Net, netLE a b = true ∨ netLE b a = true := by
  intro a b
  unfold netLE
  simp only [Bool.or_eq_true, Bool.and_eq_true, decide_eq_true_eq]
  omega

lemma netLE_cases {a b : Net} (h : netLE a b = true) :
    a.addr < b.addr ∨ (a.addr = b.addr ∧ a.prefixlen ≤ b.prefixlen) := by
  unfold netLE at h
  simp only [Bool.or_eq_true, Bool.and_eq_true, decide_eq_true_eq] at h
  exact h

lemma bcast_succ (n : Net) : n.bcast + 1 = n.addr + n.size := by
  unfold Net.bcast
  have := size_pos n
  omega

lemma bcast_le_of_eq_addr {a b : Net} (hv : a.version = b.version) (ha : a.addr = b.addr)
    (hp : a.prefixlen ≤ b.prefixlen) : b.bcast ≤ a.bcast := by
  have hsz : b.size ≤ a.size := by
    unfold Net.size Net.hostBits Net.width
    rw [hv]
    exact Nat.pow_le_pow_right (by norm_num) (by omega)
  unfold Net.bcast
  have := size_pos a
  have := size_pos b
  omega

lemma toSet_subset_of_bcast {a b : Net} (hv : a.version = b.version)
    (h1 : b.addr ≤ a.addr) (h2 : a.bcast ≤ b.bcast) : a.toSet ⊆ b.toSet := by
  apply toSet_subset_of_bounds hv h1
  have ha := bcast_succ a
  have hb := bcast_succ b
  omega

lemma listSet_perm {l1 l2 : List Net} (h : l1.Perm l2) : listSet l1 = listSet l2 := by
  ext p
  show (∃ n ∈ l1, p ∈ n.toSet) ↔ ∃ n ∈ l2, p ∈ n.toSet
  constructor
  · rintro ⟨n, hn, hp⟩
    exact ⟨n, h.mem_iff.mp hn, hp⟩
  · rintro ⟨n, hn, hp⟩
    exact ⟨n, h.mem_iff.mpr hn, hp⟩

lemma allSameVersionB_of {v : Nat} {l : List Net} (h : ∀ n ∈ l, n.version = v) :
    allSameVersionB l = true := by
  cases l with
  | nil => rfl
  | cons n t =>
    show t.all (fun m => m.version == n.version) = true
    rw [List.all_eq_true]
    intro m hm
    have h1 := h m (List.mem_cons_of_mem _ hm)
    have h2 := h n (List.mem_cons_self _ _)
    simp [h1, h2]

/-- The shape of anything `collapse` can emit: same-family well-formed
blocks, strictly ascending in both endpoints, no two sharing a supernet. -/
def Canonical (v : Nat) (l : List Net) : Prop :=
  (∀ n ∈ l, n.WF ∧ n.version = v) ∧
    l.Pairwise (fun a b => a.addr < b.addr ∧ a.bcast < b.bcast) ∧
    (l.map netSupernet).Nodup

lemma skipSubsumed_spec {v : Nat} :
    ∀ (l : List Net) (lastN : Net), lastN.version = v →
      (∀ m ∈ l, m.WF ∧ m.version = v) →
      l.Pairwise (fun a b => netLE a b = true) →
      (∀ m ∈ l, netLE lastN m = true) →
      (skipSubsumed lastN l).Sublist l ∧
        (∀ m ∈ skipSubsumed lastN l, lastN.bcast < m.bcast ∧ lastN.addr < m.addr) ∧
        listSet (skipSubsumed lastN l) ∪ lastN.toSet = listSet l ∪ lastN.toSet ∧
        (skipSubsumed lastN l).Pairwise (fun a b => a.addr < b.addr ∧ a.bcast < b.bcast) := by
  intro l
  induction l with
  | nil =>
    intro lastN _ _ _ _
    refine ⟨List.Sublist.refl _, ?_, rfl, List.Pairwise.nil⟩
    intro m hm
    cases hm
  | cons n rest ih =>
    intro lastN hlv hmem hsorted hge
    have hn := hmem n (List.mem_cons_self _ _)
    have hrest : ∀ m ∈ rest, m.WF ∧ m.version = v := fun m hm =>
      hmem m (List.mem_cons_of_mem _ hm)
    have hln := hge n (List.mem_cons_self _ _)
    rw [List.pairwise_cons] at hsorted
    have hstep : skipSubsumed lastN (n :: rest) =
        if n.bcast ≤ lastN.bcast then skipSubsumed lastN rest
        else n :: skipSubsumed n rest := rfl
    rw [hstep]
    by_cases hskip : n.bcast ≤ lastN.bcast
    · rw [if_pos hskip]
      obtain ⟨S1, S2, S3, S4⟩ := ih lastN hlv hrest hsorted.2
        (fun m hm => hge m (List.mem_cons_of_mem _ hm))
      have hsub : n.toSet ⊆ lastN.toSet := by
        apply toSet_subset_of_bcast (by rw [hn.2, hlv]) ?_ hskip
        rcases netLE_cases hln with h | h
        · omega
        · omega
      refine ⟨S1.cons _, S2, ?_, S4⟩
      rw [S3, listSet_cons]
      ext p
      simp only [Set.mem_union]
      constructor
      · intro h
        tauto
      · intro h
        rcases h with (h | h) | h
        · exact Or.inr (hsub h)
        · exact Or.inl h
        · exact Or.inr h
    · rw [if_neg hskip]
      obtain ⟨S1, S2, S3, S4⟩ := ih n hn.2 hrest hsorted.2 hsorted.1
      have hstrict : lastN.bcast < n.bcast ∧ lastN.addr < n.addr := by
        constructor
        · omega
        · rcases netLE_cases hln with h | h
          · exact h
          · exfalso
            have := bcast_le_of_eq_addr (by rw [hlv, hn.2]) h.1 h.2
            omega
      refine ⟨S1.cons₂ _, ?_, ?_, ?_⟩
      · intro m hm
        rw [List.mem_cons] at hm
        rcases hm with rfl | hm
        · exact hstrict
        · have := S2 m hm
          omega
      · rw [listSet_cons, listSet_cons]
        have hpt := Set.ext_iff.mp S3
        ext p
        have := hpt p
        simp only [Set.mem_union] at this ⊢
        tauto
      · rw [List.pairwise_cons]
        exact ⟨fun m hm => by have := S2 m hm; omega, S4⟩

lemma collapseFinish_spec {v : Nat} (values : List Net)
    (hv : ∀ n ∈ values, n.WF ∧ n.version = v)
    (hnd : (values.map netSupernet).Nodup) :
    Canonical v (collapseFinish values) ∧
      listSet (collapseFinish values) = listSet values ∧
      (collapseFinish values).length ≤ values.length := by
  have hperm : (sortNets values).Perm values := sortByLE_perm netLE values
  have hsorted : (sortNets values).Pairwise (fun a b => netLE a b = true) :=
    sortByLE_pairwise netLE_trans netLE_total values
  have hmem : ∀ n ∈ sortNets values, n.WF ∧ n.version = v := fun n hn =>
    hv n (hperm.mem_iff.mp hn)
  have hndS : ((sortNets values).map netSupernet).Nodup :=
    ((hperm.map netSupernet).nodup_iff).mpr hnd
  unfold collapseFinish
  cases hS : sortNets values with
  | nil =>
    have hvals : values = [] := by
      have h2 := hperm
      rw [hS] at h2
      exact h2.symm.eq_nil
    subst hvals
    show Canonical v [] ∧ listSet [] = listSet [] ∧
      ([] : List Net).length ≤ ([] : List Net).length
    refine ⟨⟨?_, List.Pairwise.nil, List.Pairwise.nil⟩, rfl, le_refl _⟩
    intro n hn
    cases hn
  | cons n rest =>
    rw [hS] at hperm hsorted hmem hndS
    rw [List.pairwise_cons] at hsorted
    have hn := hmem n (List.mem_cons_self _ _)
    obtain ⟨S1, S2, S3, S4⟩ := skipSubsumed_spec rest n hn.2
      (fun m hm => hmem m (List.mem_cons_of_mem _ hm)) hsorted.2 hsorted.1
    have hsubl : (n :: skipSubsumed n rest).Sublist (n :: rest) := S1.cons₂ _
    refine ⟨⟨?_, ?_, ?_⟩, ?_, ?_⟩
    · intro m hm
      exact hmem m (hsubl.mem hm)
    · rw [List.pairwise_cons]
      exact ⟨fun m hm => by have := S2 m hm; omega, S4⟩
    · exact hndS.sublist (hsubl.map netSupernet)
    · rw [← listSet_perm hperm, listSet_cons, listSet_cons]
      have hpt := Set.ext_iff.mp S3
      ext p
      have := hpt p
      simp only [Set.mem_union] at this ⊢
      tauto
    · have := S1.length_le
      have := hperm.length_eq
      simp only [List.length_cons] at *
      omega

/-- `_collapse_addresses_internal` on a same-family well-formed list:
succeeds, canonical output, union preserved, no more blocks than inputs. -/
lemma collapseInternal_spec {v : Nat} (X : List Net)
    (hX : ∀ n ∈ X, n.WF ∧ n.version = v) :
    ∃ O, collapseInternal X = some O ∧ Canonical v O ∧
      listSet O = listSet X ∧ O.length ≤ X.length := by
  have hrev : ∀ n ∈ X.reverse, n.WF ∧ n.version = v := fun n hn =>
    hX n (List.mem_reverse.mp hn)
  obtain ⟨P1, P2, P3, P4⟩ := collapseLoopGo_spec (v := v)
    (clMeasure X.reverse []) X.reverse [] (le_refl _) hrev
    (by intro kv hkv; cases hkv) List.Pairwise.nil
  set D := collapseLoopGo (clMeasure X.reverse []) X.reverse [] with hD
  have hvals : ∀ n ∈ D.map Prod.snd, n.WF ∧ n.version = v := by
    intro n hn
    rw [List.mem_map] at hn
    obtain ⟨kv, hkv, rfl⟩ := hn
    exact (P1 kv hkv).2
  have hkeys_eq : D.map Prod.fst = (D.map Prod.snd).map netSupernet := by
    rw [List.map_map]
    apply List.map_congr_left
    intro kv hkv
    exact (P1 kv hkv).1
  have hnd : ((D.map Prod.snd).map netSupernet).Nodup := by
    rw [← hkeys_eq]
    exact P2
  have hall : allSameVersionB (D.map Prod.snd) = true :=
    allSameVersionB_of (fun n hn => (hvals n hn).2)
  obtain ⟨C1, C2, C3⟩ := collapseFinish_spec (v := v) (D.map Prod.snd) hvals hnd
  refine ⟨collapseFinish (D.map Prod.snd), ?_, C1, ?_, ?_⟩
  · show (if allSameVersionB (D.map Prod.snd) = true then
        some (collapseFinish (D.map Prod.snd)) else none) =
      some (collapseFinish (D.map Prod.snd))
    rw [if_pos hall]
  · rw [C2, P3, listSet_reverse]
    show listSet X ∪ listSet [] = listSet X
    rw [listSet_nil, Set.union_empty]
  · have hlen : (D.map Prod.snd).length = D.length := List.length_map _ _
    have := X.length_reverse
    simp only [List.length_nil] at P4
    omega

/-! ## The address-bucketing phase of collapse_addresses -/

lemma fullwidth_size {n : Net} (h : n.prefixlen = n.width) : n.size = 1 := by
  unfold Net.size Net.hostBits
  rw [h, Nat.sub_self, pow_zero]

lemma fullwidth_toSet {n : Net} (h : n.prefixlen = n.width) :
    n.toSet = {(n.version, n.addr)} := by
  ext p
  rw [Net.mem_toSet, Set.mem_singleton_iff, Prod.ext_iff, fullwidth_size h]
  constructor
  · intro hh
    refine ⟨hh.1, ?_⟩
    show p.2 = n.addr
    omega
  · intro hh
    have h2 : p.2 = n.addr := hh.2
    exact ⟨hh.1, by omega, by omega⟩

/-- The bucketing loop never raises on a same-family list, splits it into
single addresses and proper networks, and preserves the address set. -/
lemma bucketizeGo_spec {v : Nat} :
    ∀ (l : List Net) (ips : List (Nat × Nat)) (nets : List Net),
      (∀ n ∈ l, n.WF ∧ n.version = v) →
      (∀ p ∈ ips, p.1 = v) →
      (∀ n ∈ nets, n.version = v) →
      ∃ ips2 nets2,
        bucketizeGo l ips nets = some (ips ++ ips2, nets ++ nets2) ∧
          (∀ p ∈ ips2, p.1 = v ∧ p.2 < 2 ^ widthOf v) ∧
          (∀ n ∈ nets2, n ∈ l) ∧
          listSet l = {q : Nat × Nat | q ∈ ips2} ∪ listSet nets2 ∧
          ips2.length + nets2.length = l.length := by
  intro l
  induction l with
  | nil =>
    intro ips nets _ _ _
    refine ⟨[], [], ?_, ?_, ?_, ?_, rfl⟩
    · show some (ips, nets) = some (ips ++ [], nets ++ [])
      rw [List.append_nil, List.append_nil]
    · intro p hp; cases hp
    · intro n hn; cases hn
    · rw [listSet_nil]
      ext q
      simp
  | cons n rest ih =>
    intro ips nets hl hips hnets
    have hn := hl n (List.mem_cons_self _ _)
    have hrest : ∀ m ∈ rest, m.WF ∧ m.version = v := fun m hm =>
      hl m (List.mem_cons_of_mem _ hm)
    have hstep : bucketizeGo (n :: rest) ips nets =
        if n.prefixlen = n.width then
          (match ips.getLast? with
           | some q => if q.1 ≠ n.version then none
              else bucketizeGo rest (ips ++ [(n.version, n.addr)]) nets
           | none => bucketizeGo rest (ips ++ [(n.version, n.addr)]) nets)
        else
          (match nets.getLast? with
           | some m => if m.version ≠ n.version then none
              else bucketizeGo rest ips (nets ++ [n])
           | none => bucketizeGo rest ips (nets ++ [n])) := rfl
    by_cases hfw : n.prefixlen = n.width
    · have hred : bucketizeGo (n :: rest) ips nets =
          bucketizeGo rest (ips ++ [(n.version, n.addr)]) nets := by
        rw [hstep, if_pos hfw]
        cases hL : ips.getLast? with
        | none => rfl
        | some q =>
          have hqv : q.1 = v := hips q (List.mem_of_mem_getLast? hL)
          show (if q.1 ≠ n.version then none
            else bucketizeGo rest (ips ++ [(n.version, n.addr)]) nets) =
            bucketizeGo rest (ips ++ [(n.version, n.addr)]) nets
          rw [if_neg (fun hc => hc (by rw [hqv, hn.2]))]
      have hips2 : ∀ p ∈ ips ++ [(n.version, n.addr)], p.1 = v := by
        intro p hp
        rw [List.mem_append, List.mem_singleton] at hp
        rcases hp with hp | rfl
        · exact hips p hp
        · exact hn.2
      obtain ⟨i2, n2, B1, B2, B3, B4, B5⟩ := ih (ips ++ [(n.version, n.addr)]) nets
        hrest hips2 hnets
      refine ⟨(n.version, n.addr) :: i2, n2, ?_, ?_, ?_, ?_, ?_⟩
      · rw [hred, B1, List.append_assoc, List.singleton_append]
      · intro p hp
        rw [List.mem_cons] at hp
        rcases hp with rfl | hp
        · refine ⟨hn.2, ?_⟩
          show n.addr < 2 ^ widthOf v
          have hb := hn.1.2.2.2
          have hs := size_pos n
          have hw : (2 : Nat) ^ n.width = 2 ^ widthOf v := by
            unfold Net.width
            rw [hn.2]
          rw [hw] at hb
          omega
        · exact B2 p hp
      · intro m hm
        exact List.mem_cons_of_mem _ (B3 m hm)
      · rw [listSet_cons, B4, fullwidth_toSet hfw]
        ext q
        simp only [Set.mem_union, Set.mem_singleton_iff, Set.mem_setOf_eq, List.mem_cons]
        tauto
      · simp only [List.length_cons] at *
        omega
    · have hred : bucketizeGo (n :: rest) ips nets =
          bucketizeGo rest ips (nets ++ [n]) := by
        rw [hstep, if_neg hfw]
        cases hL : nets.getLast? with
        | none => rfl
        | some m =>
          have hmv : m.version = v := hnets m (List.mem_of_mem_getLast? hL)
          show (if m.version ≠ n.version then none
            else bucketizeGo rest ips (nets ++ [n])) =
            bucketizeGo rest ips (nets ++ [n])
          rw [if_neg (fun hc => hc (by rw [hmv, hn.2]))]
      have hnets2 : ∀ m ∈ nets ++ [n], m.version = v := by
        intro m hm
        rw [List.mem_append, List.mem_singleton] at hm
        rcases hm with hm | rfl
        · exact hnets m hm
        · exact hn.2
      obtain ⟨i2, n2, B1, B2, B3, B4, B5⟩ := ih ips (nets ++ [n]) hrest hips hnets2
      refine ⟨i2, n :: n2, ?_, B2, ?_, ?_, ?_⟩
      · rw [hred, B1, List.append_assoc, List.singleton_append]
      · intro m hm
        rw [List.mem_cons] at hm
        rcases hm with rfl | hm
        · exact List.mem_cons_self _ _
        · exact List.mem_cons_of_mem _ (B3 m hm)
      · rw [listSet_cons, B4, listSet_cons]
        ext q
        simp only [Set.mem_union, Set.mem_setOf_eq]
        tauto
      · simp only [List.length_cons] at *
        omega

/-! ## sorted(set(ips)) and _find_address_range -/

lemma dedupSortAddrs_sorted (l : List Nat) : (dedupSortAddrs l).Pairwise (· < ·) := by
  have hsorted := @sortByLE_pairwise Nat (fun a b : Nat => decide (a ≤ b))
    (fun a b c h1 h2 =>
      decide_eq_true (Nat.le_trans (of_decide_eq_true h1) (of_decide_eq_true h2)))
    (fun a b => by
      rcases Nat.le_total a b with h | h
      · exact Or.inl (decide_eq_true h)
      · exact Or.inr (decide_eq_true h)) l.dedup
  have hperm := sortByLE_perm (fun a b : Nat => decide (a ≤ b)) l.dedup
  have hnd : (sortByLE (fun a b : Nat => decide (a ≤ b)) l.dedup).Nodup :=
    hperm.nodup_iff.mpr l.nodup_dedup
  show (sortByLE (fun a b : Nat => decide (a ≤ b)) l.dedup).Pairwise (· < ·)
  apply List.Pairwise.imp ?_ (hsorted.and hnd)
  intro a b h
  exact Nat.lt_of_le_of_ne (of_decide_eq_true h.1) h.2

lemma dedupSortAddrs_mem (l : List Nat) (a : Nat) : a ∈ dedupSortAddrs l ↔ a ∈ l := by
  unfold dedupSortAddrs
  rw [(sortByLE_perm _ _).mem_iff, List.mem_dedup]

lemma dedupSortAddrs_length (l : List Nat) : (dedupSortAddrs l).length ≤ l.length := by
  unfold dedupSortAddrs
  rw [(sortByLE_perm _ _).length_eq]
  exact l.dedup_sublist.length_le

lemma mem_pairs_iff {v : Nat} {l : List (Nat × Nat)} (h : ∀ p ∈ l, p.1 = v)
    (q : Nat × Nat) : q ∈ l ↔ q.1 = v ∧ q.2 ∈ l.map Prod.snd := by
  constructor
  · intro hq
    exact ⟨h q hq, List.mem_map_of_mem _ hq⟩
  · rintro ⟨hq1, hq2⟩
    rw [List.mem_map] at hq2
    obtain ⟨r, hr, hr2⟩ := hq2
    have : q = r := by
      rcases q with ⟨q1, q2⟩
      rcases r with ⟨r1, r2⟩
      simp only at hq1 hr2
      have hr1 : r1 = v := h (r1, r2) hr
      rw [hq1, ← hr2, hr1]
    rw [this]
    exact hr

/-- `_find_address_range` + `summarize_address_range` over a sorted
duplicate-free address list: blocks are well-formed, cover exactly those
addresses, and number at most the addresses. -/
lemma findRuns_summarize_spec {v : Nat} (hv : v = 4 ∨ v = 6) :
    ∀ (xs : List Nat) (first lastA : Nat),
      first ≤ lastA → lastA < 2 ^ widthOf v →
      (∀ x ∈ xs, lastA < x ∧ x < 2 ^ widthOf v) →
      xs.Pairwise (· < ·) →
      (∀ b ∈ (findRunsGo first lastA xs).flatMap
          (fun fl => summarizeGo v (fl.2 + 1 - fl.1) fl.1 fl.2), b.WF ∧ b.version = v) ∧
        listSet ((findRunsGo first lastA xs).flatMap
          (fun fl => summarizeGo v (fl.2 + 1 - fl.1) fl.1 fl.2)) =
          {p : Nat × Nat | p.1 = v ∧ (first ≤ p.2 ∧ p.2 ≤ lastA ∨ p.2 ∈ xs)} ∧
        ((findRunsGo first lastA xs).flatMap
          (fun fl => summarizeGo v (fl.2 + 1 - fl.1) fl.1 fl.2)).length ≤
          (lastA + 1 - first) + xs.length := by
  intro xs
  induction xs with
  | nil =>
    intro first lastA hfl hbound _ _
    have hcov := summarizeGo_covers v hv (lastA + 1 - first) first lastA hbound
      (le_refl _) (by omega)
    have hrun : findRunsGo first lastA [] = [(first, lastA)] := rfl
    rw [hrun]
    have hfm : (([(first, lastA)] : List (Nat × Nat)).flatMap
        fun fl => summarizeGo v (fl.2 + 1 - fl.1) fl.1 fl.2) =
        summarizeGo v (lastA + 1 - first) first lastA := by
      rw [List.flatMap_cons, List.flatMap_nil, List.append_nil]
    rw [hfm]
    refine ⟨?_, ?_, ?_⟩
    · intro b hb
      have := covers_blocks hcov b hb
      exact ⟨this.1, this.2.1⟩
    · rw [covers_listSet hcov]
      ext p
      simp only [Set.mem_setOf_eq]
      constructor
      · rintro ⟨h1, h2, h3⟩
        exact ⟨h1, Or.inl ⟨h2, by omega⟩⟩
      · rintro ⟨h1, h2⟩
        rcases h2 with h2 | h2
        · exact ⟨h1, h2.1, by omega⟩
        · cases h2
    · have := covers_length hcov
      simp only [List.length_nil]
      omega
  | cons x rest ih =>
    intro first lastA hfl hbound hmem hpw
    have hx := hmem x (List.mem_cons_self _ _)
    rw [List.pairwise_cons] at hpw
    have hstep : findRunsGo first lastA (x :: rest) =
        if x ≠ lastA + 1 then (first, lastA) :: findRunsGo x x rest
        else findRunsGo first x rest := rfl
    by_cases hcc : x ≠ lastA + 1
    · rw [hstep, if_pos hcc, List.flatMap_cons]
      have hcov := summarizeGo_covers v hv (lastA + 1 - first) first lastA hbound
        (le_refl _) (by omega)
      obtain ⟨I1, I2, I3⟩ := ih x x (le_refl _) hx.2
        (fun y hy => ⟨hpw.1 y hy, (hmem y (List.mem_cons_of_mem _ hy)).2⟩) hpw.2
      refine ⟨?_, ?_, ?_⟩
      · intro b hb
        rw [List.mem_append] at hb
        rcases hb with hb | hb
        · have := covers_blocks hcov b hb
          exact ⟨this.1, this.2.1⟩
        · exact I1 b hb
      · rw [listSet_append, covers_listSet hcov, I2]
        ext p
        simp only [Set.mem_union, Set.mem_setOf_eq, List.mem_cons]
        constructor
        · rintro (⟨h1, h2, h3⟩ | ⟨h1, h2⟩)
          · exact ⟨h1, Or.inl ⟨h2, by omega⟩⟩
          · rcases h2 with h2 | h2
            · exact ⟨h1, Or.inr (Or.inl (by omega))⟩
            · exact ⟨h1, Or.inr (Or.inr h2)⟩
        · rintro ⟨h1, h2⟩
          rcases h2 with h2 | h2 | h2
          · exact Or.inl ⟨h1, h2.1, by omega⟩
          · exact Or.inr ⟨h1, Or.inl (by omega)⟩
          · exact Or.inr ⟨h1, Or.inr h2⟩
      · rw [List.length_append]
        have := covers_length hcov
        simp only [List.length_cons] at *
        omega
    · push_neg at hcc
      rw [hstep, if_neg (by omega)]
      obtain ⟨I1, I2, I3⟩ := ih first x (by omega) hx.2
        (fun y hy => ⟨hpw.1 y hy, (hmem y (List.mem_cons_of_mem _ hy)).2⟩) hpw.2
      refine ⟨I1, ?_, ?_⟩
      · rw [I2]
        ext p
        simp only [Set.mem_setOf_eq, List.mem_cons]
        constructor
        · rintro ⟨h1, h2⟩
          refine ⟨h1, ?_⟩
          rcases h2 with h2 | h2
          · rcases le_or_lt p.2 lastA with hle | hgt
            · exact Or.inl ⟨h2.1, hle⟩
            · exact Or.inr (Or.inl (by omega))
          · exact Or.inr (Or.inr h2)
        · rintro ⟨h1, h2⟩
          refine ⟨h1, ?_⟩
          rcases h2 with h2 | h2 | h2
          · exact Or.inl ⟨h2.1, by omega⟩
          · exact Or.inl ⟨by omega, by omega⟩
          · exact Or.inr h2
      · simp only [List.length_cons] at *
        omega

/-! ## collapse_addresses assembled -/

lemma collapse_addresses_eq_nil {X : List Net} {nets : List Net}
    (h : bucketizeGo X [] [] = some ([], nets)) :
    collapse_addresses X = collapseInternal nets := by
  unfold collapse_addresses
  rw [h]
  show collapseInternal ([] ++ nets) = collapseInternal nets
  rw [List.nil_append]

lemma collapse_addresses_eq_cons {X : List Net} {p : Nat × Nat} {tl : List (Nat × Nat)}
    {nets : List Net} {a : Nat} {rest : List Nat}
    (h : bucketizeGo X [] [] = some (p :: tl, nets))
    (hded : dedupSortAddrs ((p :: tl).map Prod.snd) = a :: rest) :
    collapse_addresses X = collapseInternal
      (((findRunsGo a a rest).flatMap fun fl =>
          summarizeGo p.1 (fl.2 + 1 - fl.1) fl.1 fl.2) ++ nets) := by
  unfold collapse_addresses
  rw [h]
  show collapseInternal ((match dedupSortAddrs ((p :: tl).map Prod.snd) with
    | [] => []
    | a :: rest => (findRunsGo a a rest).flatMap fun fl =>
        summarizeGo p.1 (fl.2 + 1 - fl.1) fl.1 fl.2) ++ nets) = _
  rw [hded]

/-- `collapse_addresses` on a same-family well-formed list: succeeds with a
canonical output, preserving the union and never increasing the count. -/
lemma collapse_addresses_spec {v : Nat} (X : List Net)
    (hX : ∀ n ∈ X, n.WF ∧ n.version = v) :
    ∃ O, collapse_addresses X = some O ∧ Canonical v O ∧
      listSet O = listSet X ∧ O.length ≤ X.length := by
  obtain ⟨ips2, nets2, B1, B2, B3, B4, B5⟩ := bucketizeGo_spec X [] [] hX
    (by intro p hp; cases hp) (by intro n hn; cases hn)
  rw [List.nil_append, List.nil_append] at B1
  have hnets2 : ∀ n ∈ nets2, n.WF ∧ n.version = v := fun n hn => hX n (B3 n hn)
  cases hips2 : ips2 with
  | nil =>
    subst hips2
    obtain ⟨O, hO, hcan, hun, hlen⟩ := collapseInternal_spec nets2 hnets2
    refine ⟨O, ?_, hcan, ?_, ?_⟩
    · rw [collapse_addresses_eq_nil B1]
      exact hO
    · rw [hun, B4]
      have hempty : {q : Nat × Nat | q ∈ ([] : List (Nat × Nat))} = ∅ := by
        ext q
        simp
      rw [hempty, Set.empty_union]
    · simp only [List.length_nil] at B5
      omega
  | cons p tl =>
    subst hips2
    have hXne : X ≠ [] := by
      intro h
      subst h
      simp only [List.length_cons, List.length_nil] at B5
      omega
    obtain ⟨n0, hn0⟩ : ∃ n0, n0 ∈ X := by
      cases X with
      | nil => exact absurd rfl hXne
      | cons b t => exact ⟨b, List.mem_cons_self _ _⟩
    have hv46 : v = 4 ∨ v = 6 := by
      have hW := hX n0 hn0
      rcases hW.1.1 with h | h
      · left; rw [← hW.2]; exact h
      · right; rw [← hW.2]; exact h
    have hp1 : p.1 = v := (B2 p (List.mem_cons_self _ _)).1
    have hpmem : p.2 ∈ dedupSortAddrs ((p :: tl).map Prod.snd) := by
      rw [dedupSortAddrs_mem]
      exact List.mem_map_of_mem _ (List.mem_cons_self _ _)
    cases hded : dedupSortAddrs ((p :: tl).map Prod.snd) with
    | nil =>
      rw [hded] at hpmem
      cases hpmem
    | cons a rest =>
      have hsorted := dedupSortAddrs_sorted ((p :: tl).map Prod.snd)
      rw [hded, List.pairwise_cons] at hsorted
      have hmemi : ∀ y : Nat, y ∈ a :: rest ↔ y ∈ (p :: tl).map Prod.snd := by
        intro y
        rw [← hded, dedupSortAddrs_mem]
      have hboundall : ∀ y ∈ a :: rest, y < 2 ^ widthOf v := by
        intro y hy
        rw [hmemi] at hy
        rw [List.mem_map] at hy
        obtain ⟨q, hq, rfl⟩ := hy
        exact (B2 q hq).2
      obtain ⟨F1, F2, F3⟩ := findRuns_summarize_spec hv46 rest a a (le_refl _)
        (hboundall a (List.mem_cons_self _ _))
        (fun y hy => ⟨hsorted.1 y hy, hboundall y (List.mem_cons_of_mem _ hy)⟩)
        hsorted.2
      set A := (findRunsGo a a rest).flatMap
        (fun fl => summarizeGo v (fl.2 + 1 - fl.1) fl.1 fl.2) with hA
      have heqA : collapse_addresses X = collapseInternal (A ++ nets2) := by
        rw [collapse_addresses_eq_cons B1 hded, hp1, ← hA]
      have hAset : listSet A = {q : Nat × Nat | q ∈ p :: tl} := by
        rw [F2]
        ext q
        simp only [Set.mem_setOf_eq]
        rw [mem_pairs_iff (fun r hr => (B2 r hr).1) q]
        constructor
        · rintro ⟨h1, h2⟩
          refine ⟨h1, ?_⟩
          rw [← hmemi]
          rcases h2 with h2 | h2
          · have hqa : q.2 = a := by omega
            rw [hqa]
            exact List.mem_cons_self _ _
          · exact List.mem_cons_of_mem _ h2
        · rintro ⟨h1, h2⟩
          refine ⟨h1, ?_⟩
          rw [← hmemi, List.mem_cons] at h2
          rcases h2 with h2 | h2
          · left
            omega
          · right
            exact h2
      obtain ⟨O, hO, hcan, hun, hlen⟩ := collapseInternal_spec (A ++ nets2) (by
        intro n hn
        rw [List.mem_append] at hn
        rcases hn with hn | hn
        · exact F1 n hn
        · exact hnets2 n hn)
      refine ⟨O, by rw [heqA]; exact hO, hcan, ?_, ?_⟩
      · rw [hun, listSet_append, hAset, B4]
      · have hdlen : (a :: rest).length ≤ ((p :: tl).map Prod.snd).length := by
          rw [← hded]
          exact dedupSortAddrs_length _
        rw [List.length_map] at hdlen
        rw [List.length_append] at hlen
        simp only [List.length_cons] at *
        omega

/-! ## collapse of an already-canonical list is the identity -/

lemma summarizeGo_single (v f : Nat) : summarizeGo v 1 f f = [⟨v, f, widthOf v⟩] := by
  show (if f ≤ f then
      (⟨v, f, widthOf v - min (count_rhz f (widthOf v)) (log2F (f - f + 1))⟩ : Net) ::
        summarizeGo v 0 (f + 2 ^ min (count_rhz f (widthOf v)) (log2F (f - f + 1))) f
    else []) = _
  rw [if_pos (le_refl f)]
  have h1 : f - f + 1 = 1 := by omega
  rw [h1]
  have h2 : log2F 1 = 0 := rfl
  rw [h2, Nat.min_zero, Nat.sub_zero]
  rfl

lemma tz_odd {f : Nat} (h : f % 2 = 1) : tz f = 0 := by
  cases f with
  | zero => exact absurd h (by decide)
  | succ g =>
    show (if (g + 1) % 2 = 1 ∨ g + 1 = 0 then 0 else tzGo g ((g + 1) / 2) + 1) = 0
    rw [if_pos (Or.inl h)]

lemma count_rhz_odd {f : Nat} (h : f % 2 = 1) (w : Nat) : count_rhz f w = 0 := by
  unfold count_rhz
  rw [if_neg (by omega), tz_odd h, Nat.min_zero]

lemma summarizeGo_pair {v f : Nat} (h : f % 2 = 1) :
    summarizeGo v 2 f (f + 1) = [⟨v, f, widthOf v⟩, ⟨v, f + 1, widthOf v⟩] := by
  show (if f ≤ f + 1 then
      (⟨v, f, widthOf v - min (count_rhz f (widthOf v)) (log2F (f + 1 - f + 1))⟩ : Net) ::
        summarizeGo v 1 (f + 2 ^ min (count_rhz f (widthOf v)) (log2F (f + 1 - f + 1))) (f + 1)
    else []) = _
  rw [if_pos (by omega)]
  have h1 : f + 1 - f + 1 = 2 := by omega
  rw [h1, count_rhz_odd h, Nat.zero_min, Nat.sub_zero, pow_zero, summarizeGo_single]

lemma flatMapSumm_cons (v : Nat) (fl : Nat × Nat) (rs : List (Nat × Nat)) :
    ((fl :: rs).flatMap fun q => summarizeGo v (q.2 + 1 - q.1) q.1 q.2) =
      summarizeGo v (fl.2 + 1 - fl.1) fl.1 fl.2 ++
        (rs.flatMap fun q => summarizeGo v (q.2 + 1 - q.1) q.1 q.2) :=
  List.flatMap_cons fl rs _

lemma findRuns_reconstruct_nil (v f : Nat) :
    ((findRunsGo f f []).flatMap fun q => summarizeGo v (q.2 + 1 - q.1) q.1 q.2) =
      [(⟨v, f, widthOf v⟩ : Net)] := by
  show (([(f, f)] : List (Nat × Nat)).flatMap
      fun q => summarizeGo v (q.2 + 1 - q.1) q.1 q.2) = _
  rw [flatMapSumm_cons, List.flatMap_nil, List.append_nil]
  show summarizeGo v (f + 1 - f) f f = _
  rw [show f + 1 - f = 1 from by omega, summarizeGo_single]

/-- On a strictly ascending address list containing no aligned adjacent
pair, `_find_address_range` + `summarize` reproduces one full-width block
per address, in order. -/
lemma findRuns_reconstruct {v : Nat} :
    ∀ (N : Nat) (xs : List Nat) (f : Nat), xs.length ≤ N →
      xs.Pairwise (· < ·) → (∀ x ∈ xs, f < x) →
      (∀ y : Nat, y % 2 = 0 → y ∈ f :: xs → y + 1 ∈ f :: xs → False) →
      ((findRunsGo f f xs).flatMap fun q => summarizeGo v (q.2 + 1 - q.1) q.1 q.2) =
        (f :: xs).map fun x => (⟨v, x, widthOf v⟩ : Net) := by
  intro N
  induction N with
  | zero =>
    intro xs f hlen _ _ _
    have hx : xs = [] := List.eq_nil_of_length_eq_zero (by omega)
    subst hx
    rw [findRuns_reconstruct_nil]
    rfl
  | succ N ih =>
    intro xs f hlen hpw hgt hnos
    cases xs with
    | nil =>
      rw [findRuns_reconstruct_nil]
      rfl
    | cons x rest =>
      rw [List.pairwise_cons] at hpw
      by_cases hx : x = f + 1
      · subst hx
        have hstep : findRunsGo f f ((f + 1) :: rest) = findRunsGo f (f + 1) rest := by
          show (if f + 1 ≠ f + 1 then (f, f) :: findRunsGo (f + 1) (f + 1) rest
            else findRunsGo f (f + 1) rest) = _
          rw [if_neg (by omega)]
        rw [hstep]
        have hfodd : f % 2 = 1 := by
          rcases Nat.mod_two_eq_zero_or_one f with h0 | h1
          · exact (hnos f h0 (List.mem_cons_self _ _)
              (List.mem_cons_of_mem _ (List.mem_cons_self _ _))).elim
          · exact h1
        cases rest with
        | nil =>
          show (([(f, f + 1)] : List (Nat × Nat)).flatMap
              fun q => summarizeGo v (q.2 + 1 - q.1) q.1 q.2) = _
          rw [flatMapSumm_cons, List.flatMap_nil, List.append_nil]
          show summarizeGo v (f + 1 + 1 - f) f (f + 1) = _
          rw [show f + 1 + 1 - f = 2 from by omega, summarizeGo_pair hfodd]
          rfl
        | cons y rest2 =>
          have hylt := hpw.1 y (List.mem_cons_self _ _)
          have hyne : y ≠ f + 1 + 1 := by
            intro hc
            apply hnos (f + 1) (by omega)
            · exact List.mem_cons_of_mem _ (List.mem_cons_self _ _)
            · rw [← hc]
              exact List.mem_cons_of_mem _ (List.mem_cons_of_mem _ (List.mem_cons_self _ _))
          have hstep2 : findRunsGo f (f + 1) (y :: rest2) =
              (f, f + 1) :: findRunsGo y y rest2 := by
            show (if y ≠ f + 1 + 1 then (f, f + 1) :: findRunsGo y y rest2
              else findRunsGo f y rest2) = _
            rw [if_pos hyne]
          rw [hstep2, flatMapSumm_cons]
          show summarizeGo v (f + 1 + 1 - f) f (f + 1) ++
              ((findRunsGo y y rest2).flatMap fun q =>
                summarizeGo v (q.2 + 1 - q.1) q.1 q.2) = _
          rw [show f + 1 + 1 - f = 2 from by omega, summarizeGo_pair hfodd]
          rw [List.pairwise_cons] at hpw
          rw [ih rest2 y (by simp only [List.length_cons] at hlen; omega) hpw.2.2
            hpw.2.1 ?nos1]
          · rfl
          case nos1 =>
            intro z hz hz1 hz2
            apply hnos z hz
            · exact List.mem_cons_of_mem _ (List.mem_cons_of_mem _ hz1)
            · exact List.mem_cons_of_mem _ (List.mem_cons_of_mem _ hz2)
      · have hstep : findRunsGo f f (x :: rest) = (f, f) :: findRunsGo x x rest := by
          show (if x ≠ f + 1 then (f, f) :: findRunsGo x x rest
            else findRunsGo f x rest) = _
          rw [if_pos hx]
        rw [hstep, flatMapSumm_cons]
        show summarizeGo v (f + 1 - f) f f ++
            ((findRunsGo x x rest).flatMap fun q =>
              summarizeGo v (q.2 + 1 - q.1) q.1 q.2) = _
        rw [show f + 1 - f = 1 from by omega, summarizeGo_single]
        rw [ih rest x (by simp only [List.length_cons] at hlen; omega) hpw.2
          hpw.1 ?nos2]
        · rfl
        case nos2 =>
          intro z hz hz1 hz2
          apply hnos z hz
          · exact List.mem_cons_of_mem _ hz1
          · exact List.mem_cons_of_mem _ hz2

lemma fullwidth_supernet_eq {x y : Net} (hx : x.prefixlen = x.width)
    (hy : y.prefixlen = y.width) (hv : x.version = y.version) (hwpos : 0 < x.width)
    (heven : x.addr % 2 = 0) (hadj : y.addr = x.addr + 1) :
    netSupernet x = netSupernet y := by
  have hwxy : x.width = y.width := by
    unfold Net.width
    rw [hv]
  rw [netSupernet_pos (by omega), netSupernet_pos (by omega)]
  rw [fullwidth_size hx, fullwidth_size hy]
  simp only [Net.mk.injEq]
  refine ⟨hv, ?_, ?_⟩
  · rw [hadj]
    omega
  · rw [hx, hy, hwxy]

lemma dedupSortAddrs_of_sorted {l : List Nat} (h : l.Pairwise (· < ·)) :
    dedupSortAddrs l = l := by
  unfold dedupSortAddrs
  have hnd : l.Nodup := by
    apply List.Pairwise.imp ?_ h
    intro a b hab
    omega
  rw [List.dedup_eq_self.mpr hnd]
  apply sortByLE_of_pairwise
  apply List.Pairwise.imp ?_ h
  intro a b hab
  exact decide_eq_true (Nat.le_of_lt hab)

lemma skipSubsumed_of_strict :
    ∀ (l : List Net) (lastN : Net), (∀ m ∈ l, lastN.bcast < m.bcast) →
      l.Pairwise (fun a b => a.bcast < b.bcast) → skipSubsumed lastN l = l := by
  intro l
  induction l with
  | nil => intro lastN _ _; rfl
  | cons n rest ih =>
    intro lastN hmem hpw
    rw [List.pairwise_cons] at hpw
    show (if n.bcast ≤ lastN.bcast then skipSubsumed lastN rest
      else n :: skipSubsumed n rest) = _
    rw [if_neg (by have := hmem n (List.mem_cons_self _ _); omega)]
    rw [ih n hpw.1 hpw.2]

/-- When every pending supernet is fresh, the merge loop only inserts:
the dict comes back as the stack, keyed by supernets, in order. -/
lemma collapseLoopGo_inserts :
    ∀ (fuel : Nat) (stack : List Net) (d : List (Net × Net)),
      clMeasure stack d ≤ fuel →
      (stack.map netSupernet ++ d.map Prod.fst).Nodup →
      collapseLoopGo fuel stack d = d ++ stack.map fun n => (netSupernet n, n) := by
  intro fuel
  induction fuel with
  | zero =>
    intro stack d hfuel hnd
    cases stack with
    | nil =>
      rw [collapseLoopGo_nil, List.map_nil, List.append_nil]
    | cons n rest =>
      exfalso
      unfold clMeasure at hfuel
      simp only [List.length_cons] at hfuel
      omega
  | succ f ih =>
    intro stack d hfuel hnd
    cases stack with
    | nil =>
      rw [collapseLoopGo_nil, List.map_nil, List.append_nil]
    | cons net rest =>
      have hkey : netSupernet net ∉ d.map Prod.fst := by
        rw [List.map_cons, List.cons_append, List.nodup_cons] at hnd
        intro hc
        exact hnd.1 (List.mem_append_right _ hc)
      have halo : alookup d (netSupernet net) = none := alookup_eq_none.mpr hkey
      have hstep2 : collapseLoopGo (f + 1) (net :: rest) d =
          collapseLoopGo f rest (d ++ [(netSupernet net, net)]) := by
        rw [collapseLoopGo_step, halo]
      rw [hstep2]
      have hms : clMeasure (net :: rest) d =
          2 * (netW net + (stackW rest + dictW d)) + (rest.length + 1) := by
        unfold clMeasure
        rw [stackW_cons, List.length_cons]
        ring
      have hm2 : clMeasure rest (d ++ [(netSupernet net, net)]) =
          2 * (stackW rest + (dictW d + netW net)) + rest.length := by
        unfold clMeasure
        rw [dictW_append, dictW_cons, dictW_nil]
        simp
      have hndr : (rest.map netSupernet ++
          (d ++ [(netSupernet net, net)]).map Prod.fst).Nodup := by
        have h1 : (d ++ [(netSupernet net, net)]).map Prod.fst =
            d.map Prod.fst ++ [netSupernet net] := by
          rw [List.map_append]
          rfl
        rw [h1, ← List.append_assoc]
        have h2 : ((rest.map netSupernet ++ d.map Prod.fst) ++ [netSupernet net]).Perm
            (netSupernet net :: (rest.map netSupernet ++ d.map Prod.fst)) :=
          List.perm_append_singleton _ _
        apply h2.nodup_iff.mpr
        rw [List.map_cons, List.cons_append] at hnd
        exact hnd
      rw [ih rest (d ++ [(netSupernet net, net)]) (by rw [hm2]; rw [hms] at hfuel; omega) hndr]
      rw [List.append_assoc, List.singleton_append, List.map_cons]

/-- `_collapse_addresses_internal` leaves any canonical list unchanged,
whatever order it is handed in. -/
lemma collapseInternal_canonical {v : Nat} {O : List Net} (hO : Canonical v O) :
    ∀ X : List Net, X.Perm O → collapseInternal X = some O := by
  obtain ⟨hWF, hstrict, hnds⟩ := hO
  intro X hXO
  have hrevperm : X.reverse.Perm O := X.reverse_perm.trans hXO
  have hnd2 : (X.reverse.map netSupernet ++
      ([] : List (Net × Net)).map Prod.fst).Nodup := by
    rw [List.map_nil, List.append_nil]
    exact ((hrevperm.map netSupernet).nodup_iff).mpr hnds
  have hloop := collapseLoopGo_inserts (clMeasure X.reverse []) X.reverse []
    (le_refl _) hnd2
  have hvals : (collapseLoopGo (clMeasure X.reverse []) X.reverse []).map Prod.snd =
      X.reverse := by
    rw [hloop, List.nil_append, List.map_map]
    exact List.map_id _
  have hvperm : ((collapseLoopGo (clMeasure X.reverse []) X.reverse []).map
      Prod.snd).Perm O := by
    rw [hvals]
    exact hrevperm
  have hOsorted : O.Pairwise (fun a b => netLE a b = true) := by
    apply List.Pairwise.imp ?_ hstrict
    intro a b hab
    unfold netLE
    rw [decide_eq_true hab.1, Bool.true_or]
  have hOne : O.Pairwise (fun a b => a.addr ≠ b.addr) := by
    apply List.Pairwise.imp ?_ hstrict
    intro a b hab
    omega
  have hsort : sortNets ((collapseLoopGo (clMeasure X.reverse []) X.reverse []).map
      Prod.snd) = O := by
    apply Eq.symm
    apply sorted_perm_eq_of_addr_ne ((sortByLE_perm netLE _).trans hvperm).symm hOsorted
      (sortByLE_pairwise netLE_trans netLE_total _) hOne
  have hall : allSameVersionB ((collapseLoopGo (clMeasure X.reverse []) X.reverse []).map
      Prod.snd) = true := by
    apply allSameVersionB_of (v := v)
    intro n hn
    rw [hvals] at hn
    exact (hWF n (hrevperm.mem_iff.mp hn)).2
  have hfin : collapseFinish ((collapseLoopGo (clMeasure X.reverse []) X.reverse []).map
      Prod.snd) = O := by
    unfold collapseFinish
    rw [hsort]
    cases hOc : O with
    | nil => rfl
    | cons n rest =>
      rw [hOc] at hstrict
      rw [List.pairwise_cons] at hstrict
      show n :: skipSubsumed n rest = n :: rest
      rw [skipSubsumed_of_strict rest n (fun m hm => (hstrict.1 m hm).2)
        (by apply List.Pairwise.imp ?_ hstrict.2; intro a b hab; exact hab.2)]
  show (if allSameVersionB ((collapseLoopGo (clMeasure X.reverse []) X.reverse []).map
      Prod.snd) = true then
    some (collapseFinish ((collapseLoopGo (clMeasure X.reverse []) X.reverse []).map
      Prod.snd)) else none) = some O
  rw [if_pos hall, hfin]

/-- The bucketing loop, identified: it splits the list by the full-width
test, preserving order. -/
lemma bucketizeGo_filter {v : Nat} :
    ∀ (l : List Net) (ips : List (Nat × Nat)) (nets : List Net),
      (∀ n ∈ l, n.version = v) →
      (∀ p ∈ ips, p.1 = v) →
      (∀ n ∈ nets, n.version = v) →
      bucketizeGo l ips nets = some
        (ips ++ (l.filter fun n => decide (n.prefixlen = n.width)).map
            (fun n => (n.version, n.addr)),
         nets ++ l.filter fun n => !decide (n.prefixlen = n.width)) := by
  intro l
  induction l with
  | nil =>
    intro ips nets _ _ _
    show some (ips, nets) = _
    rw [List.filter_nil, List.filter_nil, List.map_nil, List.append_nil, List.append_nil]
  | cons n rest ih =>
    intro ips nets hl hips hnets
    have hnv : n.version = v := hl n (List.mem_cons_self _ _)
    have hrest : ∀ m ∈ rest, m.version = v := fun m hm => hl m (List.mem_cons_of_mem _ hm)
    have hstep : bucketizeGo (n :: rest) ips nets =
        if n.prefixlen = n.width then
          (match ips.getLast? with
           | some q => if q.1 ≠ n.version then none
              else bucketizeGo rest (ips ++ [(n.version, n.addr)]) nets
           | none => bucketizeGo rest (ips ++ [(n.version, n.addr)]) nets)
        else
          (match nets.getLast? with
           | some m => if m.version ≠ n.version then none
              else bucketizeGo rest ips (nets ++ [n])
           | none => bucketizeGo rest ips (nets ++ [n])) := rfl
    by_cases hfw : n.prefixlen = n.width
    · have hred : bucketizeGo (n :: rest) ips nets =
          bucketizeGo rest (ips ++ [(n.version, n.addr)]) nets := by
        rw [hstep, if_pos hfw]
        cases hL : ips.getLast? with
        | none => rfl
        | some q =>
          have hqv : q.1 = v := hips q (List.mem_of_mem_getLast? hL)
          show (if q.1 ≠ n.version then none
            else bucketizeGo rest (ips ++ [(n.version, n.addr)]) nets) = _
          rw [if_neg (fun hc => hc (by rw [hqv, hnv]))]
      have hips2 : ∀ p ∈ ips ++ [(n.version, n.addr)], p.1 = v := by
        intro p hp
        rw [List.mem_append, List.mem_singleton] at hp
        rcases hp with hp | rfl
        · exact hips p hp
        · exact hnv
      have hP : (n :: rest).filter (fun m => decide (m.prefixlen = m.width)) =
          n :: rest.filter (fun m => decide (m.prefixlen = m.width)) := by
        rw [List.filter_cons, if_pos (decide_eq_true hfw)]
      have hP2 : (n :: rest).filter (fun m => !decide (m.prefixlen = m.width)) =
          rest.filter (fun m => !decide (m.prefixlen = m.width)) := by
        rw [List.filter_cons, if_neg (by simp [hfw])]
      rw [hred, ih (ips ++ [(n.version, n.addr)]) nets hrest hips2 hnets,
        hP, hP2, List.map_cons, List.append_assoc, List.singleton_append]
    · have hred : bucketizeGo (n :: rest) ips nets =
          bucketizeGo rest ips (nets ++ [n]) := by
        rw [hstep, if_neg hfw]
        cases hL : nets.getLast? with
        | none => rfl
        | some m =>
          have hmv : m.version = v := hnets m (List.mem_of_mem_getLast? hL)
          show (if m.version ≠ n.version then none
            else bucketizeGo rest ips (nets ++ [n])) = _
          rw [if_neg (fun hc => hc (by rw [hmv, hnv]))]
      have hnets2 : ∀ m ∈ nets ++ [n], m.version = v := by
        intro m hm
        rw [List.mem_append, List.mem_singleton] at hm
        rcases hm with hm | rfl
        · exact hnets m hm
        · exact hnv
      have hP : (n :: rest).filter (fun m => decide (m.prefixlen = m.width)) =
          rest.filter (fun m => decide (m.prefixlen = m.width)) := by
        rw [List.filter_cons, if_neg (by simp [hfw])]
      have hP2 : (n :: rest).filter (fun m => !decide (m.prefixlen = m.width)) =
          n :: rest.filter (fun m => !decide (m.prefixlen = m.width)) := by
        rw [List.filter_cons, if_pos (by simp [hfw])]
      rw [hred, ih ips (nets ++ [n]) hrest hips hnets2,
        hP, hP2, List.append_assoc, List.singleton_append]

/-- `collapse_addresses` is the identity on canonical lists. -/
lemma collapse_addresses_canonical {v : Nat} {O : List Net} (hO : Canonical v O) :
    collapse_addresses O = some O := by
  obtain ⟨hWF, hstrict, hnds⟩ := hO
  have hver : ∀ n ∈ O, n.version = v := fun n hn => (hWF n hn).2
  have hB := bucketizeGo_filter O [] [] hver (by intro p hp; cases hp)
    (by intro n hn; cases hn)
  rw [List.nil_append, List.nil_append] at hB
  cases hfwsc : O.filter (fun n => decide (n.prefixlen = n.width)) with
  | nil =>
    rw [hfwsc] at hB
    have hothO : O.filter (fun n => !decide (n.prefixlen = n.width)) = O := by
      apply List.filter_eq_self.mpr
      intro a ha
      have hnot : ¬ decide (a.prefixlen = a.width) = true :=
        List.filter_eq_nil_iff.mp hfwsc a ha
      cases hq : decide (a.prefixlen = a.width) with
      | false => rfl
      | true => exact absurd hq hnot
    have heq : collapse_addresses O =
        collapseInternal (O.filter fun n => !decide (n.prefixlen = n.width)) := by
      apply collapse_addresses_eq_nil
      rw [hB, List.map_nil]
    rw [heq, hothO]
    exact collapseInternal_canonical ⟨hWF, hstrict, hnds⟩ O (List.Perm.refl O)
  | cons w fwt =>
    rw [hfwsc] at hB
    have hfwsub : (w :: fwt).Sublist O := by
      rw [← hfwsc]
      exact List.filter_sublist O
    have hfwstrict : (w :: fwt).Pairwise (fun a b => a.addr < b.addr ∧ a.bcast < b.bcast) :=
      hstrict.sublist hfwsub
    have haddrsorted : ((w :: fwt).map Net.addr).Pairwise (· < ·) := by
      rw [List.pairwise_map]
      apply List.Pairwise.imp ?_ hfwstrict
      intro a b hab
      exact hab.1
    have hfull : ∀ n ∈ w :: fwt, n.prefixlen = n.width := by
      intro n hn
      rw [← hfwsc] at hn
      exact of_decide_eq_true (List.mem_filter.mp hn).2
    have hfwWF : ∀ n ∈ w :: fwt, n.WF ∧ n.version = v := fun n hn => hWF n (hfwsub.mem hn)
    rw [List.map_cons] at hB
    have hsnd : (((w.version, w.addr) :: fwt.map fun n =>
        (n.version, n.addr)).map Prod.snd) = w.addr :: fwt.map Net.addr := by
      rw [List.map_cons, List.map_map]
      rfl
    have hded : dedupSortAddrs (((w.version, w.addr) :: fwt.map fun n =>
        (n.version, n.addr)).map Prod.snd) = w.addr :: fwt.map Net.addr := by
      rw [hsnd]
      have h1 := dedupSortAddrs_of_sorted haddrsorted
      rw [List.map_cons] at h1
      exact h1
    have heq := collapse_addresses_eq_cons hB hded
    have hpw : (fwt.map Net.addr).Pairwise (· < ·) := by
      have h1 := haddrsorted
      rw [List.map_cons, List.pairwise_cons] at h1
      exact h1.2
    have hgt : ∀ x ∈ fwt.map Net.addr, w.addr < x := by
      have h1 := haddrsorted
      rw [List.map_cons, List.pairwise_cons] at h1
      exact h1.1
    have hnos : ∀ y : Nat, y % 2 = 0 → y ∈ w.addr :: fwt.map Net.addr →
        y + 1 ∈ w.addr :: fwt.map Net.addr → False := by
      intro y hy h1 h2
      have hlist : w.addr :: fwt.map Net.addr = (w :: fwt).map Net.addr := by
        rw [List.map_cons]
      rw [hlist, List.mem_map] at h1 h2
      obtain ⟨x1, hx1, hx1a⟩ := h1
      obtain ⟨x2, hx2, hx2a⟩ := h2
      have hne : x1 ≠ x2 := by
        intro hc
        rw [hc, hx2a] at hx1a
        omega
      have hwpos : 0 < x1.width := by
        have hWFn := (hfwWF x1 hx1).1
        unfold Net.width
        rcases hWFn.1 with h | h <;> rw [h] <;> decide
      have hsupeq : netSupernet x1 = netSupernet x2 := by
        apply fullwidth_supernet_eq (hfull x1 hx1) (hfull x2 hx2) ?_ hwpos ?_ ?_
        · rw [(hfwWF x1 hx1).2, (hfwWF x2 hx2).2]
        · rw [hx1a]
          exact hy
        · rw [hx2a, hx1a]
      exact hne (List.inj_on_of_nodup_map hnds (hfwsub.mem hx1)
        (hfwsub.mem hx2) hsupeq)
    have hrec := findRuns_reconstruct (v := v) (fwt.map Net.addr).length
      (fwt.map Net.addr) w.addr (le_refl _) hpw hgt hnos
    have hblocks : ((w.addr :: fwt.map Net.addr).map fun x =>
        (⟨v, x, widthOf v⟩ : Net)) = w :: fwt := by
      have h0 : w.addr :: fwt.map Net.addr = (w :: fwt).map Net.addr := by
        rw [List.map_cons]
      rw [h0, List.map_map]
      have hptw : ∀ a ∈ w :: fwt,
          ((fun x => (⟨v, x, widthOf v⟩ : Net)) ∘ Net.addr) a = id a := by
        intro a ha
        have hav : a.version = v := (hfwWF a ha).2
        have hap : a.prefixlen = a.width := hfull a ha
        show (⟨v, a.addr, widthOf v⟩ : Net) = a
        rcases a with ⟨av, aa, ap⟩
        have hav2 : av = v := hav
        subst hav2
        have hap2 : ap = widthOf av := hap
        rw [Net.mk.injEq]
        exact ⟨rfl, rfl, hap2.symm⟩
      rw [List.map_congr_left hptw, List.map_id]
    have hwv : (w.version, w.addr).1 = v := (hfwWF w (List.mem_cons_self _ _)).2
    rw [hwv, hrec, hblocks] at heq
    rw [heq]
    apply collapseInternal_canonical ⟨hWF, hstrict, hnds⟩
    rw [← hfwsc]
    exact List.filter_append_perm _ O

/-! ## The network form: shape of ip_interface(...).network -/

lemma prefixFromPrefixString_le {w : Nat} {l : List Char} {p : Nat}
    (h : prefixFromPrefixString w l = some p) : p ≤ w := by
  unfold prefixFromPrefixString at h
  simp only [] at h
  split at h
  · cases h
  · split at h
    · cases h
    · injection h with h
      omega

lemma prefixFromIpInt_le {w ipInt p : Nat} (h : prefixFromIpInt w ipInt = some p) :
    p ≤ w := by
  unfold prefixFromIpInt at h
  simp only [] at h
  split at h
  · injection h with h
    omega
  · cases h

lemma prefixFromIpString_le {w : Nat} {parse : List Char → Option Nat} {l : List Char}
    {p : Nat} (h : prefixFromIpString w parse l = some p) : p ≤ w := by
  unfold prefixFromIpString at h
  split at h
  · cases h
  · split at h
    · injection h with h
      subst h
      exact prefixFromIpInt_le (by assumption)
    · exact prefixFromIpInt_le h

lemma makeNetmask_le {w : Nat} {parse : List Char → Option Nat} {l : List Char}
    {p : Nat} (h : makeNetmask w parse l = some p) : p ≤ w := by
  unfold makeNetmask at h
  split at h
  · injection h with h
    subst h
    exact prefixFromPrefixString_le (by assumption)
  · exact prefixFromIpString_le h

/-- Whatever `IPv4Interface(s).network` returns is a 32-bit block with the
host bits of its address zeroed. -/
lemma ipv4InterfaceNet_shape {l : List Char} {n : Net}
    (h : ipv4InterfaceNet l = Except.ok n) :
    n.version = 4 ∧ n.prefixlen ≤ 32 ∧ 2 ^ (32 - n.prefixlen) ∣ n.addr := by
  unfold ipv4InterfaceNet at h
  simp only [] at h
  split at h
  · cases h
  · split at h
    · cases h
    · split at h
      · cases h
      · rename_i p heq
        injection h with h
        subst h
        refine ⟨rfl, ?_, ?_⟩
        · show p ≤ 32
          split at heq
          · split at heq
            · injection heq with heq
              subst heq
              exact makeNetmask_le (by assumption)
            · cases heq
          · injection heq with heq
            omega
        · exact Dvd.intro_left _ rfl

/-- Likewise for `IPv6Interface(s).network` at width 128. -/
lemma ipv6InterfaceNet_shape {l : List Char} {n : Net}
    (h : ipv6InterfaceNet l = Except.ok n) :
    n.version = 6 ∧ n.prefixlen ≤ 128 ∧ 2 ^ (128 - n.prefixlen) ∣ n.addr := by
  unfold ipv6InterfaceNet at h
  simp only [] at h
  split at h
  · cases h
  · split at h
    · cases h
    · split at h
      · cases h
      · rename_i p heq
        injection h with h
        subst h
        refine ⟨rfl, ?_, ?_⟩
        · show p ≤ 128
          split at heq
          · split at heq
            · injection heq with heq
              subst heq
              exact prefixFromPrefixString_le (by assumption)
            · cases heq
          · injection heq with heq
            omega
        · exact Dvd.intro_left _ rfl

/-- `ip_interface(s).network` always yields an aligned block of its
family's width. -/
lemma ip_interfaceNet_shape {l : List Char} {n : Net}
    (h : ip_interfaceNet l = Except.ok n) :
    n.prefixlen ≤ n.width ∧ 2 ^ (n.width - n.prefixlen) ∣ n.addr := by
  unfold ip_interfaceNet at h
  split at h
  · rename_i m heq
    injection h with h
    subst h
    obtain ⟨h4, hp, hd⟩ := ipv4InterfaceNet_shape heq
    have hw : m.width = 32 := by
      unfold Net.width widthOf
      rw [h4]
      rfl
    rw [hw]
    exact ⟨hp, hd⟩
  · split at h
    · rename_i m heq
      injection h with h
      subst h
      obtain ⟨h6, hp, hd⟩ := ipv6InterfaceNet_shape heq
      have hw : m.width = 128 := by
        unfold Net.width widthOf
        rw [h6]
        rfl
      rw [hw]
      exact ⟨hp, hd⟩
    · cases h

/-! ## The claims -/

/-- C1: for same-family well-formed add and sub sets whose add blocks are
pairwise disjoint, the exclusion pipeline of `main` succeeds, its result's
address union is union(add) minus union(sub), and the result is pairwise
disjoint.  (The claim's unrestricted quantification fails: see the
counterexample with a duplicated add block.) -/
theorem C1_exclusion_pipeline (v : Nat) (add sub : List Net)
    (hadd : ∀ a ∈ add, a.WF ∧ a.version = v) (hsub : ∀ s ∈ sub, s.WF ∧ s.version = v)
    (hdisj : add.Pairwise NetDisjoint) :
    ∃ res, mainResult add sub = some res ∧
      listSet res = listSet add \ listSet sub ∧ res.Pairwise NetDisjoint := by
  obtain ⟨res, h1, h2, _, h4⟩ := mainResult_spec add sub hadd hsub
  exact ⟨res, h1, h2, h4 hdisj⟩

/-- C1 witness: exclusion of 10.1.0.0/16 from {10.0.0.0/8}. -/
theorem C1_exclusion_pipeline_witness :
    ∃ res, mainResult [⟨4, 167772160, 8⟩] [⟨4, 167837696, 16⟩] = some res ∧
      listSet res = listSet [⟨4, 167772160, 8⟩] \ listSet [⟨4, 167837696, 16⟩] ∧
      res.Pairwise NetDisjoint :=
  C1_exclusion_pipeline 4 _ _ (by decide) (by decide) (List.pairwise_singleton _ _)

/-- C1 counterexample: with an empty sub set and the add block 10.0.0.0/8
listed twice, the pipeline returns both copies, and two copies of one block
are not disjoint — the claimed pairwise disjointness fails without further
hypotheses. -/
theorem C1_duplicate_add_not_disjoint :
    mainResult [⟨4, 167772160, 8⟩, ⟨4, 167772160, 8⟩] [] =
      some [⟨4, 167772160, 8⟩, ⟨4, 167772160, 8⟩] ∧
    ¬ NetDisjoint ⟨4, 167772160, 8⟩ ⟨4, 167772160, 8⟩ := by
  constructor
  · decide
  · intro hdis
    have hm : ((4 : Nat), (167772160 : Nat)) ∈ (⟨4, 167772160, 8⟩ : Net).toSet := by
      rw [Net.mem_toSet]
      refine ⟨rfl, le_refl _, ?_⟩
      show (167772160 : Nat) < 167772160 + 2 ^ (32 - 8)
      decide
    have h2 : ((4 : Nat), (167772160 : Nat)) ∈ (∅ : Set (Nat × Nat)) := by
      rw [← hdis]
      exact ⟨hm, hm⟩
    exact absurd h2 (Set.not_mem_empty _)

/-- C2: `ip_network_exclude` on two same-family well-formed blocks returns
the empty list when the block is contained in the removed block, the block
unchanged when they are disjoint, and otherwise a pairwise-disjoint cover
of the difference; scenario 4 (10.0.0.0/8 minus 10.1.0.0/16 is the eight
complementary siblings) and scenario 5 (a block minus itself is empty)
hold concretely. -/
theorem C2_exclude_one_cases (n e : Net) (hn : n.WF) (he : e.WF)
    (hv : n.version = e.version) :
    (n.toSet ⊆ e.toSet → ip_network_exclude n e = some []) ∧
    (n.toSet ∩ e.toSet = ∅ → ip_network_exclude n e = some [n]) ∧
    (∃ l, ip_network_exclude n e = some l ∧ listSet l = n.toSet \ e.toSet ∧
      l.Pairwise NetDisjoint) ∧
    ip_network_exclude ⟨4, 167772160, 8⟩ ⟨4, 167837696, 16⟩ =
      some [⟨4, 176160768, 9⟩, ⟨4, 171966464, 10⟩, ⟨4, 169869312, 11⟩,
        ⟨4, 168820736, 12⟩, ⟨4, 168296448, 13⟩, ⟨4, 168034304, 14⟩,
        ⟨4, 167903232, 15⟩, ⟨4, 167772160, 16⟩] ∧
    ip_network_exclude ⟨4, 3232235520, 16⟩ ⟨4, 3232235520, 16⟩ = some [] := by
  refine ⟨?_, ?_, ?_, by decide, by decide⟩
  · intro hsub
    unfold ip_network_exclude
    rw [if_neg (not_not_intro hv), if_pos ((subnetOfB_iff hn he hv).mpr hsub)]
  · intro hdis
    unfold ip_network_exclude
    have hnsub : ¬ subnetOfB n e = true := by
      intro hc
      have hsub := (subnetOfB_iff hn he hv).mp hc
      have hm := hsub (Net.base_mem_toSet n)
      have h2 : (n.version, n.addr) ∈ (∅ : Set (Nat × Nat)) := by
        rw [← hdis]
        exact ⟨Net.base_mem_toSet n, hm⟩
      exact absurd h2 (Set.not_mem_empty _)
    have hov : overlapsB n e = false := (not_overlapsB_iff hn he).mpr hdis
    rw [if_neg (not_not_intro hv), if_neg hnsub, hov, if_neg Bool.false_ne_true]
  · obtain ⟨l, h1, h2, h3, _⟩ := ip_network_exclude_spec hn he hv
    exact ⟨l, h1, h2, h3⟩

/-- C2 witness: the three cases and both scenarios at 10.0.0.0/8 and
10.1.0.0/16. -/
theorem C2_exclude_one_cases_witness :
    ((⟨4, 167772160, 8⟩ : Net).toSet ⊆ (⟨4, 167837696, 16⟩ : Net).toSet →
      ip_network_exclude ⟨4, 167772160, 8⟩ ⟨4, 167837696, 16⟩ = some []) ∧
    ((⟨4, 167772160, 8⟩ : Net).toSet ∩ (⟨4, 167837696, 16⟩ : Net).toSet = ∅ →
      ip_network_exclude ⟨4, 167772160, 8⟩ ⟨4, 167837696, 16⟩ =
        some [⟨4, 167772160, 8⟩]) ∧
    (∃ l, ip_network_exclude ⟨4, 167772160, 8⟩ ⟨4, 167837696, 16⟩ = some l ∧
      listSet l = (⟨4, 167772160, 8⟩ : Net).toSet \ (⟨4, 167837696, 16⟩ : Net).toSet ∧
      l.Pairwise NetDisjoint) ∧
    ip_network_exclude ⟨4, 167772160, 8⟩ ⟨4, 167837696, 16⟩ =
      some [⟨4, 176160768, 9⟩, ⟨4, 171966464, 10⟩, ⟨4, 169869312, 11⟩,
        ⟨4, 168820736, 12⟩, ⟨4, 168296448, 13⟩, ⟨4, 168034304, 14⟩,
        ⟨4, 167903232, 15⟩, ⟨4, 167772160, 16⟩] ∧
    ip_network_exclude ⟨4, 3232235520, 16⟩ ⟨4, 3232235520, 16⟩ = some [] :=
  C2_exclude_one_cases ⟨4, 167772160, 8⟩ ⟨4, 167837696, 16⟩ (by decide) (by decide) rfl

/-- C3: for any in-range pair first ≤ last of family v, the range
decomposition used by `get_from_ip_range` succeeds, covers exactly the
interval, is pairwise disjoint and never leaves two adjacent same-size
sibling blocks unmerged; scenario 1 parses to [192.168.1.0/24].  (The
claim's "every address pair" fails for compressed IPv6 text: see the
counterexample.) -/
theorem C3_range_decomposition (v first lastA : Nat) (hv : v = 4 ∨ v = 6)
    (h1 : first ≤ lastA) (h2 : lastA < 2 ^ widthOf v) :
    (∃ l, summarize_address_range (v, first) (v, lastA) = Except.ok l ∧
      listSet l = {p : Nat × Nat | p.1 = v ∧ first ≤ p.2 ∧ p.2 ≤ lastA} ∧
      l.Pairwise NetDisjoint ∧ l.Chain' NotSibs) ∧
    get_from_string "192.168.1.0-192.168.1.255" = Except.ok [⟨4, 3232235776, 24⟩] := by
  refine ⟨?_, by decide⟩
  have hcov := summarizeGo_covers v hv (lastA + 1 - first) first lastA h2
    (le_refl _) (by omega)
  refine ⟨summarizeGo v (lastA + 1 - first) first lastA, ?_, ?_, covers_pairwise hcov,
    summarizeGo_maximal v (lastA + 1 - first) first lastA h2 (le_refl _)⟩
  · unfold summarize_address_range
    rw [if_neg (not_not_intro rfl), if_neg (by show ¬ lastA < first; omega)]
  · rw [covers_listSet hcov]
    ext p
    simp only [Set.mem_setOf_eq]
    constructor
    · rintro ⟨a, b, c⟩
      exact ⟨a, b, by omega⟩
    · rintro ⟨a, b, c⟩
      exact ⟨a, b, by omega⟩

/-- C3 witness: the range 192.168.1.0 .. 192.168.1.255 in family 4. -/
theorem C3_range_decomposition_witness :
    (∃ l, summarize_address_range (4, 3232235776) (4, 3232236031) = Except.ok l ∧
      listSet l = {p : Nat × Nat | p.1 = 4 ∧ 3232235776 ≤ p.2 ∧ p.2 ≤ 3232236031} ∧
      l.Pairwise NetDisjoint ∧ l.Chain' NotSibs) ∧
    get_from_string "192.168.1.0-192.168.1.255" = Except.ok [⟨4, 3232235776, 24⟩] :=
  C3_range_decomposition 4 3232235776 3232236031 (Or.inl rfl) (by decide) (by decide)

/-- C3 counterexample: ::1 and ::2 are valid same-family addresses
(`ip_address` parses them), yet the range grammar does not match the
compressed form, so "::1-::2" contributes zero blocks instead of the
decomposition of [::1, ::2]. -/
theorem C3_compressed_ipv6_range_unmatched :
    ipv6AddressFromString "::1".toList = some 1 ∧
    ipv6AddressFromString "::2".toList = some 2 ∧
    is_ip_range "::1-::2" = false ∧
    get_from_string "::1-::2" = Except.ok [] := by decide

/-- C4: contrary to the claim, an invalid address that still matches the
network grammar raises an uncaught `ValueError`: "999.1.1.1" aborts
parsing (and any batch containing it) instead of contributing zero blocks,
while the same batch without it succeeds. -/
theorem C4_invalid_address_aborts_batch :
    get_from_string "999.1.1.1" = Except.error PyErr.valueError ∧
    get_from_strings ["999.1.1.1", "10.0.0.0/8"] = Except.error PyErr.valueError ∧
    get_from_strings ["10.0.0.0/8"] = Except.ok [⟨4, 167772160, 8⟩] := by decide

/-- C5: the count form computes `last = (A + N) - 1` in two address
constructions; whenever the intermediate `A + N` also stays inside the
family's space (and does not underflow), it hands `summarize_address_range`
the same pair as the range form A .. A+N-1, and scenario 2 parses
"172.16.0.0*128" to [172.16.0.0/25].  (The claim's weaker proviso — only
A+N-1 in range — fails at A+N = 2^width: see the counterexample.) -/
theorem C5_count_equals_range (v a N : Nat) (h1 : 1 ≤ a + N)
    (h2 : a + N < 2 ^ widthOf v) :
    addrAdd (v, a) (N : Int) = Except.ok (v, a + N) ∧
    addrAdd (v, a + N) (-1 : Int) = Except.ok (v, a + N - 1) ∧
    (match addrAdd (v, a) (N : Int) with
      | Except.error e => Except.error e
      | Except.ok mid =>
        match addrAdd mid (-1 : Int) with
        | Except.error e => Except.error e
        | Except.ok lastA => summarize_address_range (v, a) lastA) =
      summarize_address_range (v, a) (v, a + N - 1) ∧
    get_from_ip_count "172.16.0.0*128" = get_from_ip_range "172.16.0.0-172.16.0.127" ∧
    get_from_string "172.16.0.0*128" = Except.ok [⟨4, 2886729728, 25⟩] := by
  have hcast : ((2 : Int) ^ widthOf v) = ((2 ^ widthOf v : Nat) : Int) := by
    push_cast
    rfl
  have hr1 : ((a : Int) + (N : Int)) = ((a + N : Nat) : Int) := by
    omega
  have haddA : addrAdd (v, a) (N : Int) = Except.ok (v, a + N) := by
    unfold addrAdd
    show (if ((a : Int) + (N : Int) < 0 ∨
        (2 : Int) ^ widthOf v ≤ (a : Int) + (N : Int)) then
        Except.error PyErr.addressValueError
      else Except.ok (v, ((a : Int) + (N : Int)).toNat)) =
      Except.ok (v, a + N)
    rw [if_neg (by rw [hcast]; omega), hr1, Int.toNat_natCast]
  have hr2 : (((a + N : Nat) : Int) + (-1 : Int)) = ((a + N - 1 : Nat) : Int) := by
    omega
  have haddB : addrAdd (v, a + N) (-1 : Int) = Except.ok (v, a + N - 1) := by
    unfold addrAdd
    show (if (((a + N : Nat) : Int) + (-1 : Int) < 0 ∨
        (2 : Int) ^ widthOf v ≤ ((a + N : Nat) : Int) + (-1 : Int)) then
        Except.error PyErr.addressValueError
      else Except.ok (v, (((a + N : Nat) : Int) + (-1 : Int)).toNat)) =
      Except.ok (v, a + N - 1)
    rw [if_neg (by rw [hcast]; omega), hr2, Int.toNat_natCast]
  have h3rd : (match addrAdd (v, a) (N : Int) with
      | Except.error e => Except.error e
      | Except.ok mid =>
        match addrAdd mid (-1 : Int) with
        | Except.error e => Except.error e
        | Except.ok lastA => summarize_address_range (v, a) lastA) =
      summarize_address_range (v, a) (v, a + N - 1) := by
    rw [haddA]
    show (match addrAdd (v, a + N) (-1 : Int) with
      | Except.error e => Except.error e
      | Except.ok lastA => summarize_address_range (v, a) lastA) = _
    rw [haddB]
  exact ⟨haddA, haddB, h3rd, by decide, by decide⟩

/-- C5 witness: 172.16.0.0 with count 128 in family 4. -/
theorem C5_count_equals_range_witness :
    addrAdd (4, 2886729728) ((128 : Nat) : Int) = Except.ok (4, 2886729728 + 128) ∧
    addrAdd (4, 2886729728 + 128) (-1 : Int) = Except.ok (4, 2886729728 + 128 - 1) ∧
    (match addrAdd (4, 2886729728) ((128 : Nat) : Int) with
      | Except.error e => Except.error e
      | Except.ok mid =>
        match addrAdd mid (-1 : Int) with
        | Except.error e => Except.error e
        | Except.ok lastA => summarize_address_range (4, 2886729728) lastA) =
      summarize_address_range (4, 2886729728) (4, 2886729728 + 128 - 1) ∧
    get_from_ip_count "172.16.0.0*128" = get_from_ip_range "172.16.0.0-172.16.0.127" ∧
    get_from_string "172.16.0.0*128" = Except.ok [⟨4, 2886729728, 25⟩] :=
  C5_count_equals_range 4 2886729728 128 (by decide) (by decide)

/-- C5 counterexample: for A = 255.255.255.128, N = 128 the last address
A+N-1 = 255.255.255.255 is in range, yet the count form crashes with an
uncaught `AddressValueError` (the intermediate `A + N` equals 2^32), while
the corresponding range form succeeds with [255.255.255.128/25]. -/
theorem C5_count_overflow_crash :
    is_ip_count "255.255.255.128*128" = true ∧
    ipv4AddressFromString "255.255.255.128".toList = some 4294967168 ∧
    4294967168 + 128 - 1 < 2 ^ widthOf 4 ∧
    get_from_string "255.255.255.128*128" = Except.error PyErr.addressValueError ∧
    get_from_string "255.255.255.128-255.255.255.255" =
      Except.ok [⟨4, 4294967168, 25⟩] := by decide

/-- C6: whenever `ip_interface(s).network` succeeds, `get_from_ip_network`
returns exactly that one block, whose prefix fits the family width and
whose host bits are zero; scenario 3 converts the dotted mask
255.255.255.0 to /24, and a bare address yields the full-width network.
(The claim's "every well-formed address" fails for compressed IPv6: see
the counterexample.) -/
theorem C6_network_form_single_block (s : String) (n : Net)
    (h : ip_interfaceNet s.toList = Except.ok n) :
    get_from_ip_network s = Except.ok [n] ∧
    n.prefixlen ≤ n.width ∧ 2 ^ (n.width - n.prefixlen) ∣ n.addr ∧
    get_from_string "192.168.10.0/255.255.255.0" = Except.ok [⟨4, 3232238080, 24⟩] ∧
    get_from_string "10.11.12.13" = Except.ok [⟨4, 168496141, 32⟩] := by
  obtain ⟨hp, hd⟩ := ip_interfaceNet_shape h
  refine ⟨?_, hp, hd, by decide, by decide⟩
  unfold get_from_ip_network
  rw [h]

/-- C6 witness: the dotted-mask scenario string itself. -/
theorem C6_network_form_single_block_witness :
    get_from_ip_network "192.168.10.0/255.255.255.0" =
      Except.ok [⟨4, 3232238080, 24⟩] ∧
    (⟨4, 3232238080, 24⟩ : Net).prefixlen ≤ (⟨4, 3232238080, 24⟩ : Net).width ∧
    2 ^ ((⟨4, 3232238080, 24⟩ : Net).width - (⟨4, 3232238080, 24⟩ : Net).prefixlen) ∣
      (⟨4, 3232238080, 24⟩ : Net).addr ∧
    get_from_string "192.168.10.0/255.255.255.0" = Except.ok [⟨4, 3232238080, 24⟩] ∧
    get_from_string "10.11.12.13" = Except.ok [⟨4, 168496141, 32⟩] :=
  C6_network_form_single_block "192.168.10.0/255.255.255.0" ⟨4, 3232238080, 24⟩
    (by decide)

/-- C6 counterexample: "::1" is a well-formed address, but no grammar of
the program matches its compressed form, so the parser returns zero blocks
instead of the single full-width network ::1/128. -/
theorem C6_compressed_ipv6_network_unmatched :
    ipv6AddressFromString "::1".toList = some 1 ∧
    is_ip_network "::1" = false ∧ is_ip_range "::1" = false ∧
    is_ip_count "::1" = false ∧
    get_from_string "::1" = Except.ok [] := by decide

/-- C7: contrary to the claim, a matched range specifier with an
unparseable endpoint, or with endpoints out of order, raises an uncaught
`ValueError` (there is no `try` in `get_from_ip_range`) instead of a
non-fatal `InvalidRange` report. -/
theorem C7_invalid_range_uncaught :
    is_ip_range "1.2.3.4-999.1.1.1" = true ∧
    get_from_string "1.2.3.4-999.1.1.1" = Except.error PyErr.valueError ∧
    is_ip_range "192.168.1.10-192.168.1.1" = true ∧
    get_from_string "192.168.1.10-192.168.1.1" = Except.error PyErr.valueError := by
  decide

/-- C8: `overlaps` is indeed False across families and a v4 add set is
untouched by a v6 sub set, but the pipeline does not complete normally on
mixed add sets: excluding a v6 network from a v4 block raises `TypeError`
(`subnet_of` on mixed versions), so `main` crashes. -/
theorem C8_mixed_family_pipeline_crash :
    overlapsB ⟨4, 167772160, 8⟩ ⟨6, 42540766411282592856903984951653826560, 48⟩ =
      false ∧
    mainResult [⟨4, 167772160, 8⟩] [⟨6, 42540766411282592856903984951653826560, 48⟩] =
      some [⟨4, 167772160, 8⟩] ∧
    ip_network_exclude ⟨4, 167772160, 8⟩
      ⟨6, 42540766411282592856903984951653826560, 48⟩ = none ∧
    mainResult [⟨4, 167772160, 8⟩, ⟨6, 42540766411282592856903984951653826560, 32⟩]
      [⟨6, 42540766411282592856903984951653826560, 48⟩] = none := by decide

/-- C9: collapse runs exactly when the merge flag is set, and on
same-family well-formed inputs it succeeds, is structurally idempotent,
preserves the address union and never increases the block count.  (The
claim's "every block collection" fails on mixed families: see the
counterexample.) -/
theorem C9_collapse_properties (v : Nat) (X add sub : List Net)
    (hX : ∀ n ∈ X, n.WF ∧ n.version = v) :
    mainWithMerge false add sub = mainResult add sub ∧
    (∀ r, mainResult add sub = some r →
      mainWithMerge true add sub = collapse_addresses r) ∧
    ∃ O, collapse_addresses X = some O ∧ collapse_addresses O = some O ∧
      listSet O = listSet X ∧ O.length ≤ X.length := by
  refine ⟨?_, ?_, ?_⟩
  · unfold mainWithMerge
    cases mainResult add sub with
    | none => rfl
    | some r => rfl
  · intro r hr
    unfold mainWithMerge
    rw [hr]
    show (if true = true then collapse_addresses r else some r) = collapse_addresses r
    rw [if_pos rfl]
  · obtain ⟨O, h1, hcan, h3, h4⟩ := collapse_addresses_spec X hX
    exact ⟨O, h1, collapse_addresses_canonical hcan, h3, h4⟩

/-- C9 witness: the sibling pair {10.0.0.0/9, 10.128.0.0/9}. -/
theorem C9_collapse_properties_witness :
    mainWithMerge false [] [] = mainResult [] [] ∧
    (∀ r, mainResult [] [] = some r →
      mainWithMerge true [] [] = collapse_addresses r) ∧
    ∃ O, collapse_addresses [⟨4, 167772160, 9⟩, ⟨4, 176160768, 9⟩] = some O ∧
      collapse_addresses O = some O ∧
      listSet O = listSet [⟨4, 167772160, 9⟩, ⟨4, 176160768, 9⟩] ∧
      O.length ≤ ([⟨4, 167772160, 9⟩, ⟨4, 176160768, 9⟩] : List Net).length :=
  C9_collapse_properties 4 [⟨4, 167772160, 9⟩, ⟨4, 176160768, 9⟩] [] [] (by decide)

/-- C9 counterexample: collapse of a mixed-family collection raises
`TypeError` (the sort compares networks of different versions), so none of
the claimed properties can hold there. -/
theorem C9_mixed_family_collapse_crash :
    collapse_addresses
      [⟨4, 167772160, 8⟩, ⟨6, 42540766411282592856903984951653826560, 32⟩] =
      none := by decide

/-- C10: every block produced by `ip_network_exclude n e` is disjoint from
`e` and is returned unchanged by a second exclusion of `e`; consequently a
duplicated entry in the driver's sub-network list leaves `processAdd`'s
result unchanged. -/
theorem C10_exclude_idempotent_in_sub (v : Nat) (n e a : Net) (xs ys : List Net)
    (l : List Net) (hn : n.WF) (he : e.WF) (hv : n.version = e.version)
    (hl : ip_network_exclude n e = some l) (ha : a.WF) (hav : a.version = v)
    (hxs : ∀ x ∈ xs, x.WF ∧ x.version = v) (hev : e.version = v) :
    (∀ b ∈ l, b.toSet ∩ e.toSet = ∅ ∧ ip_network_exclude b e = some [b]) ∧
    processAdd a (xs ++ e :: e :: ys) = processAdd a (xs ++ e :: ys) :=
  ⟨ip_network_exclude_idem hn he hv hl, processAdd_dup ha hav hxs he hev⟩

/-- C10 witness: n = a = 10.0.0.0/8, e = 10.1.0.0/16, duplicate e in an
otherwise empty sub list. -/
theorem C10_exclude_idempotent_in_sub_witness :
    (∀ b ∈ [(⟨4, 176160768, 9⟩ : Net), ⟨4, 171966464, 10⟩, ⟨4, 169869312, 11⟩,
        ⟨4, 168820736, 12⟩, ⟨4, 168296448, 13⟩, ⟨4, 168034304, 14⟩,
        ⟨4, 167903232, 15⟩, ⟨4, 167772160, 16⟩],
      b.toSet ∩ (⟨4, 167837696, 16⟩ : Net).toSet = ∅ ∧
        ip_network_exclude b ⟨4, 167837696, 16⟩ = some [b]) ∧
    processAdd ⟨4, 167772160, 8⟩ ([] ++ ⟨4, 167837696, 16⟩ :: ⟨4, 167837696, 16⟩ :: []) =
      processAdd ⟨4, 167772160, 8⟩ ([] ++ ⟨4, 167837696, 16⟩ :: []) :=
  C10_exclude_idempotent_in_sub 4 ⟨4, 167772160, 8⟩ ⟨4, 167837696, 16⟩
    ⟨4, 167772160, 8⟩ [] [] _ (by decide) (by decide) rfl (by decide) (by decide) rfl
    (fun x hx => absurd hx (List.not_mem_nil x)) rfl

end IpCalc
